import Mathlib

/-!
Verification model of the swell tiling window manager core: the node forest
(model/node.rs), the layout and selection components (model/layout.rs,
model/selection.rs), the layout tree facade (model/layout_tree.rs), the
layout manager (layout.rs), the per-app worker raise protocol (app.rs) and
the reactor event loop (reactor.rs).

Modelling conventions:
- slotmap / HashMap / SecondaryMap state is represented by association lists
  with insert-replace and erase-first semantics; slotmap key allocation is a
  fresh counter.
- f32/f64 arithmetic is modelled by exact rationals; float rounding error is
  outside the model (noted per theorem where it matters).
- Rust panics (unwrap, assert, index of a missing key, explicit panic) are
  modelled by returning none.
- loops whose termination relies on well-formedness of the structure are
  given explicit fuel (one unit per visited node); exhausted fuel returns
  none, and witnesses always run with sufficient fuel.
- the doubly linked sibling lists of the forest are modelled as ordered
  child lists; prev and next sibling, first and last child are derived.
-/

unseal Rat.add Rat.sub Rat.mul Rat.inv

namespace Swell

/-- Lookup in an association list, first matching key wins. -/
def alookup {κ α : Type} [DecidableEq κ] (k : κ) : List (κ × α) → Option α
  | [] => none
  | (k2, v) :: rest => if k2 = k then some v else alookup k rest

/-- Insert or replace in an association list, keeping the position of an
existing key. -/
def ainsert {κ α : Type} [DecidableEq κ] (k : κ) (v : α) : List (κ × α) → List (κ × α)
  | [] => [(k, v)]
  | (k2, v2) :: rest => if k2 = k then (k, v) :: rest else (k2, v2) :: ainsert k v rest

/-- Erase the first entry with the given key from an association list. -/
def aerase {κ α : Type} [DecidableEq κ] (k : κ) : List (κ × α) → List (κ × α)
  | [] => []
  | (k2, v2) :: rest => if k2 = k then rest else (k2, v2) :: aerase k rest

/-- The keys of an association list. -/
def akeys {κ α : Type} : List (κ × α) → List κ := List.map Prod.fst

theorem alookup_ainsert {κ α : Type} [DecidableEq κ] (k : κ) (v : α) (l : List (κ × α)) :
    alookup k (ainsert k v l) = some v := by
  induction l with
  | nil => simp [ainsert, alookup]
  | cons hd tl ih =>
    obtain ⟨k2, v2⟩ := hd
    by_cases h : k2 = k
    · simp [ainsert, alookup, h]
    · simp [ainsert, alookup, h, ih]

theorem alookup_ainsert_ne {κ α : Type} [DecidableEq κ] {k k2 : κ} (v : α) (l : List (κ × α))
    (h : k2 ≠ k) : alookup k2 (ainsert k v l) = alookup k2 l := by
  induction l with
  | nil => simp [ainsert, alookup, Ne.symm h]
  | cons hd tl ih =>
    obtain ⟨k3, v3⟩ := hd
    by_cases h3 : k3 = k
    · subst h3
      simp only [ainsert, if_pos rfl, alookup, if_neg (Ne.symm h)]
    · by_cases h4 : k3 = k2
      · subst h4
        simp [ainsert, if_neg h3, alookup]
      · simp only [ainsert, if_neg h3, alookup, if_neg h4, ih]

theorem alookup_aerase_ne {κ α : Type} [DecidableEq κ] {k k2 : κ} (l : List (κ × α))
    (h : k2 ≠ k) : alookup k2 (aerase k l) = alookup k2 l := by
  induction l with
  | nil => simp [aerase]
  | cons hd tl ih =>
    obtain ⟨k3, v3⟩ := hd
    by_cases h3 : k3 = k
    · subst h3
      simp [aerase, alookup, if_neg (Ne.symm h)]
    · by_cases h4 : k3 = k2
      · subst h4
        simp [aerase, if_neg h3, alookup]
      · simp only [aerase, if_neg h3, alookup, if_neg h4, ih]

theorem mem_akeys_of_alookup {κ α : Type} [DecidableEq κ] {k : κ} {v : α} {l : List (κ × α)}
    (h : alookup k l = some v) : k ∈ akeys l := by
  induction l with
  | nil => simp [alookup] at h
  | cons hd tl ih =>
    obtain ⟨k2, v2⟩ := hd
    by_cases h2 : k2 = k
    · subst h2; simp [akeys]
    · simp only [alookup, if_neg h2] at h
      simp only [akeys, List.map_cons, List.mem_cons]
      exact Or.inr (ih h)

theorem alookup_isSome_of_mem_akeys {κ α : Type} [DecidableEq κ] {k : κ} {l : List (κ × α)}
    (h : k ∈ akeys l) : (alookup k l).isSome := by
  induction l with
  | nil => simp [akeys] at h
  | cons hd tl ih =>
    obtain ⟨k2, v2⟩ := hd
    by_cases h2 : k2 = k
    · simp [alookup, h2]
    · simp only [akeys, List.map_cons, List.mem_cons] at h
      rcases h with h | h
      · exact absurd h.symm h2
      · simpa [alookup, h2] using ih h

theorem alookup_none_of_not_mem_akeys {κ α : Type} [DecidableEq κ] {k : κ} {l : List (κ × α)}
    (h : k ∉ akeys l) : alookup k l = none := by
  cases he : alookup k l with
  | none => rfl
  | some v => exact absurd (mem_akeys_of_alookup he) h

theorem not_mem_akeys_aerase_self {κ α : Type} [DecidableEq κ] {k : κ} {l : List (κ × α)}
    (h : (akeys l).Nodup) : k ∉ akeys (aerase k l) := by
  induction l with
  | nil => simp [aerase, akeys]
  | cons hd tl ih =>
    obtain ⟨k2, v2⟩ := hd
    simp only [akeys, List.map_cons, List.nodup_cons] at h
    by_cases h2 : k2 = k
    · subst h2
      simp only [aerase, if_pos rfl]
      intro hm
      exact h.1 hm
    · simp only [aerase, if_neg h2, akeys, List.map_cons, List.mem_cons]
      rintro (he | hm)
      · exact h2 he.symm
      · exact ih h.2 hm

theorem alookup_aerase_self {κ α : Type} [DecidableEq κ] (k : κ) (l : List (κ × α))
    (h : (akeys l).Nodup) : alookup k (aerase k l) = none :=
  alookup_none_of_not_mem_akeys (not_mem_akeys_aerase_self h)

theorem akeys_ainsert_of_mem {κ α : Type} [DecidableEq κ] {k : κ} (v : α) {l : List (κ × α)}
    (h : k ∈ akeys l) : akeys (ainsert k v l) = akeys l := by
  induction l with
  | nil => simp [akeys] at h
  | cons hd tl ih =>
    obtain ⟨k2, v2⟩ := hd
    by_cases h2 : k2 = k
    · subst h2; simp [ainsert, akeys]
    · simp only [akeys, List.map_cons, List.mem_cons] at h
      rcases h with h | h
      · exact absurd h.symm h2
      · have ihr := ih (by simpa [akeys] using h)
        simp only [ainsert, if_neg h2, akeys, List.map_cons]
        simpa [akeys] using ihr

theorem akeys_ainsert_of_not_mem {κ α : Type} [DecidableEq κ] {k : κ} (v : α) {l : List (κ × α)}
    (h : k ∉ akeys l) : akeys (ainsert k v l) = akeys l ++ [k] := by
  induction l with
  | nil => simp [ainsert, akeys]
  | cons hd tl ih =>
    obtain ⟨k2, v2⟩ := hd
    simp only [akeys, List.map_cons, List.mem_cons, not_or] at h
    have h1 : k2 ≠ k := fun he => h.1 he.symm
    have ihr := ih (by simpa [akeys] using h.2)
    simp only [ainsert, if_neg h1, akeys, List.map_cons, List.cons_append]
    exact congrArg (k2 :: ·) (by simpa [akeys] using ihr)

theorem akeys_aerase_sublist {κ α : Type} [DecidableEq κ] (k : κ) (l : List (κ × α)) :
    (akeys (aerase k l)).Sublist (akeys l) := by
  induction l with
  | nil => simp [aerase]
  | cons hd tl ih =>
    obtain ⟨k2, v2⟩ := hd
    by_cases h2 : k2 = k
    · simp only [aerase, if_pos h2, akeys, List.map_cons]
      exact List.Sublist.cons _ (List.Sublist.refl _)
    · simp only [aerase, if_neg h2, akeys, List.map_cons]
      exact List.Sublist.cons₂ _ ih

theorem nodup_akeys_ainsert {κ α : Type} [DecidableEq κ] (k : κ) (v : α) {l : List (κ × α)}
    (h : (akeys l).Nodup) : (akeys (ainsert k v l)).Nodup := by
  by_cases hm : k ∈ akeys l
  · rwa [akeys_ainsert_of_mem v hm]
  · rw [akeys_ainsert_of_not_mem v hm]
    simpa [List.nodup_append] using ⟨h, hm⟩

theorem nodup_akeys_aerase {κ α : Type} [DecidableEq κ] (k : κ) {l : List (κ × α)}
    (h : (akeys l).Nodup) : (akeys (aerase k l)).Nodup :=
  (akeys_aerase_sublist k l).nodup h

theorem mem_akeys_ainsert {κ α : Type} [DecidableEq κ] {k k2 : κ} (v : α) (l : List (κ × α)) :
    k2 ∈ akeys (ainsert k v l) ↔ k2 = k ∨ k2 ∈ akeys l := by
  by_cases hm : k ∈ akeys l
  · rw [akeys_ainsert_of_mem v hm]
    constructor
    · exact Or.inr
    · rintro (rfl | h)
      · exact hm
      · exact h
  · rw [akeys_ainsert_of_not_mem v hm]
    simp [or_comm]

theorem mem_akeys_aerase_of_ne {κ α : Type} [DecidableEq κ] {k k2 : κ} {l : List (κ × α)}
    (hne : k2 ≠ k) (h : k2 ∈ akeys l) : k2 ∈ akeys (aerase k l) := by
  induction l with
  | nil => simp [akeys] at h
  | cons hd tl ih =>
    obtain ⟨k3, v3⟩ := hd
    by_cases h3 : k3 = k
    · subst h3
      simp only [akeys, List.map_cons, List.mem_cons] at h
      rcases h with h | h
      · exact absurd h hne
      · simpa [aerase, akeys] using h
    · simp only [akeys, List.map_cons, List.mem_cons] at h
      simp only [aerase, if_neg h3, akeys, List.map_cons, List.mem_cons]
      rcases h with h | h
      · exact Or.inl h
      · exact Or.inr (ih h)

/-! Geometry. CGFloat coordinates are modelled as exact rationals. -/

structure CGPoint where
  x : ℚ
  y : ℚ
deriving DecidableEq, Repr

structure CGSize where
  width : ℚ
  height : ℚ
deriving DecidableEq, Repr

structure CGRect where
  origin : CGPoint
  size : CGSize
deriving DecidableEq, Repr

def CGPoint.zero : CGPoint := ⟨0, 0⟩

def CGRect.zero : CGRect := ⟨⟨0, 0⟩, ⟨0, 0⟩⟩

/-- CGRect::min: the origin corner. -/
def CGRect.rmin (r : CGRect) : CGPoint := r.origin

/-- CGRect::max: origin plus size. -/
def CGRect.rmax (r : CGRect) : CGPoint :=
  ⟨r.origin.x + r.size.width, r.origin.y + r.size.height⟩

/-- f64::round: nearest integer, ties away from zero. -/
def roundQ (q : ℚ) : ℚ := if 0 ≤ q then ((⌊q + 1/2⌋ : ℤ) : ℚ) else -((⌊-q + 1/2⌋ : ℤ) : ℚ)

def CGPoint.round (p : CGPoint) : CGPoint := ⟨roundQ p.x, roundQ p.y⟩

/-- CGRect::round from util.rs: round the min and max corners to pixel
boundaries, then derive the size from the difference. -/
def CGRect.round (r : CGRect) : CGRect :=
  let minR := r.rmin.round
  let maxR := r.rmax.round
  ⟨minR, ⟨maxR.x - minR.x, maxR.y - minR.y⟩⟩

/-- IsWithin for f64 from util.rs. -/
def qWithin (a how b : ℚ) : Bool := |a - b| < how

def CGPoint.is_within (p : CGPoint) (how : ℚ) (q : CGPoint) : Bool :=
  qWithin p.x how q.x && qWithin p.y how q.y

def CGSize.is_within (s : CGSize) (how : ℚ) (o : CGSize) : Bool :=
  qWithin s.width how o.width && qWithin s.height how o.height

def CGRect.is_within (r : CGRect) (how : ℚ) (o : CGRect) : Bool :=
  r.origin.is_within how o.origin && r.size.is_within how o.size

/-- SameAs from util.rs: within 0.1 componentwise. -/
def CGRect.same_as (a b : CGRect) : Bool := a.is_within (1/10) b

def CGPoint.same_as (a b : CGPoint) : Bool := a.is_within (1/10) b

/-! Layout kinds and directions, from model/layout.rs. -/

inductive Orientation
  | horizontal
  | vertical
deriving DecidableEq, Repr

inductive LayoutKind
  | horizontal
  | vertical
  | tabbed
  | stacked
deriving DecidableEq, Repr

/-- LayoutKind::from. -/
def LayoutKind.ofOrientation : Orientation → LayoutKind
  | .horizontal => .horizontal
  | .vertical => .vertical

/-- LayoutKind::group. -/
def LayoutKind.group : Orientation → LayoutKind
  | .horizontal => .tabbed
  | .vertical => .stacked

/-- LayoutKind::orientation. -/
def LayoutKind.orientation : LayoutKind → Orientation
  | .horizontal | .tabbed => .horizontal
  | .vertical | .stacked => .vertical

/-- LayoutKind::is_group. -/
def LayoutKind.is_group : LayoutKind → Bool
  | .stacked | .tabbed => true
  | _ => false

inductive Direction
  | left
  | right
  | up
  | down
deriving DecidableEq, Repr

/-- Direction::orientation. -/
def Direction.orientation : Direction → Orientation
  | .left | .right => .horizontal
  | .up | .down => .vertical

/-! Identifiers. -/

abbrev NodeId := Nat

abbrev Pid := Int

/-- WindowId from app.rs: process id and per-process index. -/
structure WindowId where
  pid : Pid
  idx : Int
deriving DecidableEq, Repr

abbrev SpaceId := Nat

/-! The node forest (model/node.rs) together with the observing components
(model/layout.rs, model/selection.rs), combined in one state as wired up by
layout_tree.rs. The doubly linked sibling structure is represented by an
ordered child list per node. -/

structure Node where
  parent : Option NodeId := none
  children : List NodeId := []
deriving DecidableEq, Repr

/-- LayoutInfo from model/layout.rs, with its Default values. -/
structure LayoutInfo where
  size : ℚ := 0
  total : ℚ := 0
  kind : LayoutKind := .horizontal
  last_ungrouped_kind : LayoutKind := .horizontal
deriving DecidableEq, Repr

/-- SelectionInfo from model/selection.rs. -/
structure SelectionInfo where
  selected_child : NodeId
  stop_here : Bool
deriving DecidableEq, Repr

/-- TreeEvent from model/layout_tree.rs. -/
inductive TreeEvent
  | addedToForest (n : NodeId)
  | addedToParent (n : NodeId)
  | removingFromParent (n : NodeId)
  | removedFromForest (n : NodeId)
deriving DecidableEq, Repr

/-- The forest plus component state. The log records every observer event
dispatched so far (a model-level ghost used to state observer properties). -/
structure TreeState where
  nodes : List (NodeId × Node) := []
  nextId : NodeId := 0
  info : List (NodeId × LayoutInfo) := []
  sel : List (NodeId × SelectionInfo) := []
  log : List TreeEvent := []
deriving DecidableEq, Repr

def nodeData (t : TreeState) (n : NodeId) : Option Node := alookup n t.nodes

def setNode (t : TreeState) (n : NodeId) (nd : Node) : TreeState :=
  { t with nodes := ainsert n nd t.nodes }

/-- Element following n in a list (derived next-sibling pointer). -/
def listNext : List NodeId → NodeId → Option NodeId
  | [], _ => none
  | a :: rest, n => if a = n then rest.head? else listNext rest n

/-- Element preceding n in a list (derived prev-sibling pointer). -/
def listPrev (l : List NodeId) (n : NodeId) : Option NodeId := listNext l.reverse n

/-- NodeId::first_child. -/
def firstChildOf (t : TreeState) (n : NodeId) : Option (Option NodeId) :=
  (nodeData t n).map (·.children.head?)

/-- NodeId::last_child. -/
def lastChildOf (t : TreeState) (n : NodeId) : Option (Option NodeId) :=
  (nodeData t n).map (·.children.getLast?)

/-- NodeId::next_sibling. -/
def nextSiblingOf (t : TreeState) (n : NodeId) : Option (Option NodeId) := do
  let nd ← nodeData t n
  match nd.parent with
  | none => some none
  | some p => do
      let pd ← nodeData t p
      some (listNext pd.children n)

/-- NodeId::prev_sibling. -/
def prevSiblingOf (t : TreeState) (n : NodeId) : Option (Option NodeId) := do
  let nd ← nodeData t n
  match nd.parent with
  | none => some none
  | some p => do
      let pd ← nodeData t p
      some (listPrev pd.children n)

/-- NodeId::ancestors (the node itself first), with fuel bounding the chase
of parent pointers. -/
def ancestorsFuel (t : TreeState) : Nat → NodeId → Option (List NodeId)
  | 0, _ => none
  | fuel+1, n => do
      let nd ← nodeData t n
      match nd.parent with
      | none => some [n]
      | some p => do
          let rest ← ancestorsFuel t fuel p
          some (n :: rest)

def treeFuel (t : TreeState) : Nat := t.nodes.length + 1

def ancestors (t : TreeState) (n : NodeId) : Option (List NodeId) :=
  ancestorsFuel t (treeFuel t) n

/-- Selection::handle_event from model/selection.rs. -/
def selectionHandleEvent (t : TreeState) : TreeEvent → Option (List (NodeId × SelectionInfo))
  | .addedToForest _ => some t.sel
  | .addedToParent _ => some t.sel
  | .removingFromParent n => do
      let nd ← nodeData t n
      let p ← nd.parent
      match alookup p t.sel with
      | none => some t.sel
      | some si =>
          if si.selected_child = n then do
            let nextS ← nextSiblingOf t n
            let prevS ← prevSiblingOf t n
            match nextS.orElse (fun _ => prevS) with
            | some newSel => some (ainsert p { si with selected_child := newSel } t.sel)
            | none => some (aerase p t.sel)
          else some t.sel
  | .removedFromForest n => some (aerase n t.sel)

/-- Layout::handle_event from model/layout.rs. -/
def layoutHandleEvent (t : TreeState) : TreeEvent → Option (List (NodeId × LayoutInfo))
  | .addedToForest n => some (ainsert n {} t.info)
  | .addedToParent n => do
      let nd ← nodeData t n
      let p ← nd.parent
      let i ← alookup n t.info
      let info1 := ainsert n { i with size := 1 } t.info
      let ip ← alookup p info1
      some (ainsert p { ip with total := ip.total + 1 } info1)
  | .removingFromParent n => do
      let nd ← nodeData t n
      let p ← nd.parent
      let i ← alookup n t.info
      let ip ← alookup p t.info
      some (ainsert p { ip with total := ip.total - i.size } t.info)
  | .removedFromForest n => some (aerase n t.info)

/-- Components::dispatch_event: the selection component first, then the
layout component. The event is also recorded in the model's ghost log. -/
def dispatchEvent (t : TreeState) (e : TreeEvent) : Option TreeState := do
  let sel2 ← selectionHandleEvent t e
  let info2 ← layoutHandleEvent t e
  some { t with sel := sel2, info := info2, log := t.log ++ [e] }

/-- Forest::mk_node plus the added_to_forest observer call. -/
def mk_node (t : TreeState) : Option (TreeState × NodeId) := do
  let n := t.nextId
  let t1 := { t with nodes := t.nodes ++ [(n, {})], nextId := n + 1 }
  let t2 ← dispatchEvent t1 (.addedToForest n)
  some (t2, n)

/-- NodeId::link_under_back. -/
def link_under_back (t : TreeState) (n p : NodeId) : Option TreeState := do
  let nd ← nodeData t n
  let t1 := setNode t n { nd with parent := some p }
  let pd ← nodeData t1 p
  some (setNode t1 p { pd with children := pd.children ++ [n] })

/-- NodeId::link_under_front. -/
def link_under_front (t : TreeState) (n p : NodeId) : Option TreeState := do
  let nd ← nodeData t n
  let t1 := setNode t n { nd with parent := some p }
  let pd ← nodeData t1 p
  some (setNode t1 p { pd with children := n :: pd.children })

def listInsertBefore : List NodeId → NodeId → NodeId → List NodeId
  | [], _, n => [n]
  | a :: rest, s, n => if a = s then n :: a :: rest else a :: listInsertBefore rest s n

def listInsertAfter : List NodeId → NodeId → NodeId → List NodeId
  | [], _, n => [n]
  | a :: rest, s, n => if a = s then a :: n :: rest else a :: listInsertAfter rest s n

/-- NodeId::link_before; making a sibling of a rootless node panics. -/
def link_before (t : TreeState) (n s : NodeId) : Option TreeState := do
  let sd ← nodeData t s
  let p ← sd.parent
  let nd ← nodeData t n
  let t1 := setNode t n { nd with parent := some p }
  let pd ← nodeData t1 p
  some (setNode t1 p { pd with children := listInsertBefore pd.children s n })

/-- NodeId::link_after; making a sibling of a rootless node panics. -/
def link_after (t : TreeState) (n s : NodeId) : Option TreeState := do
  let sd ← nodeData t s
  let p ← sd.parent
  let nd ← nodeData t n
  let t1 := setNode t n { nd with parent := some p }
  let pd ← nodeData t1 p
  some (setNode t1 p { pd with children := listInsertAfter pd.children s n })

/-- NodeId::push_back from model/node.rs: make a fresh node and append it to
the parent's children, firing added_to_forest and added_to_parent. -/
def push_back (t : TreeState) (p : NodeId) : Option (TreeState × NodeId) := do
  let (t1, n) ← mk_node t
  let t2 ← link_under_back t1 n p
  let t3 ← dispatchEvent t2 (.addedToParent n)
  some (t3, n)

/-- NodeId::push_front from model/node.rs. -/
def push_front (t : TreeState) (p : NodeId) : Option (TreeState × NodeId) := do
  let (t1, n) ← mk_node t
  let t2 ← link_under_front t1 n p
  let t3 ← dispatchEvent t2 (.addedToParent n)
  some (t3, n)

/-- NodeId::insert_before from model/node.rs. -/
def insert_before (t : TreeState) (s : NodeId) : Option (TreeState × NodeId) := do
  let (t1, n) ← mk_node t
  let t2 ← link_before t1 n s
  let t3 ← dispatchEvent t2 (.addedToParent n)
  some (t3, n)

/-- NodeId::insert_after from model/node.rs. -/
def insert_after (t : TreeState) (s : NodeId) : Option (TreeState × NodeId) := do
  let (t1, n) ← mk_node t
  let t2 ← link_after t1 n s
  let t3 ← dispatchEvent t2 (.addedToParent n)
  some (t3, n)

/-- Attach an existing (detached) node at the back of a parent's children.
Modelled from the spec: the generic tree module used by layout_tree.rs is
not among the sources; per the TreeEvent documentation, a node attached to a
new parent fires added_to_parent again. -/
def attach_back (t : TreeState) (n p : NodeId) : Option TreeState := do
  let t1 ← link_under_back t n p
  dispatchEvent t1 (.addedToParent n)

/-- Attach an existing node before a sibling. Modelled from the spec, see
attach_back. -/
def attach_before (t : TreeState) (n s : NodeId) : Option TreeState := do
  let t1 ← link_before t n s
  dispatchEvent t1 (.addedToParent n)

/-- Attach an existing node after a sibling. Modelled from the spec, see
attach_back. -/
def attach_after (t : TreeState) (n s : NodeId) : Option TreeState := do
  let t1 ← link_after t n s
  dispatchEvent t1 (.addedToParent n)

/-- Node::delete_recursive from model/node.rs: remove each child from the
forest, fire removed_from_forest for it, recurse into its children, then
continue with its next sibling. -/
def delete_recursive : Nat → TreeState → List NodeId → Option TreeState
  | 0, _, _ => none
  | _, t, [] => some t
  | fuel+1, t, c :: rest => do
      let cd ← nodeData t c
      let t1 := { t with nodes := aerase c t.nodes }
      let t2 ← dispatchEvent t1 (.removedFromForest c)
      let t3 ← delete_recursive fuel t2 cd.children
      delete_recursive fuel t3 rest

/-- NodeId::remove from model/node.rs: fire removing_from_parent, remove the
node from the forest, unlink it from its parent, then delete all
descendants recursively. -/
def remove_raw (t : TreeState) (n : NodeId) : Option TreeState := do
  let t1 ← dispatchEvent t (.removingFromParent n)
  let nd ← nodeData t1 n
  let t2 := { t1 with nodes := aerase n t1.nodes }
  let t3 ←
    match nd.parent with
    | none => some t2
    | some p => do
        let pd ← nodeData t2 p
        some (setNode t2 p { pd with children := pd.children.erase n })
  delete_recursive (treeFuel t) t3 nd.children

/-- Detach a node from its parent without culling: fire removing_from_parent
while still linked, then unlink. Modelled from the spec: layout_tree.rs uses
node.detach(tree) from the missing generic tree module. Returns the old
parent. -/
def detach_no_cull (t : TreeState) (n : NodeId) : Option (TreeState × Option NodeId) := do
  let nd ← nodeData t n
  match nd.parent with
  | none => some (t, none)
  | some p => do
      let t1 ← dispatchEvent t (.removingFromParent n)
      let nd1 ← nodeData t1 n
      let t2 := setNode t1 n { nd1 with parent := none }
      let pd ← nodeData t2 p
      let t3 := setNode t2 p { pd with children := pd.children.erase n }
      some (t3, some p)

/-- Remove an already detached subtree: drop the node and every descendant
from the forest, firing removed_from_forest for each. Modelled from the
spec: removal fires observer callbacks for each removal. -/
def remove_detached (t : TreeState) (n : NodeId) : Option TreeState := do
  let nd ← nodeData t n
  let t1 := { t with nodes := aerase n t.nodes }
  let t2 ← dispatchEvent t1 (.removedFromForest n)
  delete_recursive (treeFuel t) t2 nd.children

/-- Culling (Components::removed_child in layout_tree.rs): after a child
removal, an empty non-root container is detached and removed, recursively up
the tree. -/
def cullFuel : Nat → TreeState → NodeId → Option TreeState
  | 0, _, _ => none
  | fuel+1, t, p => do
      let pd ← nodeData t p
      if pd.children.isEmpty && pd.parent.isSome then do
        let (t1, gp) ← detach_no_cull t p
        let t2 ← remove_detached t1 p
        match gp with
        | some g => cullFuel fuel t2 g
        | none => some t2
      else some t

/-- Detach plus culling of the old parent. -/
def detach (t : TreeState) (n : NodeId) : Option (TreeState × Option NodeId) := do
  let (t1, p?) ← detach_no_cull t n
  match p? with
  | none => some (t1, none)
  | some p => do
      let t2 ← cullFuel (treeFuel t) t1 p
      some (t2, some p)

/-- Detach a node and remove its subtree, culling the old parent: the
info.node.detach(tree).remove() pattern of layout_tree.rs. -/
def remove_from_tree (t : TreeState) (n : NodeId) : Option TreeState := do
  let (t1, _) ← detach t n
  remove_detached t1 n

/-! Layout component operations from model/layout.rs. -/

/-- Layout::assume_size_of: the new node takes over the old node's share;
asserts that both share a parent. -/
def assume_size_of (t : TreeState) (nw old : NodeId) : Option TreeState := do
  let nwd ← nodeData t nw
  let oldd ← nodeData t old
  if nwd.parent = oldd.parent then do
    let p ← nwd.parent
    let inw ← alookup nw t.info
    let ip ← alookup p t.info
    let info1 := ainsert p { ip with total := ip.total - inw.size } t.info
    let iold ← alookup old info1
    let info2 := ainsert old { iold with size := 0 } info1
    let inw2 ← alookup nw info2
    some { t with info := ainsert nw { inw2 with size := iold.size } info2 }
  else none

/-- Layout::set_kind. -/
def set_kind (t : TreeState) (n : NodeId) (k : LayoutKind) : Option TreeState := do
  let i ← alookup n t.info
  let i2 := { i with kind := k }
  let i3 := if k.is_group then i2 else { i2 with last_ungrouped_kind := k }
  some { t with info := ainsert n i3 t.info }

/-- Layout::kind. -/
def kindOf (t : TreeState) (n : NodeId) : Option LayoutKind :=
  (alookup n t.info).map (·.kind)

/-- Layout::proportion. Division by a zero total yields 0 here where f64
yields a non-finite value; no panic either way. -/
def proportion (t : TreeState) (n : NodeId) : Option (Option ℚ) := do
  let nd ← nodeData t n
  match nd.parent with
  | none => some none
  | some p => do
      let i ← alookup n t.info
      let ip ← alookup p t.info
      some (some (i.size / ip.total))

/-- Layout::total. -/
def totalOf (t : TreeState) (n : NodeId) : Option ℚ := (alookup n t.info).map (·.total)

/-- Layout::take_share: move share between two siblings, clamped to
[-size(node), size(src)]. -/
def take_share (t : TreeState) (node src : NodeId) (share : ℚ) : Option TreeState := do
  let nd ← nodeData t node
  let sd ← nodeData t src
  if nd.parent = sd.parent then do
    let isrc ← alookup src t.info
    let inode ← alookup node t.info
    let share1 := min share isrc.size
    let share2 := max share1 (-inode.size)
    let info1 := ainsert src { isrc with size := isrc.size - share2 } t.info
    let inode2 ← alookup node info1
    some { t with info := ainsert node { inode2 with size := inode2.size + share2 } info1 }
  else none

/-- Recursion structure of Layout::apply from model/layout.rs: a node is laid
out in a rectangle; group children all get the container rectangle; split
children partition it with a moving rounded cursor. -/
inductive ApplyTask
  | node (n : NodeId) (rect : CGRect)
  | group (cs : List NodeId) (rect : CGRect)
  | row (horiz : Bool) (total : ℚ) (outer : CGRect) (cursor : ℚ) (cs : List NodeId)

/-- Layout::apply from model/layout.rs, fueled. -/
def applyFuel (t : TreeState) (ws : List (NodeId × WindowId)) :
    Nat → ApplyTask → Option (List (WindowId × CGRect))
  | 0, _ => none
  | fuel+1, .node n rect =>
      match alookup n ws with
      | some wid => some [(wid, rect)]
      | none => do
          let i ← alookup n t.info
          let nd ← nodeData t n
          match i.kind with
          | .tabbed | .stacked => applyFuel t ws fuel (.group nd.children rect)
          | .horizontal => applyFuel t ws fuel (.row true i.total rect rect.origin.x nd.children)
          | .vertical => applyFuel t ws fuel (.row false i.total rect rect.origin.y nd.children)
  | _, .group [] _ => some []
  | fuel+1, .group (c :: cs) rect => do
      let o1 ← applyFuel t ws fuel (.node c rect)
      let o2 ← applyFuel t ws fuel (.group cs rect)
      some (o1 ++ o2)
  | _, .row _ _ _ _ [] => some []
  | fuel+1, .row horiz total outer cursor (c :: cs) => do
      let ic ← alookup c t.info
      let frac := ic.size / total
      let childRect :=
        if horiz then
          CGRect.round ⟨⟨cursor, outer.origin.y⟩, ⟨outer.size.width * frac, outer.size.height⟩⟩
        else
          CGRect.round ⟨⟨outer.origin.x, cursor⟩, ⟨outer.size.width, outer.size.height * frac⟩⟩
      let o1 ← applyFuel t ws fuel (.node c childRect)
      let cursor2 := if horiz then childRect.rmax.x else childRect.rmax.y
      let o2 ← applyFuel t ws fuel (.row horiz total outer cursor2 cs)
      some (o1 ++ o2)

def applyFuelOf (t : TreeState) : Nat := 3 * t.nodes.length + 3

/-- Layout::get_sizes. -/
def get_sizes (t : TreeState) (ws : List (NodeId × WindowId)) (root : NodeId) (rect : CGRect) :
    Option (List (WindowId × CGRect)) :=
  applyFuel t ws (applyFuelOf t) (.node root rect)

/-! Selection component operations from model/selection.rs. -/

/-- Selection::current_selection: follow selected_child links until a
stop_here entry or no entry; fueled against cycles in corrupt states. -/
def current_selection_fuel (t : TreeState) : Nat → NodeId → Option NodeId
  | 0, _ => none
  | fuel+1, n =>
      match alookup n t.sel with
      | none => some n
      | some si => if si.stop_here then some n else current_selection_fuel t fuel si.selected_child

def current_selection (t : TreeState) (root : NodeId) : Option NodeId :=
  current_selection_fuel t (t.sel.length + 1) root

/-- Selection::local_selection. -/
def local_selection (t : TreeState) (n : NodeId) : Option NodeId :=
  match alookup n t.sel with
  | none => none
  | some si => if si.stop_here then none else some si.selected_child

/-- Selection::select_locally. -/
def select_locally (t : TreeState) (n : NodeId) : Option TreeState := do
  let nd ← nodeData t n
  match nd.parent with
  | none => some t
  | some p => some { t with sel := ainsert p ⟨n, false⟩ t.sel }

/-- Ancestor walk of Selection::select. -/
def selectUp : Nat → TreeState → NodeId → Option TreeState
  | 0, _, _ => none
  | fuel+1, t, n => do
      let nd ← nodeData t n
      match nd.parent with
      | none => some t
      | some p => selectUp fuel { t with sel := ainsert p ⟨n, false⟩ t.sel } p

/-- Selection::select. -/
def select_sel (t : TreeState) (selection : NodeId) : Option TreeState := do
  let sel1 :=
    match alookup selection t.sel with
    | some si => ainsert selection { si with stop_here := true } t.sel
    | none => t.sel
  selectUp (treeFuel t) { t with sel := sel1 } selection

/-- Selection::last_selection, used by LayoutTree::descend_selection.
Modelled from the spec: the selection.rs sources do not contain it; per the
spec it is the most recent local selection of the container. -/
def last_selection (t : TreeState) (n : NodeId) : Option NodeId :=
  (alookup n t.sel).map (·.selected_child)

/-! LayoutTree facade from model/layout_tree.rs. -/

structure WindowNodeInfo where
  space : SpaceId
  node : NodeId
deriving DecidableEq, Repr

structure LayoutTree where
  tree : TreeState := {}
  windows : List (NodeId × WindowId) := []
  window_nodes : List (WindowId × List WindowNodeInfo) := []
  space_roots : List (SpaceId × NodeId) := []
  root_spaces : List (NodeId × SpaceId) := []
deriving DecidableEq, Repr

/-- LayoutTree::space: get or create the root node of a space. -/
def LayoutTree.space (lt : LayoutTree) (s : SpaceId) : Option (LayoutTree × NodeId) :=
  match alookup s lt.space_roots with
  | some r => some (lt, r)
  | none => do
      let (t1, n) ← mk_node lt.tree
      let sr := ainsert s n lt.space_roots
      let rs := ainsert n s lt.root_spaces
      some ({ lt with tree := t1, space_roots := sr, root_spaces := rs }, n)

/-- LayoutTree::add_window. -/
def LayoutTree.add_window (lt : LayoutTree) (parent : NodeId) (wid : WindowId) :
    Option (LayoutTree × NodeId) := do
  let anc ← ancestors lt.tree parent
  let root ← anc.getLast?
  let (t1, n) ← push_back lt.tree parent
  let ws := ainsert n wid lt.windows
  let sp ← alookup root lt.root_spaces
  let infos := (alookup wid lt.window_nodes).getD []
  let wns := ainsert wid (infos ++ [⟨sp, n⟩]) lt.window_nodes
  some ({ lt with tree := t1, windows := ws, window_nodes := wns }, n)

/-- LayoutTree::add_windows. -/
def LayoutTree.add_windows (lt : LayoutTree) (parent : NodeId) (wids : List WindowId) :
    Option LayoutTree :=
  wids.foldlM (fun l w => (l.add_window parent w).map (·.1)) lt

/-- Removal loop body of LayoutTree::retain_windows. -/
def removeWindowNodes : LayoutTree → List WindowNodeInfo → Option LayoutTree
  | lt, [] => some lt
  | lt, i :: rest => do
      let (t1, _) ← detach lt.tree i.node
      let t2 ← remove_detached t1 i.node
      removeWindowNodes { lt with tree := t2, windows := aerase i.node lt.windows } rest

/-- Iteration of LayoutTree::retain_windows over the window_nodes map. -/
def retainGo (pred : WindowId → Bool) :
    LayoutTree → List (WindowId × List WindowNodeInfo) → Option LayoutTree
  | lt, [] => some lt
  | lt, (wid, infos) :: rest =>
      if pred wid then retainGo pred lt rest
      else do
        let lt1 ← removeWindowNodes lt infos
        retainGo pred { lt1 with window_nodes := aerase wid lt1.window_nodes } rest

/-- LayoutTree::retain_windows. -/
def LayoutTree.retain_windows (lt : LayoutTree) (pred : WindowId → Bool) : Option LayoutTree :=
  retainGo pred lt lt.window_nodes

/-- LayoutTree::window_node: the node of a window on the given space. -/
def LayoutTree.window_node (lt : LayoutTree) (space : SpaceId) (wid : WindowId) : Option NodeId :=
  (((alookup wid lt.window_nodes).getD []).filter (fun i => i.space == space)).head?.map (·.node)

/-- LayoutTree::window_at. -/
def LayoutTree.window_at (lt : LayoutTree) (n : NodeId) : Option WindowId := alookup n lt.windows

/-- LayoutTree::add_container. -/
def LayoutTree.add_container (lt : LayoutTree) (parent : NodeId) (kind : LayoutKind) :
    Option (LayoutTree × NodeId) := do
  let (t1, n) ← push_back lt.tree parent
  let t2 ← set_kind t1 n kind
  some ({ lt with tree := t2 }, n)

/-- LayoutTree::select. -/
def LayoutTree.select (lt : LayoutTree) (n : NodeId) : Option LayoutTree :=
  (select_sel lt.tree n).map (fun t => { lt with tree := t })

/-- LayoutTree::selection. -/
def LayoutTree.selection (lt : LayoutTree) (root : NodeId) : Option NodeId :=
  current_selection lt.tree root

/-- LayoutTree::ascend_selection. -/
def LayoutTree.ascend_selection (lt : LayoutTree) (root : NodeId) :
    Option (LayoutTree × Bool) := do
  let s ← current_selection lt.tree root
  let nd ← nodeData lt.tree s
  match nd.parent with
  | some p => do
      let lt2 ← lt.select p
      some (lt2, true)
  | none => some (lt, false)

/-- LayoutTree::descend_selection. -/
def LayoutTree.descend_selection (lt : LayoutTree) (root : NodeId) :
    Option (LayoutTree × Bool) := do
  let s ← current_selection lt.tree root
  match last_selection lt.tree s with
  | some child => do
      let lt2 ← lt.select child
      some (lt2, true)
  | none => some (lt, false)

/-- LayoutTree::calculate_layout. -/
def LayoutTree.calculate_layout (lt : LayoutTree) (root : NodeId) (frame : CGRect) :
    Option (List (WindowId × CGRect)) :=
  get_sizes lt.tree lt.windows root frame

/-- LayoutTree::move_over. -/
def LayoutTree.move_over (lt : LayoutTree) (n : NodeId) (d : Direction) :
    Option (Option NodeId) := do
  let nd ← nodeData lt.tree n
  match nd.parent with
  | none => some none
  | some p => do
      let k ← kindOf lt.tree p
      if k.orientation = d.orientation then
        match d with
        | .up | .left => prevSiblingOf lt.tree n
        | .down | .right => nextSiblingOf lt.tree n
      else some none

/-- Ancestor scan of LayoutTree::traverse: the first ancestor that can move
over in the given direction. -/
def firstMoveOver (lt : LayoutTree) (d : Direction) : List NodeId → Option (Option NodeId)
  | [] => some none
  | n :: rest => do
      let r ← lt.move_over n d
      match r with
      | some x => some (some x)
      | none => firstMoveOver lt d rest

/-- One descent step of LayoutTree::traverse. The first child is computed
eagerly like Option::or in the source. -/
def traverseDescendStep (lt : LayoutTree) (d : Direction) (n : NodeId) :
    Option (Option NodeId) := do
  let k ← kindOf lt.tree n
  if k.orientation = d.orientation then
    match d with
    | .up | .left => lastChildOf lt.tree n
    | .down | .right => firstChildOf lt.tree n
  else do
    let fc ← firstChildOf lt.tree n
    match local_selection lt.tree n with
    | some s => some (some s)
    | none => some fc

/-- Descent loop of LayoutTree::traverse (iter::successors(...).last()). -/
def traverseDescend (lt : LayoutTree) (d : Direction) : Nat → NodeId → Option NodeId
  | 0, _ => none
  | fuel+1, n => do
      let step ← traverseDescendStep lt d n
      match step with
      | none => some n
      | some c => traverseDescend lt d fuel c

/-- LayoutTree::traverse. -/
def LayoutTree.traverse (lt : LayoutTree) (frm : NodeId) (d : Direction) :
    Option (Option NodeId) := do
  let anc ← ancestors lt.tree frm
  let entry ← firstMoveOver lt d anc
  match entry with
  | none => some none
  | some e => do
      let r ← traverseDescend lt d (treeFuel lt.tree) e
      some (some r)

/-- LayoutTree::layout (the kind of a node). -/
def LayoutTree.layoutKind (lt : LayoutTree) (n : NodeId) : Option LayoutKind :=
  kindOf lt.tree n

/-- LayoutTree::last_ungrouped_layout. -/
def LayoutTree.last_ungrouped_layout (lt : LayoutTree) (n : NodeId) : Option LayoutKind :=
  (alookup n lt.tree.info).map (·.last_ungrouped_kind)

/-- LayoutTree::set_layout. -/
def LayoutTree.set_layout (lt : LayoutTree) (n : NodeId) (k : LayoutKind) : Option LayoutTree :=
  (set_kind lt.tree n k).map (fun t => { lt with tree := t })

/-- LayoutTree::nest_in_container. -/
def LayoutTree.nest_in_container (lt : LayoutTree) (node : NodeId) (kind : LayoutKind) :
    Option (LayoutTree × NodeId) := do
  let nd ← nodeData lt.tree node
  let old_parent := nd.parent
  let prevS ← prevSiblingOf lt.tree node
  let nextS ← nextSiblingOf lt.tree node
  if prevS = none ∧ nextS = none ∧ old_parent.isSome then do
    let p ← old_parent
    let t2 ← set_kind lt.tree p kind
    some ({ lt with tree := t2 }, p)
  else
    match old_parent with
    | some op => do
        let isSel := local_selection lt.tree op = some node
        let (t1, newp) ← mk_node lt.tree
        let t2 ← attach_before t1 newp node
        let t3 ← assume_size_of t2 newp node
        let (t4, _) ← detach t3 node
        let t5 ← attach_back t4 node newp
        let t6 ← if isSel then select_locally t5 newp else some t5
        let t7 ← select_locally t6 node
        let t8 ← set_kind t7 newp kind
        some ({ lt with tree := t8 }, newp)
    | none => do
        let sp ← alookup node lt.root_spaces
        let oldRoot ← alookup sp lt.space_roots
        let rsp1 := aerase oldRoot lt.root_spaces
        let (t1, newRoot) ← mk_node lt.tree
        let t2 ← attach_back t1 oldRoot newRoot
        let spaceRoots := ainsert sp newRoot lt.space_roots
        let rsp2 := ainsert newRoot sp rsp1
        let t3 ← select_locally t2 node
        let t4 ← set_kind t3 newRoot kind
        some ({ lt with tree := t4, space_roots := spaceRoots, root_spaces := rsp2 }, newRoot)

/-- Descent loop of LayoutTree::move_node_inner: traverse down the sibling
until the next node with the orientation we are moving in. -/
def moveDescend (lt : LayoutTree) (d : Direction) : Nat → NodeId → Option NodeId
  | 0, _ => none
  | fuel+1, node => do
      let fc ← firstChildOf lt.tree node
      let next? :=
        match local_selection lt.tree node with
        | some s => some s
        | none => fc
      match next? with
      | none => some node
      | some next => do
          let k ← kindOf lt.tree node
          if k.orientation = d.orientation then some next
          else moveDescend lt d fuel next

/-- Ancestor scan of LayoutTree::move_node_inner (ancestors_with_parent,
skip(1), skip_while on mismatched parent orientation). The input list is the
ancestor list with the moving node already dropped. -/
def findMoveTarget (lt : LayoutTree) (d : Direction) : List NodeId → Option (Option NodeId)
  | [] => some none
  | [_] => some none
  | a :: p :: rest => do
      let k ← kindOf lt.tree p
      if k.orientation = d.orientation then some (some a)
      else findMoveTarget lt d (p :: rest)

/-- Final re-insertion of LayoutTree::move_node_inner, by destination and
direction polarity. -/
def moveAttach (lt : LayoutTree) (moving target : NodeId) (d : Direction) (ahead : Bool) :
    Option LayoutTree := do
  let (t1, _) ← detach lt.tree moving
  let t2 ←
    match d, ahead with
    | .right, true | .down, true | .left, false | .up, false => attach_after t1 moving target
    | _, _ => attach_before t1 moving target
  some { lt with tree := t2 }

/-- LayoutTree::move_node_inner. -/
def move_node_inner (lt : LayoutTree) (moving : NodeId) (d : Direction) : Option LayoutTree := do
  let mo ← lt.move_over moving d
  match mo with
  | some sibling => do
      let target ← moveDescend lt d (treeFuel lt.tree) sibling
      if target = sibling then moveAttach lt moving target d true
      else moveAttach lt moving target d false
  | none => do
      let anc ← ancestors lt.tree moving
      let tgt ← findMoveTarget lt d (anc.drop 1)
      match tgt with
      | some target => moveAttach lt moving target d true
      | none => do
          let old_root ← anc.getLast?
          let (lt1, _) ← lt.nest_in_container old_root (LayoutKind.ofOrientation d.orientation)
          moveAttach lt1 moving old_root d true

/-- LayoutTree::move_node. -/
def LayoutTree.move_node (lt : LayoutTree) (moving : NodeId) (d : Direction) :
    Option (LayoutTree × Bool) := do
  let nd ← nodeData lt.tree moving
  match nd.parent with
  | none => some (lt, false)
  | some old_parent => do
      let isSel := local_selection lt.tree old_parent = some moving
      let lt1 ← move_node_inner lt moving d
      if isSel then do
        let anc ← ancestors lt1.tree moving
        let t2 ← (anc.takeWhile (fun a => a != old_parent)).foldlM select_locally lt1.tree
        some ({ lt1 with tree := t2 }, true)
      else some (lt1, true)

/-- can_resize from LayoutTree::resize: the node has a non-group parent and a
sibling in the direction. -/
def canResize (lt : LayoutTree) (d : Direction) (n : NodeId) : Option Bool := do
  let nd ← nodeData lt.tree n
  match nd.parent with
  | none => some false
  | some p => do
      let k ← kindOf lt.tree p
      if k.is_group then some false
      else do
        let mo ← lt.move_over n d
        some mo.isSome

/-- First ancestor that can be resized, from LayoutTree::resize. -/
def findResizing (lt : LayoutTree) (d : Direction) : List NodeId → Option (Option NodeId)
  | [] => some none
  | n :: rest => do
      let c ← canResize lt d n
      if c then some (some n) else findResizing lt d rest

/-- Exchange-rate fold from LayoutTree::resize: the product of proportions of
every strict ancestor whose parent matches the direction orientation and is
not a group. -/
def exchangeRate (lt : LayoutTree) (d : Direction) : List NodeId → ℚ → Option ℚ
  | [], r => some r
  | n :: rest, r => do
      let nd ← nodeData lt.tree n
      match nd.parent with
      | some p => do
          let k ← kindOf lt.tree p
          if k.orientation = d.orientation ∧ ¬k.is_group then do
            let pr ← proportion lt.tree n
            let prv ← pr
            exchangeRate lt d rest (r * prv)
          else exchangeRate lt d rest r
      | none => exchangeRate lt d rest r

/-- LayoutTree::resize. -/
def LayoutTree.resize (lt : LayoutTree) (node : NodeId) (screen_frac : ℚ) (d : Direction) :
    Option (LayoutTree × Bool) := do
  let anc ← ancestors lt.tree node
  let rz ← findResizing lt d anc
  match rz with
  | none => some (lt, false)
  | some resizing => do
      let mo ← lt.move_over resizing d
      let sibling ← mo
      let ancR ← ancestors lt.tree resizing
      let rate ← exchangeRate lt d (ancR.drop 1) 1
      let rd ← nodeData lt.tree resizing
      let p ← rd.parent
      let tot ← totalOf lt.tree p
      let local_frac := screen_frac * tot / rate
      let t2 ← take_share lt.tree resizing sibling local_frac
      some ({ lt with tree := t2 }, true)

/-- One check_and_resize closure call of set_frame_from_resize: if the edge
delta is non-zero, bump the count and run the resize. -/
def resizeStage (lt : LayoutTree) (node : NodeId) (c : Nat) (delta whole : ℚ)
    (dir : Direction) : Option (LayoutTree × Nat) :=
  if delta ≠ 0 then (lt.resize node (delta / whole) dir).map (fun x => (x.1, c + 1))
  else some (lt, c)

/-- LayoutTree::set_frame_from_resize: apply a resize for each moved edge
(left, right, up, down in that order); panic if more than two edges moved. -/
def LayoutTree.set_frame_from_resize (lt : LayoutTree) (node : NodeId)
    (old_frame new_frame screen : CGRect) : Option LayoutTree := do
  let s1 ← resizeStage lt node 0 (old_frame.rmin.x - new_frame.rmin.x)
    screen.size.width .left
  let s2 ← resizeStage s1.1 node s1.2 (new_frame.rmax.x - old_frame.rmax.x)
    screen.size.width .right
  let s3 ← resizeStage s2.1 node s2.2 (old_frame.rmin.y - new_frame.rmin.y)
    screen.size.height .up
  let s4 ← resizeStage s3.1 node s3.2 (new_frame.rmax.y - old_frame.rmax.y)
    screen.size.height .down
  if s4.2 > 2 then none else some s4.1

/-- The number of edge deltas (left, right, top, bottom) that differ between
two frames. -/
def countDeltas (old_frame new_frame : CGRect) : Nat :=
  (if old_frame.rmin.x - new_frame.rmin.x ≠ 0 then 1 else 0) +
  (if new_frame.rmax.x - old_frame.rmax.x ≠ 0 then 1 else 0) +
  (if old_frame.rmin.y - new_frame.rmin.y ≠ 0 then 1 else 0) +
  (if new_frame.rmax.y - old_frame.rmax.y ≠ 0 then 1 else 0)

/-! The LayoutManager facade from layout.rs. -/

structure LayoutManager where
  tree : LayoutTree := {}
deriving DecidableEq, Repr

inductive LayoutCommand
  | shuffle
  | nextWindow
  | prevWindow
  | moveFocus (d : Direction)
  | ascend
  | descend
  | moveNode (d : Direction)
  | split (o : Orientation)
  | group (o : Orientation)
  | ungroup
  | debug
deriving DecidableEq, Repr

inductive LayoutEvent
  | windowRaised (space : SpaceId) (wid : Option WindowId)
  | windowResized (space : SpaceId) (wid : WindowId) (old_frame new_frame screen : CGRect)
deriving DecidableEq, Repr

structure EventResponse where
  raise_window : Option WindowId := none
deriving DecidableEq, Repr

/-- The MoveFocus arm of LayoutManager::handle_command. -/
def moveFocusResponse (lt : LayoutTree) (root : NodeId) (d : Direction) :
    Option EventResponse := do
  let cur ← current_selection lt.tree root
  let tgt ← lt.traverse cur d
  match tgt with
  | none => some {}
  | some nnode =>
      match lt.window_at nnode with
      | none => some {}
      | some wid => some { raise_window := some wid }

/-- LayoutManager::handle_command. -/
def LayoutManager.handle_command (m : LayoutManager) (space : SpaceId) (cmd : LayoutCommand) :
    Option (LayoutManager × EventResponse) := do
  let (lt0, root) ← m.tree.space space
  match cmd with
  | .shuffle => some (⟨lt0⟩, {})
  | .nextWindow => do
      let r ← moveFocusResponse lt0 root .left
      some (⟨lt0⟩, r)
  | .prevWindow => do
      let r ← moveFocusResponse lt0 root .right
      some (⟨lt0⟩, r)
  | .moveFocus d => do
      let r ← moveFocusResponse lt0 root d
      some (⟨lt0⟩, r)
  | .ascend => do
      let (lt1, _) ← lt0.ascend_selection root
      some (⟨lt1⟩, {})
  | .descend => do
      let (lt1, _) ← lt0.descend_selection root
      some (⟨lt1⟩, {})
  | .moveNode d => do
      let sel ← current_selection lt0.tree root
      let (lt1, _) ← lt0.move_node sel d
      some (⟨lt1⟩, {})
  | .split o => do
      let sel ← current_selection lt0.tree root
      let (lt1, _) ← lt0.nest_in_container sel (LayoutKind.ofOrientation o)
      some (⟨lt1⟩, {})
  | .group o => do
      let sel ← current_selection lt0.tree root
      let nd ← nodeData lt0.tree sel
      match nd.parent with
      | some p => do
          let lt1 ← lt0.set_layout p (LayoutKind.group o)
          some (⟨lt1⟩, {})
      | none => some (⟨lt0⟩, {})
  | .ungroup => do
      let sel ← current_selection lt0.tree root
      let nd ← nodeData lt0.tree sel
      match nd.parent with
      | some p => do
          let k ← kindOf lt0.tree p
          if k.is_group then do
            let lu ← lt0.last_ungrouped_layout p
            let lt1 ← lt0.set_layout p lu
            some (⟨lt1⟩, {})
          else some (⟨lt0⟩, {})
      | none => some (⟨lt0⟩, {})
  | .debug => some (⟨lt0⟩, {})

/-- LayoutManager::handle_event. -/
def LayoutManager.handle_event (m : LayoutManager) :
    LayoutEvent → Option (LayoutManager × EventResponse)
  | .windowRaised space wid =>
      match wid with
      | none => some (m, {})
      | some w =>
          match m.tree.window_node space w with
          | none => some (m, {})
          | some node => do
              let lt1 ← m.tree.select node
              some (⟨lt1⟩, {})
  | .windowResized space wid old_frame new_frame screen =>
      match m.tree.window_node space wid with
      | none => some (m, {})
      | some node => do
          let lt1 ← m.tree.set_frame_from_resize node old_frame new_frame screen
          some (⟨lt1⟩, {})

/-- LayoutManager::add_window. -/
def LayoutManager.add_window (m : LayoutManager) (space : SpaceId) (wid : WindowId) :
    Option LayoutManager := do
  let (lt0, root) ← m.tree.space space
  let (lt1, _) ← lt0.add_window root wid
  some ⟨lt1⟩

/-- LayoutManager::add_windows. -/
def LayoutManager.add_windows (m : LayoutManager) (space : SpaceId) (wids : List WindowId) :
    Option LayoutManager := do
  let (lt0, root) ← m.tree.space space
  let lt1 ← lt0.add_windows root wids
  some ⟨lt1⟩

/-- LayoutManager::retain_windows. -/
def LayoutManager.retain_windows (m : LayoutManager) (pred : WindowId → Bool) :
    Option LayoutManager :=
  (m.tree.retain_windows pred).map (fun lt => ⟨lt⟩)

/-- LayoutManager::calculate. -/
def LayoutManager.calculate (m : LayoutManager) (space : SpaceId) (screen : CGRect) :
    Option (LayoutManager × List (WindowId × CGRect)) := do
  let (lt0, root) ← m.tree.space space
  let frames ← lt0.calculate_layout root screen
  some (⟨lt0⟩, frames)

/-! The per-app worker raise protocol from app.rs. -/

/-- One app worker's local window table (app.rs State, restricted to what the
Raise arm reads; window elements are identified by their WindowId). -/
structure WorkerState where
  pid : Pid
  windows : List WindowId
deriving DecidableEq, Repr

/-- OS calls a worker issues while servicing a Raise request. -/
inductive OsCall
  | raise (wid : WindowId)
  | set_messaging_timeout (seconds : ℚ)
  | set_frontmost (value : Bool)
deriving DecidableEq, Repr

/-- RaiseToken::with from app.rs: take the mutex, load the atomic pid, and
produce the closure result only when it equals the caller's pid. The value
the atomic held during the locked read is the stored argument. -/
def RaiseToken.with {α : Type} (stored : Pid) (pid : Pid) (f : α) : Option α :=
  if pid = stored then some f else none

/-- The Request::Raise arm of State::handle_request from app.rs,
parameterized by the token pid observed under the lock and by oracles for
the outcomes of the fallible OS calls. Returns the OS calls issued and
whether an error result was propagated; none is the assert_eq panic. -/
def handle_raise (st : WorkerState) (wid : WindowId) (stored : Pid)
    (raiseOk timeoutOk frontOk timeout0Ok : Bool) : Option (List OsCall × Bool) :=
  if wid.pid = st.pid then
    if st.windows.contains wid then
      if raiseOk then
        let closure : List OsCall × Bool :=
          if timeoutOk then
            if frontOk then
              if timeout0Ok then
                ([.set_messaging_timeout (1/2), .set_frontmost true,
                  .set_messaging_timeout 0], false)
              else
                ([.set_messaging_timeout (1/2), .set_frontmost true,
                  .set_messaging_timeout 0], true)
            else ([.set_messaging_timeout (1/2), .set_frontmost true], true)
          else ([.set_messaging_timeout (1/2)], true)
        match RaiseToken.with stored st.pid closure with
        | some (calls, err) => some ([OsCall.raise wid] ++ calls, err)
        | none => some ([OsCall.raise wid], false)
      else some ([OsCall.raise wid], true)
    else some ([], true)
  else none

/-! The reactor from reactor.rs. -/

abbrev TxId := Nat

def u32Max : Nat := 4294967295

/-- WindowState from reactor.rs. -/
structure WindowState where
  title : String := ""
  frame_last_read : CGRect := CGRect.zero
  frame_last_written : CGRect := CGRect.zero
  last_sent_txid : TxId := 0
deriving DecidableEq, Repr

/-- WindowState::next_txid; the u32 increment is overflow-checked (debug
profile semantics). -/
def WindowState.next_txid (w : WindowState) : Option (WindowState × TxId) :=
  if w.last_sent_txid + 1 ≤ u32Max then
    some ({ w with last_sent_txid := w.last_sent_txid + 1 }, w.last_sent_txid + 1)
  else none

/-- WindowInfo from app.rs as consumed by the reactor. -/
structure WindowInfo where
  is_standard : Bool
  title : String := ""
  frame : CGRect := CGRect.zero
deriving DecidableEq, Repr

/-- From WindowInfo for WindowState. -/
def WindowState.fromInfo (info : WindowInfo) : WindowState :=
  { title := info.title, frame_last_read := info.frame,
    frame_last_written := CGRect.zero, last_sent_txid := 0 }

structure AppInfo where
  bundle_id : Option String := none
  localized_name : Option String := none
deriving DecidableEq, Repr

/-- AppState from reactor.rs; the worker thread handle is represented by the
pid-keyed dispatch list of the model. -/
structure AppState where
  info : AppInfo := {}
  main_window : Option WindowId := none
  is_frontmost : Bool := false
deriving DecidableEq, Repr

structure Screen where
  frame : CGRect
  space : SpaceId
deriving DecidableEq, Repr

inductive Command
  | hello
  | layout (cmd : LayoutCommand)
  | metricsShowTiming
deriving DecidableEq, Repr

/-- Event from reactor.rs. -/
inductive Event
  | applicationLaunched (pid : Pid) (st : AppState) (windows : List (WindowId × WindowInfo))
  | applicationTerminated (pid : Pid)
  | applicationActivated (pid : Pid) (main_window : Option WindowId)
  | applicationGloballyActivated (pid : Pid)
  | applicationGloballyDeactivated (pid : Pid)
  | applicationDeactivated (pid : Pid)
  | applicationMainWindowChanged (pid : Pid) (wid : Option WindowId)
  | windowCreated (wid : WindowId) (info : WindowInfo)
  | windowDestroyed (wid : WindowId)
  | windowMoved (wid : WindowId) (pos : CGPoint) (txid : TxId)
  | windowResized (wid : WindowId) (frame : CGRect) (txid : TxId)
  | screenParametersChanged (frames : List CGRect) (spaces : List SpaceId)
  | spaceChanged (spaces : List SpaceId)
  | command (c : Command)
deriving DecidableEq, Repr

structure AnimEntry where
  pid : Pid
  wid : WindowId
  start : CGRect
  finish : CGRect
  is_new : Bool
  txid : TxId
deriving DecidableEq, Repr

/-- Requests dispatched to app workers. An animate batch stands for the
Begin/SetWindowFrame/SetWindowPos/End request sequences the Animation
collaborator emits for its entries (their framing is wall-clock dependent);
with is_resize set, skip_to_end sends one SetWindowFrame per entry. An empty
batch sends nothing and is not recorded. -/
inductive Dispatch
  | raise (wid : WindowId)
  | animate (entries : List AnimEntry) (is_resize : Bool)
deriving DecidableEq, Repr

structure Reactor where
  apps : List (Pid × AppState) := []
  layout : LayoutManager := {}
  windows : List (WindowId × WindowState) := []
  main_screen : Option Screen := none
  space : Option SpaceId := none
  frontmost_app : Option Pid := none
  global_frontmost_app_pid : Option Pid := none
  raise_token_pid : Pid := 0
deriving DecidableEq, Repr

/-- Reactor::new. -/
def Reactor.new : Reactor := {}

/-- Reactor::main_window: the main window of the active app. Indexing a
frontmost pid missing from the app map panics. -/
def Reactor.main_window (s : Reactor) : Option (Option WindowId) :=
  match s.frontmost_app with
  | none => some none
  | some pid => (alookup pid s.apps).map (·.main_window)

/-- Reactor::handle_response plus Reactor::raise_window. -/
def Reactor.handle_response (s : Reactor) (r : EventResponse) :
    Option (Reactor × List Dispatch) :=
  match r.raise_window with
  | none => some (s, [])
  | some wid => do
      let _ ← alookup wid.pid s.apps
      some ({ s with raise_token_pid := wid.pid }, [Dispatch.raise wid])

/-- One window of the Reactor::update_layout animation loop. -/
def updateLayoutStep (newWid : Option WindowId) (apps : List (Pid × AppState)) :
    (List (WindowId × WindowState) × List AnimEntry) → (WindowId × CGRect) →
    Option (List (WindowId × WindowState) × List AnimEntry)
  | (ws, es), (wid, target) => do
      let w ← alookup wid ws
      let tr := target.round
      if tr.same_as w.frame_last_written then some (ws, es)
      else do
        let _ ← alookup wid.pid apps
        let isNew := some wid == newWid
        let (w2, txid) ← w.next_txid
        some (ainsert wid w2 ws, es ++ [⟨wid.pid, wid, w.frame_last_written, tr, isNew, txid⟩])

/-- The final frame_last_written write loop of Reactor::update_layout; note
it records the unrounded target. -/
def writeFrameStep (ws : List (WindowId × WindowState)) (p : WindowId × CGRect) :
    Option (List (WindowId × WindowState)) := do
  let w ← alookup p.1 ws
  some (ainsert p.1 { w with frame_last_written := p.2 } ws)

/-- Reactor::update_layout. -/
def Reactor.update_layout (s : Reactor) (newWid : Option WindowId) (isResize : Bool) :
    Option (Reactor × List Dispatch) :=
  match s.main_screen with
  | none => some (s, [])
  | some scr =>
      if some scr.space ≠ s.space then some (s, [])
      else do
        let _ ← s.main_window
        let sp ← s.space
        let (lay2, frames) ← s.layout.calculate sp scr.frame
        let (ws2, entries) ← frames.foldlM (updateLayoutStep newWid s.apps) (s.windows, [])
        let ws3 ← frames.foldlM writeFrameStep ws2
        let ds := if entries.isEmpty then [] else [Dispatch.animate entries isResize]
        some ({ s with layout := lay2, windows := ws3 }, ds)

/-- Result of the event match of Reactor::handle_event: early is a return
statement inside the match; cont falls through to the main-window check and
Reactor::update_layout. -/
inductive StepOut
  | early (s : Reactor)
  | cont (s : Reactor) (ds : List Dispatch) (animFocus : Option WindowId) (isResize : Bool)

/-- The event match of Reactor::handle_event. -/
def Reactor.mainStep (s : Reactor) : Event → Option StepOut
  | .applicationLaunched pid st wlist => do
      let apps1 := ainsert pid st s.apps
      let sp ← s.space
      let s1 := { s with apps := apps1 }
      let lay1 ← s1.layout.add_windows sp ((wlist.filter (fun p => p.2.is_standard)).map (·.1))
      let ws1 := wlist.foldl (fun ws p => ainsert p.1 (WindowState.fromInfo p.2) ws) s.windows
      let fm :=
        if st.is_frontmost ∧ s.global_frontmost_app_pid = some pid then some pid
        else s.frontmost_app
      some (.cont { s1 with layout := lay1, windows := ws1, frontmost_app := fm } [] none false)
  | .applicationTerminated pid => do
      let _ ← alookup pid s.apps
      let s1 := { s with apps := aerase pid s.apps }
      let lay1 ← s1.layout.retain_windows (fun wid => wid.pid != pid)
      let fm := if some pid = s.frontmost_app then none else s.frontmost_app
      some (.cont { s1 with layout := lay1, frontmost_app := fm } [] none false)
  | .applicationActivated pid mw => do
      let a ← alookup pid s.apps
      let apps1 := ainsert pid { a with is_frontmost := true, main_window := mw } s.apps
      let fm := if s.global_frontmost_app_pid = some pid then some pid else s.frontmost_app
      some (.cont { s with apps := apps1, frontmost_app := fm } [] none false)
  | .applicationGloballyActivated pid =>
      let isf := ((alookup pid s.apps).map (·.is_frontmost)).getD false
      let fm := if isf then some pid else s.frontmost_app
      some (.cont { s with global_frontmost_app_pid := some pid, frontmost_app := fm }
        [] none false)
  | .applicationDeactivated pid => do
      let a ← alookup pid s.apps
      let apps1 := ainsert pid { a with is_frontmost := false } s.apps
      let fm := if s.frontmost_app = some pid then none else s.frontmost_app
      some (.cont { s with apps := apps1, frontmost_app := fm } [] none false)
  | .applicationGloballyDeactivated pid =>
      let g :=
        if s.global_frontmost_app_pid = some pid then none else s.global_frontmost_app_pid
      let fm := if s.frontmost_app = some pid then none else s.frontmost_app
      some (.cont { s with global_frontmost_app_pid := g, frontmost_app := fm } [] none false)
  | .applicationMainWindowChanged pid mw => do
      let a ← alookup pid s.apps
      some (.cont { s with apps := ainsert pid { a with main_window := mw } s.apps }
        [] none false)
  | .windowCreated wid info => do
      let s1 ←
        if (s.main_screen.map (·.space)) = s.space ∧ info.is_standard then do
          let sp ← s.space
          let lay1 ← s.layout.add_window sp wid
          some { s with layout := lay1 }
        else some s
      let ws1 := ainsert wid (WindowState.fromInfo info) s1.windows
      some (.cont { s1 with windows := ws1 } [] (some wid) false)
  | .windowDestroyed wid => do
      let lay1 ← s.layout.retain_windows (fun id => wid != id)
      let _ ← alookup wid s.windows
      some (.cont { s with layout := lay1, windows := aerase wid s.windows } [] none false)
  | .windowMoved wid pos txid => do
      let w ← alookup wid s.windows
      if txid ≠ w.last_sent_txid then some (.early s)
      else
        let w2 := { w with frame_last_read := ⟨pos, w.frame_last_read.size⟩ }
        some (.early { s with windows := ainsert wid w2 s.windows })
  | .windowResized wid frame txid => do
      let w ← alookup wid s.windows
      if txid ≠ w.last_sent_txid then some (.early s)
      else if w.frame_last_read = frame then some (.early s)
      else
        let old := w.frame_last_read
        let s1 := { s with windows := ainsert wid { w with frame_last_read := frame } s.windows }
        match s1.space with
        | none => some (.early s1)
        | some sp =>
            match s1.main_screen with
            | none => some (.early s1)
            | some scr => do
                let (lay1, resp) ← s1.layout.handle_event
                  (.windowResized sp wid old frame scr.frame)
                let s2 := { s1 with layout := lay1 }
                let (s3, ds) ← s2.handle_response resp
                some (.cont s3 ds none true)
  | .screenParametersChanged frames spaces =>
      let sp := if s.space = none then spaces.head? else s.space
      let scr := (frames.zip spaces).head?.map (fun p => Screen.mk p.1 p.2)
      some (.cont { s with space := sp, main_screen := scr } [] none false)
  | .spaceChanged spaces =>
      match s.main_screen with
      | none => some (.cont s [] none false)
      | some scr => do
          let sp ← spaces.head?
          some (.cont { s with main_screen := some { scr with space := sp } } [] none false)
  | .command .hello => some (.cont s [] none false)
  | .command (.layout cmd) => do
      let sp ← s.space
      let (lay1, resp) ← s.layout.handle_command sp cmd
      let s1 := { s with layout := lay1 }
      let (s2, ds) ← s1.handle_response resp
      some (.cont s2 ds none false)
  | .command .metricsShowTiming => some (.cont s [] none false)

/-- Reactor::handle_event: record the original main window, run the event
match, and on fall-through run the main-window change hook and
update_layout. -/
def Reactor.handle_event (s : Reactor) (e : Event) : Option (Reactor × List Dispatch) := do
  let mwo ← s.main_window
  let step ← s.mainStep e
  match step with
  | .early s1 => some (s1, [])
  | .cont s1 ds afw ir => do
      let mw1 ← s1.main_window
      let (s2, ds2) ←
        if mw1 ≠ mwo then do
          let sp ← s1.space
          let (lay2, resp) ← s1.layout.handle_event (.windowRaised sp mw1)
          let s15 := { s1 with layout := lay2 }
          s15.handle_response resp
        else some (s1, [])
      let (s3, ds3) ← s2.update_layout afw ir
      some (s3, ds ++ ds2 ++ ds3)

/-- Run a sequence of events through the reactor. -/
def runEvents : Reactor → List Event → Option Reactor
  | s, [] => some s
  | s, e :: es => do
      let (s1, _) ← s.handle_event e
      runEvents s1 es

/-! Concrete scenario states used by witnesses and counterexamples. -/

/-- The scenario tree Horizontal(W1, Vertical(W2, W3, W4), W5) on space 1
with the vertical container locally selected at W3. Node ids: root 0, W1 1,
vertical container 2, W2 3, W3 4, W4 5, W5 6. -/
def scenarioTreeOpt : Option LayoutTree := do
  let lt0 : LayoutTree := {}
  let (lt1, root) ← lt0.space 1
  let (lt2, _w1) ← lt1.add_window root ⟨1, 1⟩
  let (lt3, vert) ← lt2.add_container root .vertical
  let (lt4, _w2) ← lt3.add_window vert ⟨1, 2⟩
  let (lt5, w3) ← lt4.add_window vert ⟨1, 3⟩
  let (lt6, _w4) ← lt5.add_window vert ⟨1, 4⟩
  let (lt7, _w5) ← lt6.add_window root ⟨1, 5⟩
  lt7.select w3

def scenarioTree : LayoutTree := scenarioTreeOpt.getD {}

/-- The scenario tree with the current selection moved to a given node
(selecting a leaf leaves the vertical container's local selection intact,
selecting W4 moves it). -/
def scenarioTreeSel (n : NodeId) : LayoutTree := (scenarioTree.select n).getD {}

/-- A reactor tracking one window with last_sent_txid 5. -/
def c1state : Reactor :=
  { windows := [(⟨1, 1⟩, { last_sent_txid := 5 })] }

/-- C1: for every reactor state and every WindowMoved or WindowResized event
whose carried transaction id differs from the reactor's last_sent_txid for
that window, handling the event changes no reactor state and sends no
request to any app worker. -/
theorem c1_stale_event_no_effect (s : Reactor) (wid : WindowId) (w : WindowState)
    (e : Event) (t : TxId) (p : CGPoint) (f : CGRect)
    (he : e = .windowMoved wid p t ∨ e = .windowResized wid f t)
    (hw : alookup wid s.windows = some w)
    (ht : t ≠ w.last_sent_txid)
    (hmw : (s.main_window).isSome) :
    s.handle_event e = some (s, []) := by
  obtain ⟨mwo, hmwo⟩ := Option.isSome_iff_exists.mp hmw
  rcases he with rfl | rfl <;>
    simp [Reactor.handle_event, Reactor.mainStep, hw, ht, hmwo]

/-- Witness for C1 at a concrete state and event. -/
theorem c1_stale_event_no_effect_witness :
    Reactor.handle_event c1state (.windowMoved ⟨1, 1⟩ CGPoint.zero 4) = some (c1state, []) :=
  c1_stale_event_no_effect c1state ⟨1, 1⟩ { last_sent_txid := 5 }
    (.windowMoved ⟨1, 1⟩ CGPoint.zero 4) 4 CGPoint.zero CGRect.zero
    (Or.inl rfl) (by decide) (by decide) (by decide)

/-- C3 counterexample: in the scenario tree with the selection on W1,
MoveFocus(Left) returns no raise-window, not raise W3 as claimed (W1 is the
leftmost leaf and no ancestor can move left; the code's own traverse test
asserts the same). -/
theorem c3_counterexample :
    (LayoutManager.handle_command ⟨scenarioTreeSel 1⟩ 1 (.moveFocus .left)).map
      (fun pr => pr.2.raise_window) = some none := by decide

/-- C3 amended: in the scenario tree, MoveFocus(Left) from W5 raises W3;
MoveFocus(Left) from W1 returns no raise-window; MoveFocus(Up) from W3
raises W2; MoveFocus(Down) from W4 returns no raise-window. -/
theorem c3_traversal_amended :
    ((LayoutManager.handle_command ⟨scenarioTreeSel 6⟩ 1 (.moveFocus .left)).map
        (fun pr => pr.2.raise_window) = some (some ⟨1, 3⟩)) ∧
    ((LayoutManager.handle_command ⟨scenarioTreeSel 1⟩ 1 (.moveFocus .left)).map
        (fun pr => pr.2.raise_window) = some none) ∧
    ((LayoutManager.handle_command ⟨scenarioTree⟩ 1 (.moveFocus .up)).map
        (fun pr => pr.2.raise_window) = some (some ⟨1, 2⟩)) ∧
    ((LayoutManager.handle_command ⟨scenarioTreeSel 5⟩ 1 (.moveFocus .down)).map
        (fun pr => pr.2.raise_window) = some none) := by
  refine ⟨by decide, by decide, by decide, by decide⟩

/-- C9: a worker servicing Raise(wid, token) performs app activation
(set_frontmost) only if the token pid read while holding the token's mutex
equals the worker's own pid; if it differs, no set_frontmost call is issued
(for every outcome of the surrounding fallible OS calls). -/
theorem c9_raise_token_guard (st : WorkerState) (wid : WindowId) (stored : Pid)
    (raiseOk timeoutOk frontOk timeout0Ok : Bool) (calls : List OsCall) (err : Bool)
    (hne : stored ≠ st.pid)
    (h : handle_raise st wid stored raiseOk timeoutOk frontOk timeout0Ok = some (calls, err)) :
    ∀ b, OsCall.set_frontmost b ∉ calls := by
  intro b
  unfold handle_raise at h
  by_cases h1 : wid.pid = st.pid
  · simp only [h1, if_pos rfl] at h
    by_cases h2 : st.windows.contains wid
    · simp only [h2, if_pos rfl, if_true] at h
      cases raiseOk with
      | false =>
        simp only [Bool.false_eq_true, if_false] at h
        obtain ⟨he1, _⟩ := Prod.mk.injEq .. ▸ Option.some.injEq .. ▸ h
        subst he1
        simp
      | true =>
        simp only [if_true] at h
        rw [RaiseToken.with, if_neg (fun hc => hne hc.symm)] at h
        obtain ⟨he1, _⟩ := Prod.mk.injEq .. ▸ Option.some.injEq .. ▸ h
        subst he1
        simp
    · simp only [h2] at h
      obtain ⟨he1, _⟩ := Prod.mk.injEq .. ▸ Option.some.injEq .. ▸ h
      subst he1
      simp
  · simp [h1] at h

/-- Witness for C9: a worker with pid 1 servicing a raise while the token
holds pid 2 issues only the raise call. -/
theorem c9_raise_token_guard_witness :
    OsCall.set_frontmost true ∉ [OsCall.raise ⟨1, 1⟩] :=
  c9_raise_token_guard ⟨1, [⟨1, 1⟩]⟩ ⟨1, 1⟩ 2 true true true true
    [OsCall.raise ⟨1, 1⟩] false (by decide) (by decide) true

/-- C10: provided the space's root node already exists, handling a
MoveFocus command leaves the layout manager state (tree structure, layout
info, selections, window maps) entirely unchanged; the command only computes
a traversal and returns an optional raise-window. -/
theorem c10_move_focus_pure (m : LayoutManager) (sp : SpaceId) (d : Direction)
    (root : NodeId) (m2 : LayoutManager) (r : EventResponse)
    (hroot : alookup sp m.tree.space_roots = some root)
    (h : m.handle_command sp (.moveFocus d) = some (m2, r)) :
    m2 = m := by
  rw [LayoutManager.handle_command, LayoutTree.space, hroot] at h
  simp only [Option.bind_eq_bind, Option.some_bind] at h
  cases hr : moveFocusResponse m.tree root d with
  | none => rw [hr] at h; simp at h
  | some rr =>
    rw [hr] at h
    simp only [Option.some_bind, Option.some.injEq, Prod.mk.injEq] at h
    exact h.1.symm

/-- Witness for C10 on the scenario tree. -/
theorem c10_move_focus_pure_witness : (⟨scenarioTree⟩ : LayoutManager) = ⟨scenarioTree⟩ :=
  c10_move_focus_pure ⟨scenarioTree⟩ 1 .up 0 ⟨scenarioTree⟩ { raise_window := some ⟨1, 2⟩ }
    (by decide) (by decide)

/-! C2: frontmost-app agreement. -/

/-- Events driving the reactor into a state where frontmost_app and the
global frontmost pid disagree: app 1 becomes frontmost (both sources agree),
then a global activation for the not-self-frontmost app 2 arrives. -/
def c2events : List Event :=
  [.screenParametersChanged [CGRect.zero] [1],
   .applicationLaunched 1 {} [],
   .applicationLaunched 2 {} [],
   .applicationGloballyActivated 1,
   .applicationActivated 1 none,
   .applicationGloballyActivated 2]

/-- C2 counterexample: a reachable state has frontmost_app = some 1 while
global_frontmost_app_pid = some 2, refuting the claim that frontmost_app =
some p implies global_frontmost_app_pid = some p. -/
theorem c2_counterexample :
    (runEvents Reactor.new c2events).map
      (fun s => (s.frontmost_app, s.global_frontmost_app_pid)) = some (some 1, some 2) := by
  decide

/-- The amended C2 invariant: the frontmost app, when set, has an app entry
with is_frontmost true. -/
def FrontmostInv (s : Reactor) : Prop :=
  ∀ p, s.frontmost_app = some p → ∃ a, alookup p s.apps = some a ∧ a.is_frontmost = true

/-- A launch event is fresh when its pid has no app entry yet. -/
def freshLaunch (s : Reactor) : Event → Bool
  | .applicationLaunched pid _ _ => (alookup pid s.apps).isNone
  | _ => true

/-- Well-formed traces: every launch along the run is fresh. -/
def wfLaunches : Reactor → List Event → Bool
  | _, [] => true
  | s, e :: es =>
      freshLaunch s e &&
      (match s.handle_event e with
       | some (s1, _) => wfLaunches s1 es
       | none => true)

theorem handle_response_fields (s : Reactor) (r : EventResponse) (s2 : Reactor)
    (ds : List Dispatch) (h : s.handle_response r = some (s2, ds)) :
    s2.apps = s.apps ∧ s2.frontmost_app = s.frontmost_app ∧ s2.windows = s.windows := by
  cases hr : r.raise_window with
  | none =>
    simp only [Reactor.handle_response, hr, Option.some_inj] at h
    obtain ⟨h1, _⟩ := Prod.mk.injEq .. ▸ h
    subst h1
    exact ⟨rfl, rfl, rfl⟩
  | some wid =>
    cases ha : alookup wid.pid s.apps with
    | none => simp [Reactor.handle_response, hr, ha] at h
    | some a =>
      simp only [Reactor.handle_response, hr, ha, Option.bind_eq_bind, Option.some_bind,
        Option.some_inj] at h
      obtain ⟨h1, _⟩ := Prod.mk.injEq .. ▸ h
      subst h1
      exact ⟨rfl, rfl, rfl⟩

theorem update_layout_fields (s : Reactor) (nw : Option WindowId) (ir : Bool) (s2 : Reactor)
    (ds : List Dispatch) (h : s.update_layout nw ir = some (s2, ds)) :
    s2.apps = s.apps ∧ s2.frontmost_app = s.frontmost_app ∧
      s2.global_frontmost_app_pid = s.global_frontmost_app_pid := by
  cases hms : s.main_screen with
  | none =>
    simp only [Reactor.update_layout, hms, Option.some_inj] at h
    obtain ⟨h1, _⟩ := Prod.mk.injEq .. ▸ h
    subst h1
    exact ⟨rfl, rfl, rfl⟩
  | some scr =>
    by_cases hsp : some scr.space ≠ s.space
    · simp only [Reactor.update_layout, hms, if_pos hsp, Option.some_inj] at h
      obtain ⟨h1, _⟩ := Prod.mk.injEq .. ▸ h
      subst h1
      exact ⟨rfl, rfl, rfl⟩
    · simp only [Reactor.update_layout, hms, if_neg hsp, Option.bind_eq_bind] at h
      rcases Option.bind_eq_some.mp h with ⟨mw, hmw, h⟩
      rcases Option.bind_eq_some.mp h with ⟨sp, hsp2, h⟩
      rcases Option.bind_eq_some.mp h with ⟨⟨lay2, frames⟩, hcalc, h⟩
      rcases Option.bind_eq_some.mp h with ⟨⟨ws2, entries⟩, hfold, h⟩
      rcases Option.bind_eq_some.mp h with ⟨ws3, hfold2, h⟩
      obtain ⟨h1, _⟩ := Prod.mk.injEq .. ▸ Option.some.injEq .. ▸ h
      subst h1
      exact ⟨rfl, rfl, rfl⟩

theorem main_step_frontmost_inv (s : Reactor) (e : Event) (out : StepOut)
    (h : s.mainStep e = some out) (hfresh : freshLaunch s e = true) (hinv : FrontmostInv s) :
    ∀ s1, (out = .early s1 ∨ ∃ ds afw ir, out = .cont s1 ds afw ir) → FrontmostInv s1 := by
  intro s1 hout
  cases e with
  | applicationLaunched pid st wlist =>
    unfold Reactor.mainStep at h
    simp only [Option.bind_eq_bind] at h
    rcases Option.bind_eq_some.mp h with ⟨sp, hsp, h⟩
    rcases Option.bind_eq_some.mp h with ⟨lay1, hlay, h⟩
    rw [Option.some_inj] at h
    subst h
    rcases hout with hout | ⟨ds, afw, ir, hout⟩ <;> cases hout
    intro p hp
    simp only [freshLaunch, Option.isNone_iff_eq_none] at hfresh
    by_cases hc : st.is_frontmost ∧ s.global_frontmost_app_pid = some pid
    · simp only [if_pos hc, Option.some_inj] at hp
      subst hp
      exact ⟨st, by simp [alookup_ainsert], hc.1⟩
    · simp only [if_neg hc] at hp
      obtain ⟨a, ha, haf⟩ := hinv p hp
      refine ⟨a, ?_, haf⟩
      have hne : p ≠ pid := by
        intro he
        subst he
        rw [hfresh] at ha
        exact Option.noConfusion ha
      rw [alookup_ainsert_ne _ _ hne]
      exact ha
  | applicationTerminated pid =>
    unfold Reactor.mainStep at h
    simp only [Option.bind_eq_bind] at h
    rcases Option.bind_eq_some.mp h with ⟨a0, ha0, h⟩
    rcases Option.bind_eq_some.mp h with ⟨lay1, hlay, h⟩
    rw [Option.some_inj] at h
    subst h
    rcases hout with hout | ⟨ds, afw, ir, hout⟩ <;> cases hout
    intro p hp
    by_cases hc : some pid = s.frontmost_app
    · simp [if_pos hc] at hp
    · simp only [if_neg hc] at hp
      obtain ⟨a, ha, haf⟩ := hinv p hp
      refine ⟨a, ?_, haf⟩
      have hne : p ≠ pid := by
        intro he
        subst he
        rw [hp] at hc
        exact hc rfl
      rw [alookup_aerase_ne _ hne]
      exact ha
  | applicationActivated pid mw =>
    unfold Reactor.mainStep at h
    simp only [Option.bind_eq_bind] at h
    rcases Option.bind_eq_some.mp h with ⟨a, ha, h⟩
    rw [Option.some_inj] at h
    subst h
    rcases hout with hout | ⟨ds, afw, ir, hout⟩ <;> cases hout
    intro p hp
    by_cases hc : s.global_frontmost_app_pid = some pid
    · simp only [if_pos hc, Option.some_inj] at hp
      subst hp
      exact ⟨_, alookup_ainsert .., rfl⟩
    · simp only [if_neg hc] at hp
      obtain ⟨b, hb, hbf⟩ := hinv p hp
      by_cases hne : p = pid
      · subst hne
        exact ⟨_, alookup_ainsert .., rfl⟩
      · refine ⟨b, ?_, hbf⟩
        rw [alookup_ainsert_ne _ _ hne]
        exact hb
  | applicationGloballyActivated pid =>
    unfold Reactor.mainStep at h
    rw [Option.some_inj] at h
    subst h
    rcases hout with hout | ⟨ds, afw, ir, hout⟩ <;> cases hout
    intro p hp
    by_cases hc : ((alookup pid s.apps).map AppState.is_frontmost).getD false = true
    · simp only [if_pos hc, Option.some_inj] at hp
      subst hp
      cases ha : alookup pid s.apps with
      | none => rw [ha] at hc; simp at hc
      | some a =>
        rw [ha] at hc
        simp at hc
        exact ⟨a, rfl, hc⟩
    · simp only [if_neg hc] at hp
      exact hinv p hp
  | applicationDeactivated pid =>
    unfold Reactor.mainStep at h
    simp only [Option.bind_eq_bind] at h
    rcases Option.bind_eq_some.mp h with ⟨a, ha, h⟩
    rw [Option.some_inj] at h
    subst h
    rcases hout with hout | ⟨ds, afw, ir, hout⟩ <;> cases hout
    intro p hp
    by_cases hc : s.frontmost_app = some pid
    · simp [if_pos hc] at hp
    · simp only [if_neg hc] at hp
      obtain ⟨b, hb, hbf⟩ := hinv p hp
      have hne : p ≠ pid := by
        intro he
        subst he
        exact hc hp
      refine ⟨b, ?_, hbf⟩
      rw [alookup_ainsert_ne _ _ hne]
      exact hb
  | applicationGloballyDeactivated pid =>
    unfold Reactor.mainStep at h
    rw [Option.some_inj] at h
    subst h
    rcases hout with hout | ⟨ds, afw, ir, hout⟩ <;> cases hout
    intro p hp
    by_cases hc : s.frontmost_app = some pid
    · simp [if_pos hc] at hp
    · simp only [if_neg hc] at hp
      exact hinv p hp
  | applicationMainWindowChanged pid mw =>
    unfold Reactor.mainStep at h
    simp only [Option.bind_eq_bind] at h
    rcases Option.bind_eq_some.mp h with ⟨a, ha, h⟩
    rw [Option.some_inj] at h
    subst h
    rcases hout with hout | ⟨ds, afw, ir, hout⟩ <;> cases hout
    intro p hp
    obtain ⟨b, hb, hbf⟩ := hinv p hp
    by_cases hne : p = pid
    · subst hne
      rw [hb] at ha
      cases ha
      exact ⟨_, alookup_ainsert .., hbf⟩
    · refine ⟨b, ?_, hbf⟩
      rw [alookup_ainsert_ne _ _ hne]
      exact hb
  | windowCreated wid info =>
    unfold Reactor.mainStep at h
    simp only [Option.bind_eq_bind] at h
    by_cases hc : Option.map (fun x => x.space) s.main_screen = s.space ∧
        info.is_standard = true
    · rw [if_pos hc] at h
      rcases Option.bind_eq_some.mp h with ⟨sp, hsp, h⟩
      rcases Option.bind_eq_some.mp h with ⟨lay1, hlay, h⟩
      simp only [Option.some_bind, Option.some_inj] at h
      subst h
      rcases hout with hout | ⟨ds, afw, ir, hout⟩ <;> cases hout
      exact hinv
    · rw [if_neg hc] at h
      simp only [Option.some_bind, Option.some_inj] at h
      subst h
      rcases hout with hout | ⟨ds, afw, ir, hout⟩ <;> cases hout
      exact hinv
  | windowDestroyed wid =>
    unfold Reactor.mainStep at h
    simp only [Option.bind_eq_bind] at h
    rcases Option.bind_eq_some.mp h with ⟨lay1, hlay, h⟩
    rcases Option.bind_eq_some.mp h with ⟨w0, hw0, h⟩
    rw [Option.some_inj] at h
    subst h
    rcases hout with hout | ⟨ds, afw, ir, hout⟩ <;> cases hout
    exact hinv
  | windowMoved wid pos txid =>
    unfold Reactor.mainStep at h
    simp only [Option.bind_eq_bind] at h
    rcases Option.bind_eq_some.mp h with ⟨w, hw, h⟩
    by_cases hc : txid ≠ w.last_sent_txid
    · rw [if_pos hc, Option.some_inj] at h
      subst h
      rcases hout with hout | ⟨ds, afw, ir, hout⟩ <;> cases hout
      exact hinv
    · rw [if_neg hc, Option.some_inj] at h
      subst h
      rcases hout with hout | ⟨ds, afw, ir, hout⟩ <;> cases hout
      exact hinv
  | windowResized wid frame txid =>
    unfold Reactor.mainStep at h
    simp only [Option.bind_eq_bind] at h
    rcases Option.bind_eq_some.mp h with ⟨w, hw, h⟩
    by_cases hc : txid ≠ w.last_sent_txid
    · rw [if_pos hc, Option.some_inj] at h
      subst h
      rcases hout with hout | ⟨ds, afw, ir, hout⟩ <;> cases hout
      exact hinv
    · rw [if_neg hc] at h
      by_cases hc2 : w.frame_last_read = frame
      · rw [if_pos hc2, Option.some_inj] at h
        subst h
        rcases hout with hout | ⟨ds, afw, ir, hout⟩ <;> cases hout
        exact hinv
      · rw [if_neg hc2] at h
        cases hsp : s.space with
        | none =>
          rw [hsp, Option.some_inj] at h
          subst h
          rcases hout with hout | ⟨ds, afw, ir, hout⟩ <;> cases hout
          exact hinv
        | some sp =>
          rw [hsp] at h
          cases hms : s.main_screen with
          | none =>
            rw [hms, Option.some_inj] at h
            subst h
            rcases hout with hout | ⟨ds, afw, ir, hout⟩ <;> cases hout
            exact hinv
          | some scr =>
            rw [hms] at h
            rcases Option.bind_eq_some.mp h with ⟨⟨lay1, resp⟩, hlay, h⟩
            rcases Option.bind_eq_some.mp h with ⟨⟨s3, ds0⟩, hresp, h⟩
            rw [Option.some_inj] at h
            subst h
            rcases hout with hout | ⟨ds, afw, ir, hout⟩ <;> cases hout
            obtain ⟨ha, hf, _⟩ := handle_response_fields _ _ _ _ hresp
            intro p hp
            rw [hf] at hp
            obtain ⟨b, hb, hbf⟩ := hinv p hp
            exact ⟨b, ha ▸ hb, hbf⟩
  | screenParametersChanged frames spaces =>
    unfold Reactor.mainStep at h
    rw [Option.some_inj] at h
    subst h
    rcases hout with hout | ⟨ds, afw, ir, hout⟩ <;> cases hout
    exact hinv
  | spaceChanged spaces =>
    unfold Reactor.mainStep at h
    cases hms : s.main_screen with
    | none =>
      rw [hms, Option.some_inj] at h
      subst h
      rcases hout with hout | ⟨ds, afw, ir, hout⟩ <;> cases hout
      exact hinv
    | some scr =>
      rw [hms] at h
      simp only [Option.bind_eq_bind] at h
      rcases Option.bind_eq_some.mp h with ⟨sp, hsp, h⟩
      rw [Option.some_inj] at h
      subst h
      rcases hout with hout | ⟨ds, afw, ir, hout⟩ <;> cases hout
      exact hinv
  | command c =>
    cases c with
    | hello =>
      unfold Reactor.mainStep at h
      rw [Option.some_inj] at h
      subst h
      rcases hout with hout | ⟨ds, afw, ir, hout⟩ <;> cases hout
      exact hinv
    | layout cmd =>
      unfold Reactor.mainStep at h
      simp only [Option.bind_eq_bind] at h
      rcases Option.bind_eq_some.mp h with ⟨sp, hsp, h⟩
      rcases Option.bind_eq_some.mp h with ⟨⟨lay1, resp⟩, hlay, h⟩
      rcases Option.bind_eq_some.mp h with ⟨⟨s3, ds0⟩, hresp, h⟩
      rw [Option.some_inj] at h
      subst h
      rcases hout with hout | ⟨ds, afw, ir, hout⟩ <;> cases hout
      obtain ⟨ha, hf, _⟩ := handle_response_fields _ _ _ _ hresp
      intro p hp
      rw [hf] at hp
      obtain ⟨b, hb, hbf⟩ := hinv p hp
      exact ⟨b, ha ▸ hb, hbf⟩
    | metricsShowTiming =>
      unfold Reactor.mainStep at h
      rw [Option.some_inj] at h
      subst h
      rcases hout with hout | ⟨ds, afw, ir, hout⟩ <;> cases hout
      exact hinv

theorem handle_event_frontmost_inv (s : Reactor) (e : Event) (s2 : Reactor)
    (ds : List Dispatch) (h : s.handle_event e = some (s2, ds))
    (hfresh : freshLaunch s e = true) (hinv : FrontmostInv s) : FrontmostInv s2 := by
  unfold Reactor.handle_event at h
  simp only [Option.bind_eq_bind] at h
  rcases Option.bind_eq_some.mp h with ⟨mwo, hmwo, h⟩
  rcases Option.bind_eq_some.mp h with ⟨step, hstep, h⟩
  cases step with
  | early s1 =>
    rw [Option.some_inj] at h
    obtain ⟨h1, _⟩ := Prod.mk.injEq .. ▸ h
    subst h1
    exact main_step_frontmost_inv s e _ hstep hfresh hinv s1 (Or.inl rfl)
  | cont s1 ds1 afw ir =>
    have hinv1 : FrontmostInv s1 :=
      main_step_frontmost_inv s e _ hstep hfresh hinv s1 (Or.inr ⟨ds1, afw, ir, rfl⟩)
    rcases Option.bind_eq_some.mp h with ⟨mw1, hmw1, h⟩
    by_cases hcmp : mw1 ≠ mwo
    · rw [if_pos hcmp] at h
      rcases Option.bind_eq_some.mp h with ⟨sp, hsp, h⟩
      rcases Option.bind_eq_some.mp h with ⟨⟨lay2, resp⟩, hlay, h⟩
      rcases Option.bind_eq_some.mp h with ⟨⟨s2a, ds2a⟩, hresp, h⟩
      rcases Option.bind_eq_some.mp h with ⟨⟨s3, ds3⟩, hupd, h⟩
      rw [Option.some_inj] at h
      obtain ⟨h1, _⟩ := Prod.mk.injEq .. ▸ h
      subst h1
      have hinv2 : FrontmostInv s2a := by
        obtain ⟨ha, hf, _⟩ := handle_response_fields _ _ _ _ hresp
        intro p hp
        rw [hf] at hp
        obtain ⟨b, hb, hbf⟩ := hinv1 p hp
        exact ⟨b, by rw [ha]; exact hb, hbf⟩
      obtain ⟨ha, hf, hg⟩ := update_layout_fields _ _ _ _ _ hupd
      intro p hp
      rw [hf] at hp
      obtain ⟨b, hb, hbf⟩ := hinv2 p hp
      exact ⟨b, ha ▸ hb, hbf⟩
    · rw [if_neg hcmp] at h
      simp only [Option.some_bind] at h
      rcases Option.bind_eq_some.mp h with ⟨⟨s3, ds3⟩, hupd, h⟩
      rw [Option.some_inj] at h
      obtain ⟨h1, _⟩ := Prod.mk.injEq .. ▸ h
      subst h1
      obtain ⟨ha, hf, hg⟩ := update_layout_fields _ _ _ _ _ hupd
      intro p hp
      rw [hf] at hp
      obtain ⟨b, hb, hbf⟩ := hinv1 p hp
      exact ⟨b, ha ▸ hb, hbf⟩

theorem run_events_frontmost_inv : ∀ (es : List Event) (s0 s : Reactor),
    runEvents s0 es = some s → wfLaunches s0 es = true → FrontmostInv s0 → FrontmostInv s := by
  intro es
  induction es with
  | nil =>
    intro s0 s h _ hi
    simp only [runEvents, Option.some_inj] at h
    subst h
    exact hi
  | cons e es ih =>
    intro s0 s h hwf hi
    simp only [runEvents, Option.bind_eq_bind] at h
    rcases Option.bind_eq_some.mp h with ⟨⟨s1, ds⟩, he, h⟩
    simp only [wfLaunches, Bool.and_eq_true] at hwf
    have hwf2 := hwf.2
    rw [he] at hwf2
    exact ih s1 s h hwf2 (handle_event_frontmost_inv s0 e s1 ds he hwf.1 hi)

/-- C2 amended: on every trace from the initial reactor state in which each
ApplicationLaunched event carries a pid without an existing app entry, every
reachable state satisfies: frontmost_app = some p implies the app entry for
p exists with is_frontmost true. (The original claim also required
global_frontmost_app_pid = some p, refuted by the counterexample.) -/
theorem c2_frontmost_invariant_amended (es : List Event) (s : Reactor) (p : Pid)
    (hrun : runEvents Reactor.new es = some s)
    (hwf : wfLaunches Reactor.new es = true)
    (hp : s.frontmost_app = some p) :
    ∃ a, alookup p s.apps = some a ∧ a.is_frontmost = true :=
  run_events_frontmost_inv es Reactor.new s hrun hwf
    (fun _ hq => Option.noConfusion hq) p hp

/-- Events making app 1 frontmost with both sources in agreement. -/
def c2goodEvents : List Event :=
  [.screenParametersChanged [CGRect.zero] [1],
   .applicationGloballyActivated 1,
   .applicationLaunched 1 { is_frontmost := true } []]

/-- Witness for the amended C2 on a concrete trace. -/
theorem c2_frontmost_invariant_amended_witness :
    ∃ a, alookup 1 ((runEvents Reactor.new c2goodEvents).getD Reactor.new).apps = some a ∧
      a.is_frontmost = true :=
  c2_frontmost_invariant_amended c2goodEvents
    ((runEvents Reactor.new c2goodEvents).getD Reactor.new) 1
    (by decide) (by decide) (by decide)

/-! C6: transaction-id monotonicity. -/

/-- Events that (re)insert the window state entry of wid. -/
def creationFor (wid : WindowId) : Event → Bool
  | .windowCreated w _ => w == wid
  | .applicationLaunched _ _ ws => (ws.map Prod.fst).contains wid
  | _ => false

def c6rect : CGRect := ⟨⟨0, 0⟩, ⟨1000, 1000⟩⟩

def c6winfo : WindowInfo := { is_standard := true, title := "", frame := ⟨⟨100, 100⟩, ⟨50, 50⟩⟩ }

/-- Events after which window (1,1) has last_sent_txid 1 and the main screen
shows a different space than the reactor tracks, so update_layout returns
early. -/
def c6events : List Event :=
  [.screenParametersChanged [c6rect] [1],
   .applicationLaunched 1 {} [(⟨1, 1⟩, c6winfo)],
   .spaceChanged [2]]

/-- C6 counterexample: after c6events the tracked window has txid 1 with its
entry present throughout; one further WindowCreated for the same WindowId
resets the entry and its txid is 0 after the event, a decrease. -/
theorem c6_counterexample :
    ((runEvents Reactor.new c6events).map
        (fun s => (alookup ⟨1, 1⟩ s.windows).map (·.last_sent_txid)) = some (some 1)) ∧
    ((runEvents Reactor.new (c6events ++ [.windowCreated ⟨1, 1⟩ c6winfo])).map
        (fun s => (alookup ⟨1, 1⟩ s.windows).map (·.last_sent_txid)) = some (some 0)) :=
  ⟨by decide, by decide⟩

/-- The per-window transaction counter never shrinks between two window
maps. -/
def txLe (ws ws2 : List (WindowId × WindowState)) : Prop :=
  ∀ wid w2, alookup wid ws2 = some w2 →
    ∃ w, alookup wid ws = some w ∧ w.last_sent_txid ≤ w2.last_sent_txid

theorem txLe_refl (ws : List (WindowId × WindowState)) : txLe ws ws :=
  fun _ w2 h => ⟨w2, h, le_refl _⟩

theorem txLe_trans {a b c : List (WindowId × WindowState)} (h1 : txLe a b) (h2 : txLe b c) :
    txLe a c := by
  intro wid w2 h
  obtain ⟨wm, hm, hle⟩ := h2 wid w2 h
  obtain ⟨w, hw, hle2⟩ := h1 wid wm hm
  exact ⟨w, hw, le_trans hle2 hle⟩

theorem updateLayoutStep_txle (nw : Option WindowId) (apps : List (Pid × AppState))
    (acc acc2 : List (WindowId × WindowState) × List AnimEntry) (x : WindowId × CGRect)
    (h : updateLayoutStep nw apps acc x = some acc2) : txLe acc.1 acc2.1 := by
  obtain ⟨ws, es⟩ := acc
  obtain ⟨wid, target⟩ := x
  unfold updateLayoutStep at h
  simp only [Option.bind_eq_bind] at h
  rcases Option.bind_eq_some.mp h with ⟨w, hw, h⟩
  by_cases hsame : (target.round.same_as w.frame_last_written) = true
  · rw [if_pos hsame, Option.some_inj] at h
    subst h
    exact txLe_refl ws
  · rw [if_neg hsame] at h
    rcases Option.bind_eq_some.mp h with ⟨a0, _, h⟩
    rcases Option.bind_eq_some.mp h with ⟨⟨w2, txid⟩, htx, h⟩
    rw [Option.some_inj] at h
    subst h
    unfold WindowState.next_txid at htx
    by_cases hub : w.last_sent_txid + 1 ≤ u32Max
    · rw [if_pos hub, Option.some_inj] at htx
      obtain ⟨htx1, _⟩ := Prod.mk.injEq .. ▸ htx
      subst htx1
      intro wid2 w2' hlk
      by_cases he : wid2 = wid
      · subst he
        rw [alookup_ainsert] at hlk
        cases hlk
        exact ⟨w, hw, by simp⟩
      · rw [alookup_ainsert_ne _ _ he] at hlk
        exact ⟨w2', hlk, le_refl _⟩
    · rw [if_neg hub] at htx
      exact Option.noConfusion htx

theorem foldlM_updateLayoutStep_txle (nw : Option WindowId) (apps : List (Pid × AppState)) :
    ∀ (frames : List (WindowId × CGRect))
      (acc acc2 : List (WindowId × WindowState) × List AnimEntry),
      List.foldlM (updateLayoutStep nw apps) acc frames = some acc2 → txLe acc.1 acc2.1 := by
  intro frames
  induction frames with
  | nil =>
    intro acc acc2 h
    simp only [List.foldlM_nil, Option.pure_def, Option.some_inj] at h
    subst h
    exact txLe_refl _
  | cons x xs ih =>
    intro acc acc2 h
    simp only [List.foldlM_cons, Option.bind_eq_bind] at h
    rcases Option.bind_eq_some.mp h with ⟨accm, hstep, h⟩
    exact txLe_trans (updateLayoutStep_txle nw apps acc accm x hstep) (ih accm acc2 h)

theorem writeFrameStep_txle (ws ws2 : List (WindowId × WindowState)) (p : WindowId × CGRect)
    (h : writeFrameStep ws p = some ws2) : txLe ws ws2 := by
  unfold writeFrameStep at h
  simp only [Option.bind_eq_bind] at h
  rcases Option.bind_eq_some.mp h with ⟨w, hw, h⟩
  rw [Option.some_inj] at h
  subst h
  intro wid2 w2 hlk
  by_cases he : wid2 = p.1
  · subst he
    rw [alookup_ainsert] at hlk
    cases hlk
    exact ⟨w, hw, le_refl _⟩
  · rw [alookup_ainsert_ne _ _ he] at hlk
    exact ⟨w2, hlk, le_refl _⟩

theorem foldlM_writeFrameStep_txle :
    ∀ (frames : List (WindowId × CGRect)) (ws ws2 : List (WindowId × WindowState)),
      List.foldlM writeFrameStep ws frames = some ws2 → txLe ws ws2 := by
  intro frames
  induction frames with
  | nil =>
    intro ws ws2 h
    simp only [List.foldlM_nil, Option.pure_def, Option.some_inj] at h
    subst h
    exact txLe_refl _
  | cons x xs ih =>
    intro ws ws2 h
    simp only [List.foldlM_cons, Option.bind_eq_bind] at h
    rcases Option.bind_eq_some.mp h with ⟨wsm, hstep, h⟩
    exact txLe_trans (writeFrameStep_txle ws wsm x hstep) (ih wsm ws2 h)

theorem update_layout_txle (s : Reactor) (nw : Option WindowId) (ir : Bool) (s2 : Reactor)
    (ds : List Dispatch) (h : s.update_layout nw ir = some (s2, ds)) :
    txLe s.windows s2.windows := by
  cases hms : s.main_screen with
  | none =>
    simp only [Reactor.update_layout, hms, Option.some_inj] at h
    obtain ⟨h1, _⟩ := Prod.mk.injEq .. ▸ h
    subst h1
    exact txLe_refl _
  | some scr =>
    by_cases hsp : some scr.space ≠ s.space
    · simp only [Reactor.update_layout, hms, if_pos hsp, Option.some_inj] at h
      obtain ⟨h1, _⟩ := Prod.mk.injEq .. ▸ h
      subst h1
      exact txLe_refl _
    · simp only [Reactor.update_layout, hms, if_neg hsp, Option.bind_eq_bind] at h
      rcases Option.bind_eq_some.mp h with ⟨mw, hmw, h⟩
      rcases Option.bind_eq_some.mp h with ⟨sp, hsp2, h⟩
      rcases Option.bind_eq_some.mp h with ⟨⟨lay2, frames⟩, hcalc, h⟩
      rcases Option.bind_eq_some.mp h with ⟨⟨ws2, entries⟩, hfold, h⟩
      rcases Option.bind_eq_some.mp h with ⟨ws3, hfold2, h⟩
      obtain ⟨h1, _⟩ := Prod.mk.injEq .. ▸ Option.some.injEq .. ▸ h
      subst h1
      exact txLe_trans
        (foldlM_updateLayoutStep_txle nw s.apps frames (s.windows, []) (ws2, entries) hfold)
        (foldlM_writeFrameStep_txle frames ws2 ws3 hfold2)

theorem alookup_foldl_fromInfo (wid : WindowId) :
    ∀ (l : List (WindowId × WindowInfo)) (ws : List (WindowId × WindowState)),
      ¬ wid ∈ l.map Prod.fst →
      alookup wid (l.foldl (fun ws p => ainsert p.1 (WindowState.fromInfo p.2) ws) ws) =
        alookup wid ws := by
  intro l
  induction l with
  | nil => intro ws _; rfl
  | cons x xs ih =>
    intro ws hm
    simp only [List.map_cons, List.mem_cons, not_or] at hm
    rw [List.foldl_cons, ih _ hm.2, alookup_ainsert_ne _ _ hm.1]

theorem main_step_windows_txle (s : Reactor) (e : Event) (out : StepOut)
    (h : s.mainStep e = some out)
    (hnd : (akeys s.windows).Nodup)
    (wid : WindowId) (w : WindowState)
    (hw : alookup wid s.windows = some w)
    (hnc : creationFor wid e = false) :
    ∀ s1, (out = .early s1 ∨ ∃ ds afw ir, out = .cont s1 ds afw ir) →
      alookup wid s1.windows = none ∨
        ∃ wm, alookup wid s1.windows = some wm ∧ w.last_sent_txid ≤ wm.last_sent_txid := by
  intro s1 hout
  cases e with
  | applicationLaunched pid st wlist =>
    have hmem : ¬ wid ∈ wlist.map Prod.fst := by
      have h2 := hnc
      simp only [creationFor] at h2
      simp at h2
      intro hm
      rcases List.mem_map.mp hm with ⟨p, hp, hfst⟩
      cases p
      cases hfst
      exact h2 _ hp
    unfold Reactor.mainStep at h
    simp only [Option.bind_eq_bind] at h
    rcases Option.bind_eq_some.mp h with ⟨sp, hsp, h⟩
    rcases Option.bind_eq_some.mp h with ⟨lay1, hlay, h⟩
    rw [Option.some_inj] at h
    subst h
    rcases hout with hout | ⟨ds, afw, ir, hout⟩ <;> cases hout
    right
    exact ⟨w, by rw [alookup_foldl_fromInfo wid wlist s.windows hmem]; exact hw, le_refl _⟩
  | applicationTerminated pid =>
    unfold Reactor.mainStep at h
    simp only [Option.bind_eq_bind] at h
    rcases Option.bind_eq_some.mp h with ⟨a0, ha0, h⟩
    rcases Option.bind_eq_some.mp h with ⟨lay1, hlay, h⟩
    rw [Option.some_inj] at h
    subst h
    rcases hout with hout | ⟨ds, afw, ir, hout⟩ <;> cases hout
    exact Or.inr ⟨w, hw, le_refl _⟩
  | applicationActivated pid mw =>
    unfold Reactor.mainStep at h
    simp only [Option.bind_eq_bind] at h
    rcases Option.bind_eq_some.mp h with ⟨a, ha, h⟩
    rw [Option.some_inj] at h
    subst h
    rcases hout with hout | ⟨ds, afw, ir, hout⟩ <;> cases hout
    exact Or.inr ⟨w, hw, le_refl _⟩
  | applicationGloballyActivated pid =>
    unfold Reactor.mainStep at h
    rw [Option.some_inj] at h
    subst h
    rcases hout with hout | ⟨ds, afw, ir, hout⟩ <;> cases hout
    exact Or.inr ⟨w, hw, le_refl _⟩
  | applicationDeactivated pid =>
    unfold Reactor.mainStep at h
    simp only [Option.bind_eq_bind] at h
    rcases Option.bind_eq_some.mp h with ⟨a, ha, h⟩
    rw [Option.some_inj] at h
    subst h
    rcases hout with hout | ⟨ds, afw, ir, hout⟩ <;> cases hout
    exact Or.inr ⟨w, hw, le_refl _⟩
  | applicationGloballyDeactivated pid =>
    unfold Reactor.mainStep at h
    rw [Option.some_inj] at h
    subst h
    rcases hout with hout | ⟨ds, afw, ir, hout⟩ <;> cases hout
    exact Or.inr ⟨w, hw, le_refl _⟩
  | applicationMainWindowChanged pid mw =>
    unfold Reactor.mainStep at h
    simp only [Option.bind_eq_bind] at h
    rcases Option.bind_eq_some.mp h with ⟨a, ha, h⟩
    rw [Option.some_inj] at h
    subst h
    rcases hout with hout | ⟨ds, afw, ir, hout⟩ <;> cases hout
    exact Or.inr ⟨w, hw, le_refl _⟩
  | windowCreated wid2 info =>
    have hne : wid2 ≠ wid := by
      intro he
      rw [creationFor] at hnc
      revert hnc
      simp [he]
    unfold Reactor.mainStep at h
    simp only [Option.bind_eq_bind] at h
    by_cases hc : Option.map (fun x => x.space) s.main_screen = s.space ∧
        info.is_standard = true
    · rw [if_pos hc] at h
      rcases Option.bind_eq_some.mp h with ⟨sp, hsp, h⟩
      rcases Option.bind_eq_some.mp h with ⟨lay1, hlay, h⟩
      simp only [Option.some_bind, Option.some_inj] at h
      subst h
      rcases hout with hout | ⟨ds, afw, ir, hout⟩ <;> cases hout
      refine Or.inr ⟨w, ?_, le_refl _⟩
      show alookup wid (ainsert wid2 (WindowState.fromInfo info) s.windows) = some w
      rw [alookup_ainsert_ne _ _ (Ne.symm hne)]
      exact hw
    · rw [if_neg hc] at h
      simp only [Option.some_bind, Option.some_inj] at h
      subst h
      rcases hout with hout | ⟨ds, afw, ir, hout⟩ <;> cases hout
      refine Or.inr ⟨w, ?_, le_refl _⟩
      show alookup wid (ainsert wid2 (WindowState.fromInfo info) s.windows) = some w
      rw [alookup_ainsert_ne _ _ (Ne.symm hne)]
      exact hw
  | windowDestroyed wid2 =>
    unfold Reactor.mainStep at h
    simp only [Option.bind_eq_bind] at h
    rcases Option.bind_eq_some.mp h with ⟨lay1, hlay, h⟩
    rcases Option.bind_eq_some.mp h with ⟨w0, hw0, h⟩
    rw [Option.some_inj] at h
    subst h
    rcases hout with hout | ⟨ds, afw, ir, hout⟩ <;> cases hout
    by_cases he : wid = wid2
    · subst he
      exact Or.inl (alookup_aerase_self wid _ hnd)
    · right
      exact ⟨w, by rw [alookup_aerase_ne _ he]; exact hw, le_refl _⟩
  | windowMoved wid2 pos txid =>
    unfold Reactor.mainStep at h
    simp only [Option.bind_eq_bind] at h
    rcases Option.bind_eq_some.mp h with ⟨w0, hw0, h⟩
    by_cases hc : txid ≠ w0.last_sent_txid
    · rw [if_pos hc, Option.some_inj] at h
      subst h
      rcases hout with hout | ⟨ds, afw, ir, hout⟩ <;> cases hout
      exact Or.inr ⟨w, hw, le_refl _⟩
    · rw [if_neg hc, Option.some_inj] at h
      subst h
      rcases hout with hout | ⟨ds, afw, ir, hout⟩ <;> cases hout
      by_cases he : wid = wid2
      · subst he
        rw [hw0] at hw
        cases hw
        right
        exact ⟨_, alookup_ainsert .., le_refl _⟩
      · refine Or.inr ⟨w, ?_, le_refl _⟩
        show alookup wid
          (ainsert wid2 { w0 with frame_last_read := ⟨pos, w0.frame_last_read.size⟩ }
            s.windows) = some w
        rw [alookup_ainsert_ne _ _ he]
        exact hw
  | windowResized wid2 frame txid =>
    unfold Reactor.mainStep at h
    simp only [Option.bind_eq_bind] at h
    rcases Option.bind_eq_some.mp h with ⟨w0, hw0, h⟩
    by_cases hc : txid ≠ w0.last_sent_txid
    · rw [if_pos hc, Option.some_inj] at h
      subst h
      rcases hout with hout | ⟨ds, afw, ir, hout⟩ <;> cases hout
      exact Or.inr ⟨w, hw, le_refl _⟩
    · rw [if_neg hc] at h
      by_cases hc2 : w0.frame_last_read = frame
      · rw [if_pos hc2, Option.some_inj] at h
        subst h
        rcases hout with hout | ⟨ds, afw, ir, hout⟩ <;> cases hout
        exact Or.inr ⟨w, hw, le_refl _⟩
      · rw [if_neg hc2] at h
        have hmid : alookup wid
            (ainsert wid2 { w0 with frame_last_read := frame } s.windows) = none ∨
            ∃ wm, alookup wid
              (ainsert wid2 { w0 with frame_last_read := frame } s.windows) = some wm ∧
              w.last_sent_txid ≤ wm.last_sent_txid := by
          by_cases he : wid = wid2
          · subst he
            rw [hw0] at hw
            cases hw
            right
            exact ⟨_, alookup_ainsert .., le_refl _⟩
          · right
            exact ⟨w, by rw [alookup_ainsert_ne _ _ he]; exact hw, le_refl _⟩
        cases hsp : s.space with
        | none =>
          rw [hsp, Option.some_inj] at h
          subst h
          rcases hout with hout | ⟨ds, afw, ir, hout⟩ <;> cases hout
          exact hmid
        | some sp =>
          rw [hsp] at h
          cases hms : s.main_screen with
          | none =>
            rw [hms, Option.some_inj] at h
            subst h
            rcases hout with hout | ⟨ds, afw, ir, hout⟩ <;> cases hout
            exact hmid
          | some scr =>
            rw [hms] at h
            rcases Option.bind_eq_some.mp h with ⟨⟨lay1, resp⟩, hlay, h⟩
            rcases Option.bind_eq_some.mp h with ⟨⟨s3, ds0⟩, hresp, h⟩
            rw [Option.some_inj] at h
            subst h
            rcases hout with hout | ⟨ds, afw, ir, hout⟩ <;> cases hout
            obtain ⟨_, _, hwnd⟩ := handle_response_fields _ _ _ _ hresp
            rw [hwnd]
            exact hmid
  | screenParametersChanged frames spaces =>
    unfold Reactor.mainStep at h
    rw [Option.some_inj] at h
    subst h
    rcases hout with hout | ⟨ds, afw, ir, hout⟩ <;> cases hout
    exact Or.inr ⟨w, hw, le_refl _⟩
  | spaceChanged spaces =>
    unfold Reactor.mainStep at h
    cases hms : s.main_screen with
    | none =>
      rw [hms, Option.some_inj] at h
      subst h
      rcases hout with hout | ⟨ds, afw, ir, hout⟩ <;> cases hout
      exact Or.inr ⟨w, hw, le_refl _⟩
    | some scr =>
      rw [hms] at h
      simp only [Option.bind_eq_bind] at h
      rcases Option.bind_eq_some.mp h with ⟨sp, hsp, h⟩
      rw [Option.some_inj] at h
      subst h
      rcases hout with hout | ⟨ds, afw, ir, hout⟩ <;> cases hout
      exact Or.inr ⟨w, hw, le_refl _⟩
  | command c =>
    cases c with
    | hello =>
      unfold Reactor.mainStep at h
      rw [Option.some_inj] at h
      subst h
      rcases hout with hout | ⟨ds, afw, ir, hout⟩ <;> cases hout
      exact Or.inr ⟨w, hw, le_refl _⟩
    | layout cmd =>
      unfold Reactor.mainStep at h
      simp only [Option.bind_eq_bind] at h
      rcases Option.bind_eq_some.mp h with ⟨sp, hsp, h⟩
      rcases Option.bind_eq_some.mp h with ⟨⟨lay1, resp⟩, hlay, h⟩
      rcases Option.bind_eq_some.mp h with ⟨⟨s3, ds0⟩, hresp, h⟩
      rw [Option.some_inj] at h
      subst h
      rcases hout with hout | ⟨ds, afw, ir, hout⟩ <;> cases hout
      obtain ⟨_, _, hwnd⟩ := handle_response_fields _ _ _ _ hresp
      rw [hwnd]
      exact Or.inr ⟨w, hw, le_refl _⟩
    | metricsShowTiming =>
      unfold Reactor.mainStep at h
      rw [Option.some_inj] at h
      subst h
      rcases hout with hout | ⟨ds, afw, ir, hout⟩ <;> cases hout
      exact Or.inr ⟨w, hw, le_refl _⟩

/-- C6 amended: for every reactor state with a duplicate-free window map,
every tracked window and every single event that does not re-insert that
window's entry (no WindowCreated for it and no ApplicationLaunched carrying
it), the window's last_sent_txid does not decrease across the event. (The
unrestricted claim is refuted by the counterexample: a repeated
WindowCreated replaces the entry and resets its txid to 0.) -/
theorem c6_txid_monotone_amended (s : Reactor) (e : Event) (s2 : Reactor) (ds : List Dispatch)
    (wid : WindowId) (w w2 : WindowState)
    (hnd : (akeys s.windows).Nodup)
    (h : s.handle_event e = some (s2, ds))
    (hw : alookup wid s.windows = some w)
    (hw2 : alookup wid s2.windows = some w2)
    (hnc : creationFor wid e = false) :
    w.last_sent_txid ≤ w2.last_sent_txid := by
  unfold Reactor.handle_event at h
  simp only [Option.bind_eq_bind] at h
  rcases Option.bind_eq_some.mp h with ⟨mwo, hmwo, h⟩
  rcases Option.bind_eq_some.mp h with ⟨step, hstep, h⟩
  cases step with
  | early s1 =>
    rw [Option.some_inj] at h
    obtain ⟨h1, _⟩ := Prod.mk.injEq .. ▸ h
    subst h1
    rcases main_step_windows_txle s e _ hstep hnd wid w hw hnc s1 (Or.inl rfl) with hn | hm
    · rw [hn] at hw2
      exact Option.noConfusion hw2
    · obtain ⟨wm, hm1, hm2⟩ := hm
      rw [hm1] at hw2
      cases hw2
      exact hm2
  | cont s1 ds1 afw ir =>
    have hP := main_step_windows_txle s e _ hstep hnd wid w hw hnc s1
      (Or.inr ⟨ds1, afw, ir, rfl⟩)
    rcases Option.bind_eq_some.mp h with ⟨mw1, hmw1, h⟩
    have hfin : ∃ s2a : Reactor, s2a.windows = s1.windows ∧ txLe s2a.windows s2.windows := by
      by_cases hcmp : mw1 ≠ mwo
      · rw [if_pos hcmp] at h
        rcases Option.bind_eq_some.mp h with ⟨sp, hsp, h⟩
        rcases Option.bind_eq_some.mp h with ⟨⟨lay2, resp⟩, hlay, h⟩
        rcases Option.bind_eq_some.mp h with ⟨⟨s2a, ds2a⟩, hresp, h⟩
        rcases Option.bind_eq_some.mp h with ⟨⟨s3, ds3⟩, hupd, h⟩
        rw [Option.some_inj] at h
        obtain ⟨h1, _⟩ := Prod.mk.injEq .. ▸ h
        subst h1
        obtain ⟨_, _, hwnd⟩ := handle_response_fields _ _ _ _ hresp
        exact ⟨s2a, hwnd, update_layout_txle s2a afw ir _ _ hupd⟩
      · rw [if_neg hcmp] at h
        simp only [Option.some_bind] at h
        rcases Option.bind_eq_some.mp h with ⟨⟨s3, ds3⟩, hupd, h⟩
        rw [Option.some_inj] at h
        obtain ⟨h1, _⟩ := Prod.mk.injEq .. ▸ h
        subst h1
        exact ⟨s1, rfl, update_layout_txle s1 afw ir _ _ hupd⟩
    obtain ⟨s2a, hwnd, htx⟩ := hfin
    rw [hwnd] at htx
    obtain ⟨wm, hm1, hm2⟩ := htx wid w2 hw2
    rcases hP with hn | hm
    · rw [hn] at hm1
      exact Option.noConfusion hm1
    · obtain ⟨wm2, hq1, hq2⟩ := hm
      rw [hq1] at hm1
      cases hm1
      exact le_trans hq2 hm2

/-- Witness for the amended C6: one benign event (a deactivation of an
unrelated app) over the c1state reactor leaves the txid unchanged. -/
theorem c6_txid_monotone_amended_witness :
    (5 : TxId) ≤ 5 :=
  c6_txid_monotone_amended c1state (.applicationGloballyDeactivated 7)
    ((c1state.handle_event (.applicationGloballyDeactivated 7)).map Prod.fst |>.getD c1state)
    ((c1state.handle_event (.applicationGloballyDeactivated 7)).map Prod.snd |>.getD [])
    ⟨1, 1⟩ { last_sent_txid := 5 } { last_sent_txid := 5 }
    (by decide) (by decide) (by decide) (by decide) (by decide)

/-! ### C4: observer callbacks fired by NodeId::remove -/

/-- A three-node chain root(0) → 1 → 2 with layout entries for all three. -/
def c4tree : TreeState :=
  { nodes := [(0, { parent := none, children := [1] }),
              (1, { parent := some 0, children := [2] }),
              (2, { parent := some 1, children := [] })],
    nextId := 3,
    info := [(0, { size := 0, total := 1 }), (1, { size := 1, total := 1 }),
             (2, { size := 1, total := 0 })],
    sel := [],
    log := [] }

/-- C4 counterexample: removing node 1 (which has descendant 2) fires
RemovedFromForest for the descendant 2 but never for 1 itself, so the
layout component's entry for 1 is still present afterwards. This refutes
"every deleted node, including n itself, receives a RemovedFromForest
callback, so the layout entry for every deleted node is dropped". -/
theorem c4_counterexample :
    (remove_raw c4tree 1).map (fun t2 =>
      ((alookup 1 t2.info).isSome,
       t2.log.contains (TreeEvent.removedFromForest 1),
       t2.log.contains (TreeEvent.removedFromForest 2))) =
      some (true, false, true) := by
  decide

theorem dispatchEvent_rff (t : TreeState) (c : NodeId) :
    dispatchEvent t (.removedFromForest c) =
      some { t with sel := aerase c t.sel, info := aerase c t.info,
                    log := t.log ++ [.removedFromForest c] } := rfl

/-- Through delete_recursive, a node absent from the forest map is never the
subject of a RemovedFromForest event, and its info/sel/nodes entries are
untouched; the log only grows. -/
theorem delete_recursive_preserves (n : NodeId) :
    ∀ fuel t cs t2, delete_recursive fuel t cs = some t2 →
      alookup n t.nodes = none →
      alookup n t2.nodes = none ∧
      alookup n t2.info = alookup n t.info ∧
      (∀ e, e ∈ t.log → e ∈ t2.log) ∧
      (TreeEvent.removedFromForest n ∈ t2.log → TreeEvent.removedFromForest n ∈ t.log) := by
  intro fuel
  induction fuel with
  | zero => intro t cs t2 h; simp [delete_recursive] at h
  | succ fuel ih =>
    intro t cs t2 h hn
    cases cs with
    | nil =>
      have he : t = t2 := Option.some_inj.mp h
      subst he
      exact ⟨hn, rfl, fun e he => he, fun he => he⟩
    | cons c rest =>
      rw [delete_recursive] at h
      simp only [Option.bind_eq_bind] at h
      rcases Option.bind_eq_some.mp h with ⟨cd, hcd, h⟩
      have hcn : c ≠ n := by
        intro he
        rw [he, nodeData, hn] at hcd
        exact Option.noConfusion hcd
      rw [dispatchEvent_rff] at h
      simp only [Option.some_bind] at h
      rcases Option.bind_eq_some.mp h with ⟨t3, h3, h4⟩
      have hn1 : alookup n (aerase c t.nodes) = none := by
        rw [alookup_aerase_ne _ (Ne.symm hcn)]; exact hn
      obtain ⟨ha1, ha2, ha3, ha4⟩ := ih _ _ _ h3 hn1
      obtain ⟨hb1, hb2, hb3, hb4⟩ := ih _ _ _ h4 ha1
      refine ⟨hb1, ?_, ?_, ?_⟩
      · rw [hb2, ha2]
        exact alookup_aerase_ne _ (Ne.symm hcn)
      · intro e he
        exact hb3 e (ha3 e (List.mem_append_left _ he))
      · intro he
        have := ha4 (hb4 he)
        rcases List.mem_append.mp this with h5 | h5
        · exact h5
        · rcases List.mem_singleton.mp h5 with h6
          exact absurd (TreeEvent.removedFromForest.injEq .. ▸ h6).symm hcn

/-- delete_recursive preserves duplicate-freedom of the nodes and info key
lists. -/
theorem delete_recursive_nodup :
    ∀ fuel t cs t2, delete_recursive fuel t cs = some t2 →
      (akeys t.nodes).Nodup → (akeys t.info).Nodup →
      (akeys t2.nodes).Nodup ∧ (akeys t2.info).Nodup := by
  intro fuel
  induction fuel with
  | zero => intro t cs t2 h; simp [delete_recursive] at h
  | succ fuel ih =>
    intro t cs t2 h hn hi
    cases cs with
    | nil =>
      have he : t = t2 := Option.some_inj.mp h
      subst he
      exact ⟨hn, hi⟩
    | cons c rest =>
      rw [delete_recursive] at h
      simp only [Option.bind_eq_bind] at h
      rcases Option.bind_eq_some.mp h with ⟨cd, hcd, h⟩
      rw [dispatchEvent_rff] at h
      simp only [Option.some_bind] at h
      rcases Option.bind_eq_some.mp h with ⟨t3, h3, h4⟩
      obtain ⟨ha1, ha2⟩ := ih _ _ _ h3 (nodup_akeys_aerase c hn) (nodup_akeys_aerase c hi)
      exact ih _ _ _ h4 ha1 ha2

/-- Every node in the work list of delete_recursive receives its
RemovedFromForest event and loses its layout entry. -/
theorem delete_recursive_removes (c : NodeId) :
    ∀ fuel t cs t2, delete_recursive fuel t cs = some t2 →
      (akeys t.nodes).Nodup → (akeys t.info).Nodup →
      c ∈ cs →
      TreeEvent.removedFromForest c ∈ t2.log ∧ alookup c t2.info = none := by
  intro fuel
  induction fuel with
  | zero => intro t cs t2 h; simp [delete_recursive] at h
  | succ fuel ih =>
    intro t cs t2 h hn hi hc
    cases cs with
    | nil => cases hc
    | cons c0 rest =>
      rw [delete_recursive] at h
      simp only [Option.bind_eq_bind] at h
      rcases Option.bind_eq_some.mp h with ⟨cd, hcd, h⟩
      rw [dispatchEvent_rff] at h
      simp only [Option.some_bind] at h
      rcases Option.bind_eq_some.mp h with ⟨t3, h3, h4⟩
      rcases List.mem_cons.mp hc with he | he
      · subst he
        have hnone : alookup c (aerase c t.nodes) = none := alookup_aerase_self c _ hn
        obtain ⟨ha1, ha2, ha3, ha4⟩ := delete_recursive_preserves c _ _ _ _ h3 hnone
        obtain ⟨hb1, hb2, hb3, hb4⟩ := delete_recursive_preserves c _ _ _ _ h4 ha1
        constructor
        · exact hb3 _ (ha3 _ (List.mem_append_right _ (List.mem_singleton.mpr rfl)))
        · rw [hb2, ha2]
          exact alookup_aerase_self c _ hi
      · obtain ⟨ha1, ha2⟩ := delete_recursive_nodup _ _ _ _ h3
          (nodup_akeys_aerase c0 hn) (nodup_akeys_aerase c0 hi)
        exact ih _ _ _ h4 ha1 ha2 he

/-! ### C5: every container's total equals the sum of its children's sizes -/

/-- The size component of a node's layout entry (0 if absent). -/
def childSize (t : TreeState) (c : NodeId) : ℚ := ((alookup c t.info).getD {}).size

/-- Key discipline: duplicate-free maps, keys below the id counter. -/
def keysOK (t : TreeState) : Prop :=
  (akeys t.nodes).Nodup ∧ (akeys t.info).Nodup ∧ ∀ k ∈ akeys t.nodes, k < t.nextId

/-- Structural coherence: children lists are duplicate-free, no node is its
own parent, and every child is present and points back to its parent. -/
def cohOK (t : TreeState) : Prop :=
  ∀ p pd, alookup p t.nodes = some pd →
    pd.children.Nodup ∧ pd.parent ≠ some p ∧
    ∀ c ∈ pd.children, ∃ cd, alookup c t.nodes = some cd ∧ cd.parent = some p

/-- The claimed invariant: every node has a layout entry whose total is the
sum of its children's sizes. -/
def sumOK (t : TreeState) : Prop :=
  ∀ p pd, alookup p t.nodes = some pd →
    ∃ ip, alookup p t.info = some ip ∧ ip.total = (pd.children.map (childSize t)).sum

/-- Every node with a parent occurs in that parent's children list. -/
def parentMemOK (t : TreeState) : Prop :=
  ∀ n nd, alookup n t.nodes = some nd → ∀ p, nd.parent = some p →
    ∃ pd, alookup p t.nodes = some pd ∧ n ∈ pd.children

def WfCore (t : TreeState) : Prop := keysOK t ∧ cohOK t ∧ sumOK t

def Wf (t : TreeState) : Prop := WfCore t ∧ parentMemOK t

/-- The tree operations of the claim: insertions (a root via mk_node, and
push_back / push_front / insert_before / insert_after from node.rs),
removals (NodeId::remove), and the layout mutators assume_size_of and
take_share from layout.rs. -/
inductive TreeOp
  | mkRoot
  | pushBack (p : NodeId)
  | pushFront (p : NodeId)
  | insertBefore (s : NodeId)
  | insertAfter (s : NodeId)
  | removeRaw (n : NodeId)
  | assumeSizeOf (nw old : NodeId)
  | takeShare (node src : NodeId) (share : ℚ)
deriving DecidableEq, Repr

/-- A single tree operation applied to the state. A SlotMap key is only
obtainable from a prior insertion, so indexing with a key that has never
been allocated is not expressible in the source; push_back/push_front
therefore require the parent to exist (the source's forest[parent] panics
otherwise). -/
def stepOp (t : TreeState) : TreeOp → Option TreeState
  | .mkRoot => (mk_node t).map Prod.fst
  | .pushBack p => do
      let _ ← nodeData t p
      (push_back t p).map Prod.fst
  | .pushFront p => do
      let _ ← nodeData t p
      (push_front t p).map Prod.fst
  | .insertBefore s => (insert_before t s).map Prod.fst
  | .insertAfter s => (insert_after t s).map Prod.fst
  | .removeRaw n => remove_raw t n
  | .assumeSizeOf nw old => assume_size_of t nw old
  | .takeShare node src share => take_share t node src share

/-- The code only ever calls assume_size_of and take_share on two distinct
nodes (layout_tree.rs passes a freshly made parent to assume_size_of, and
resize passes a node and a sibling to take_share). -/
def opOK : TreeOp → Bool
  | .assumeSizeOf nw old => nw ≠ old
  | .takeShare node src _ => node ≠ src
  | _ => true

def emptyTree : TreeState := {}

def runTreeOps (ops : List TreeOp) : Option TreeState :=
  ops.foldlM stepOp emptyTree

theorem alookup_append {κ α : Type} [DecidableEq κ] (k : κ) (l1 l2 : List (κ × α)) :
    alookup k (l1 ++ l2) =
      match alookup k l1 with
      | some v => some v
      | none => alookup k l2 := by
  induction l1 with
  | nil => simp [alookup]
  | cons hd tl ih =>
    by_cases hk : hd.1 = k
    · simp [alookup, hk]
    · simp only [List.cons_append, alookup, hk, if_neg hk]
      exact ih

theorem akeys_append {κ α : Type} [DecidableEq κ] (l1 l2 : List (κ × α)) :
    akeys (l1 ++ l2) = akeys l1 ++ akeys l2 := by
  simp [akeys]

theorem listInsertBefore_perm (l : List NodeId) (s n : NodeId) :
    (listInsertBefore l s n).Perm (n :: l) := by
  induction l with
  | nil => simp [listInsertBefore]
  | cons a rest ih =>
    by_cases ha : a = s
    · rw [listInsertBefore, if_pos ha]
    · rw [listInsertBefore, if_neg ha]
      exact (ih.cons a).trans (List.Perm.swap n a rest)

theorem listInsertAfter_perm (l : List NodeId) (s n : NodeId) :
    (listInsertAfter l s n).Perm (n :: l) := by
  induction l with
  | nil => simp [listInsertAfter]
  | cons a rest ih =>
    by_cases ha : a = s
    · rw [listInsertAfter, if_pos ha]
      exact List.Perm.swap n a rest
    · rw [listInsertAfter, if_neg ha]
      exact (ih.cons a).trans (List.Perm.swap n a rest)

theorem wf_empty : Wf emptyTree := by
  refine ⟨⟨⟨List.nodup_nil, List.nodup_nil, ?_⟩, ?_, ?_⟩, ?_⟩
  · intro k hk; cases hk
  · intro p pd h; cases h
  · intro p pd h; cases h
  · intro n nd h; cases h

/-- Main preservation lemma for delete_recursive: when the pending list is
unreferenced by any live parent, well-formedness (including the sum
invariant) is preserved; every key either survives with both entries intact
or loses both; children of erased nodes are erased; the pending list is
erased. -/
theorem delete_recursive_wf :
    ∀ fuel t cs t2, delete_recursive fuel t cs = some t2 →
      WfCore t →
      (∀ c ∈ cs, ∀ p pd, alookup p t.nodes = some pd → c ∉ pd.children) →
      WfCore t2 ∧ t2.nextId = t.nextId ∧
      (∀ k, (alookup k t2.nodes = alookup k t.nodes ∧ alookup k t2.info = alookup k t.info) ∨
            (alookup k t2.nodes = none ∧ alookup k t2.info = none)) ∧
      (∀ k kd, alookup k t.nodes = some kd → alookup k t2.nodes = none →
         ∀ x ∈ kd.children, alookup x t2.nodes = none) ∧
      (∀ c ∈ cs, alookup c t2.nodes = none) := by
  intro fuel
  induction fuel with
  | zero => intro t cs t2 h; simp [delete_recursive] at h
  | succ fuel ih =>
    intro t cs t2 h hw hang
    cases cs with
    | nil =>
      have he : t = t2 := Option.some_inj.mp h
      subst he
      refine ⟨hw, rfl, fun k => Or.inl ⟨rfl, rfl⟩, ?_, ?_⟩
      · intro k kd h1 h2
        rw [h1] at h2
        exact Option.noConfusion h2
      · intro c hc
        cases hc
    | cons c rest =>
      rw [delete_recursive] at h
      simp only [Option.bind_eq_bind] at h
      rcases Option.bind_eq_some.mp h with ⟨cd, hcd, h⟩
      rw [dispatchEvent_rff] at h
      simp only [Option.some_bind] at h
      rcases Option.bind_eq_some.mp h with ⟨t3, h3, h4⟩
      rw [nodeData] at hcd
      obtain ⟨⟨hKn, hKi, hKlt⟩, hC, hS⟩ := hw
      have hcne : ∀ p pd, alookup p (aerase c t.nodes) = some pd →
          p ≠ c ∧ alookup p t.nodes = some pd := by
        intro p pd hpd
        have hpc : p ≠ c := by
          intro he
          subst he
          rw [alookup_aerase_self p _ hKn] at hpd
          exact Option.noConfusion hpd
        refine ⟨hpc, ?_⟩
        rw [← alookup_aerase_ne _ hpc]
        exact hpd
      have hchne : ∀ p pd, alookup p t.nodes = some pd → ∀ x ∈ pd.children, x ≠ c := by
        intro p pd hpt x hx he
        exact hang c (List.mem_cons_self c rest) p pd hpt (he ▸ hx)
      have hwT' : WfCore (TreeState.mk (aerase c t.nodes) t.nextId (aerase c t.info)
          (aerase c t.sel) (t.log ++ [TreeEvent.removedFromForest c])) := by
        refine ⟨⟨nodup_akeys_aerase c hKn, nodup_akeys_aerase c hKi, ?_⟩, ?_, ?_⟩
        · intro k hk
          exact hKlt k ((akeys_aerase_sublist c t.nodes).subset hk)
        · intro p pd hpd
          obtain ⟨hpc, hpt⟩ := hcne p pd hpd
          obtain ⟨hnd, hns, hch⟩ := hC p pd hpt
          refine ⟨hnd, hns, ?_⟩
          intro x hx
          obtain ⟨xd, hxd, hxp⟩ := hch x hx
          refine ⟨xd, ?_, hxp⟩
          show alookup x (aerase c t.nodes) = some xd
          rw [alookup_aerase_ne _ (hchne p pd hpt x hx)]
          exact hxd
        · intro p pd hpd
          obtain ⟨hpc, hpt⟩ := hcne p pd hpd
          obtain ⟨ip, hip, hsum⟩ := hS p pd hpt
          refine ⟨ip, ?_, ?_⟩
          · show alookup p (aerase c t.info) = some ip
            rw [alookup_aerase_ne _ hpc]
            exact hip
          · rw [hsum]
            refine congrArg List.sum ?_
            refine (List.map_congr_left ?_).symm
            intro x hx
            show ((alookup x (aerase c t.info)).getD {}).size = childSize t x
            rw [alookup_aerase_ne _ (hchne p pd hpt x hx)]
            rfl
      have hangT' : ∀ x ∈ cd.children, ∀ p pd, alookup p (aerase c t.nodes) = some pd →
          x ∉ pd.children := by
        intro x hx p pd hpd hmem
        obtain ⟨hpc, hpt⟩ := hcne p pd hpd
        obtain ⟨hnd, hns, hch⟩ := hC p pd hpt
        obtain ⟨xd, hxd, hxp⟩ := hch x hmem
        obtain ⟨hndc, hnsc, hchc⟩ := hC c cd hcd
        obtain ⟨xd', hxd', hxp'⟩ := hchc x hx
        rw [hxd] at hxd'
        cases hxd'
        rw [hxp] at hxp'
        exact hpc (Option.some_inj.mp hxp')
      obtain ⟨hw3, hnext3, hpair3, hclosed3, hkills3⟩ := ih _ _ _ h3 hwT' hangT'
      have hpair1 : ∀ k, (alookup k (aerase c t.nodes) = alookup k t.nodes ∧
            alookup k (aerase c t.info) = alookup k t.info) ∨
          (alookup k (aerase c t.nodes) = none ∧ alookup k (aerase c t.info) = none) := by
        intro k
        by_cases hkc : k = c
        · subst hkc
          exact Or.inr ⟨alookup_aerase_self k _ hKn, alookup_aerase_self k _ hKi⟩
        · exact Or.inl ⟨alookup_aerase_ne _ hkc, alookup_aerase_ne _ hkc⟩
      have hang4 : ∀ c' ∈ rest, ∀ p pd, alookup p t3.nodes = some pd → c' ∉ pd.children := by
        intro c' hc' p pd hpd
        rcases hpair3 p with ⟨he1, he2⟩ | ⟨he1, he2⟩
        · rw [he1] at hpd
          obtain ⟨hpc, hpt⟩ := hcne p pd hpd
          exact hang c' (List.mem_cons_of_mem c hc') p pd hpt
        · rw [he1] at hpd
          exact Option.noConfusion hpd
      obtain ⟨hw4, hnext4, hpair4, hclosed4, hkills4⟩ := ih _ _ _ h4 hw3 hang4
      have hpairA : ∀ k, (alookup k t3.nodes = alookup k t.nodes ∧
            alookup k t3.info = alookup k t.info) ∨
          (alookup k t3.nodes = none ∧ alookup k t3.info = none) := by
        intro k
        rcases hpair3 k with ⟨h1, h2⟩ | ⟨h1, h2⟩
        · rcases hpair1 k with ⟨g1, g2⟩ | ⟨g1, g2⟩
          · exact Or.inl ⟨h1.trans g1, h2.trans g2⟩
          · exact Or.inr ⟨h1.trans g1, h2.trans g2⟩
        · exact Or.inr ⟨h1, h2⟩
      have hpairB : ∀ k, (alookup k t2.nodes = alookup k t.nodes ∧
            alookup k t2.info = alookup k t.info) ∨
          (alookup k t2.nodes = none ∧ alookup k t2.info = none) := by
        intro k
        rcases hpair4 k with ⟨h1, h2⟩ | ⟨h1, h2⟩
        · rcases hpairA k with ⟨g1, g2⟩ | ⟨g1, g2⟩
          · exact Or.inl ⟨h1.trans g1, h2.trans g2⟩
          · exact Or.inr ⟨h1.trans g1, h2.trans g2⟩
        · exact Or.inr ⟨h1, h2⟩
      have hdc3 : alookup c t3.nodes = none := by
        rcases hpair3 c with ⟨g1, _⟩ | ⟨g1, _⟩
        · exact g1.trans (alookup_aerase_self c _ hKn)
        · exact g1
      have hdc2 : alookup c t2.nodes = none := by
        rcases hpair4 c with ⟨f1, _⟩ | ⟨f1, _⟩
        · exact f1.trans hdc3
        · exact f1
      refine ⟨hw4, hnext4.trans hnext3, hpairB, ?_, ?_⟩
      · intro k kd hk hk2 x hx
        by_cases hkc : k = c
        · subst hkc
          rw [hcd] at hk
          cases hk
          have hdead3 := hkills3 x hx
          rcases hpair4 x with ⟨g1, _⟩ | ⟨g1, _⟩
          · rw [g1]
            exact hdead3
          · exact g1
        · have hkT' : alookup k (aerase c t.nodes) = some kd := by
            rw [alookup_aerase_ne _ hkc]
            exact hk
          rcases hpair3 k with ⟨g1, _⟩ | ⟨g1, _⟩
          · have hk3 : alookup k t3.nodes = some kd := g1.trans hkT'
            rcases hpair4 k with ⟨f1, _⟩ | ⟨f1, _⟩
            · rw [f1] at hk2
              rw [hk2] at hk3
              exact Option.noConfusion hk3
            · exact hclosed4 k kd hk3 hk2 x hx
          · have hdead3 := hclosed3 k kd hkT' g1 x hx
            rcases hpair4 x with ⟨f1, _⟩ | ⟨f1, _⟩
            · rw [f1]
              exact hdead3
            · exact f1
      · intro c' hc'
        rcases List.mem_cons.mp hc' with he | he
        · subst he
          exact hdc2
        · exact hkills4 c' he

/-- NodeId::remove preserves well-formedness, in particular the sum
invariant. -/
theorem remove_raw_wf (t : TreeState) (n : NodeId) (t2 : TreeState)
    (h : remove_raw t n = some t2) (hw : Wf t) : Wf t2 := by
  obtain ⟨⟨⟨hKn, hKi, hKlt⟩, hC, hS⟩, hPM⟩ := hw
  rw [remove_raw] at h
  simp only [Option.bind_eq_bind] at h
  rcases Option.bind_eq_some.mp h with ⟨t1, h1, h⟩
  rcases Option.bind_eq_some.mp h with ⟨nd1, hnd1, h⟩
  rw [dispatchEvent] at h1
  simp only [Option.bind_eq_bind] at h1
  rcases Option.bind_eq_some.mp h1 with ⟨sel2, hsel, h1⟩
  rcases Option.bind_eq_some.mp h1 with ⟨info2, hi, h1⟩
  rw [Option.some_inj] at h1
  have ht1nodes : t1.nodes = t.nodes := by rw [← h1]
  have ht1info : t1.info = info2 := by rw [← h1]
  have ht1next : t1.nextId = t.nextId := by rw [← h1]
  rw [nodeData, ht1nodes] at hnd1
  rw [layoutHandleEvent] at hi
  simp only [Option.bind_eq_bind] at hi
  rcases Option.bind_eq_some.mp hi with ⟨nd2, hnd2, hi⟩
  rw [nodeData, hnd1] at hnd2
  cases Option.some_inj.mp hnd2
  rcases Option.bind_eq_some.mp hi with ⟨p, hp, hi⟩
  rcases Option.bind_eq_some.mp hi with ⟨i, hin, hi⟩
  rcases Option.bind_eq_some.mp hi with ⟨ip, hip, hi⟩
  rw [Option.some_inj] at hi
  have hpn : p ≠ n := by
    intro he
    exact (hC n nd1 hnd1).2.1 (he ▸ hp)
  obtain ⟨pd, hpd, hnmem⟩ := hPM n nd1 hnd1 p hp
  rw [hp] at h
  simp only [Option.bind_eq_bind, Option.some_bind] at h
  rcases Option.bind_eq_some.mp h with ⟨pd', hpd', h⟩
  have hpd2 : pd = pd' := by
    have h2 : alookup p (aerase n t1.nodes) = some pd' := hpd'
    rw [ht1nodes, alookup_aerase_ne _ hpn, hpd] at h2
    exact Option.some_inj.mp h2
  subst hpd2
  rw [ht1nodes, ht1info, ← hi, ht1next] at h
  -- derived facts about the pre-deletion state
  have hn_erased : alookup n (ainsert p { pd with children := pd.children.erase n }
      (aerase n t.nodes)) = none := by
    rw [alookup_ainsert_ne _ _ (Ne.symm hpn)]
    exact alookup_aerase_self n _ hKn
  have hlive : ∀ q qd, alookup q (ainsert p { pd with children := pd.children.erase n }
      (aerase n t.nodes)) = some qd →
      (q = p ∧ qd = { pd with children := pd.children.erase n }) ∨
      (q ≠ p ∧ q ≠ n ∧ alookup q t.nodes = some qd) := by
    intro q qd hq
    by_cases hqp : q = p
    · subst hqp
      rw [alookup_ainsert] at hq
      exact Or.inl ⟨rfl, (Option.some_inj.mp hq).symm⟩
    · rw [alookup_ainsert_ne _ _ hqp] at hq
      have hqn : q ≠ n := by
        intro he
        subst he
        rw [alookup_aerase_self q _ hKn] at hq
        exact Option.noConfusion hq
      rw [alookup_aerase_ne _ hqn] at hq
      exact Or.inr ⟨hqp, hqn, hq⟩
  have hxnotn : ∀ q qd, alookup q t.nodes = some qd → q ≠ p → ∀ x ∈ qd.children, x ≠ n := by
    intro q qd hqt hqp x hx he
    subst he
    obtain ⟨xd, hxd, hxp⟩ := (hC q qd hqt).2.2 x hx
    rw [hnd1] at hxd
    cases Option.some_inj.mp hxd
    rw [hp] at hxp
    exact hqp (Option.some_inj.mp hxp).symm
  have hcs : ∀ x, ((alookup x (ainsert p { ip with total := ip.total - i.size }
      t.info)).getD {}).size = childSize t x := by
    intro x
    by_cases hxp : x = p
    · subst hxp
      rw [alookup_ainsert]
      show ip.size = childSize t x
      rw [childSize, hip]
      rfl
    · rw [alookup_ainsert_ne _ _ hxp]
      rfl
  have hwT3 : WfCore (TreeState.mk
      (ainsert p { pd with children := pd.children.erase n } (aerase n t.nodes))
      t.nextId (ainsert p { ip with total := ip.total - i.size } t.info) t1.sel t1.log) := by
    refine ⟨⟨?_, ?_, ?_⟩, ?_, ?_⟩
    · exact nodup_akeys_ainsert _ _ (nodup_akeys_aerase n hKn)
    · exact nodup_akeys_ainsert _ _ hKi
    · intro k hk
      show k < t.nextId
      rcases (mem_akeys_ainsert ..).mp hk with hkp | hk2
      · subst hkp
        exact hKlt k (mem_akeys_of_alookup hpd)
      · exact hKlt k ((akeys_aerase_sublist n t.nodes).subset hk2)
    · intro q qd hq
      rcases hlive q qd hq with ⟨hqp, hqd⟩ | ⟨hqp, hqn, hqt⟩
      · subst hqp
        subst hqd
        obtain ⟨hpnd, hpns, hpch⟩ := hC q pd hpd
        refine ⟨hpnd.erase n, hpns, ?_⟩
        intro x hx
        have hx0 : x ∈ pd.children := List.mem_of_mem_erase hx
        obtain ⟨xd, hxd, hxp⟩ := hpch x hx0
        have hxn : x ≠ n := ((hpnd.mem_erase_iff).mp hx).1
        have hxq : x ≠ q := by
          intro he
          subst he
          rw [hpd] at hxd
          cases Option.some_inj.mp hxd
          exact hpns hxp
        refine ⟨xd, ?_, hxp⟩
        show alookup x (ainsert q { pd with children := pd.children.erase n }
          (aerase n t.nodes)) = some xd
        rw [alookup_ainsert_ne _ _ hxq, alookup_aerase_ne _ hxn]
        exact hxd
      · obtain ⟨hqnd, hqns, hqch⟩ := hC q qd hqt
        refine ⟨hqnd, hqns, ?_⟩
        intro x hx
        obtain ⟨xd, hxd, hxp⟩ := hqch x hx
        have hxn : x ≠ n := hxnotn q qd hqt hqp x hx
        by_cases hxp2 : x = p
        · subst hxp2
          refine ⟨{ pd with children := pd.children.erase n }, ?_, ?_⟩
          · show alookup x (ainsert x { pd with children := pd.children.erase n }
              (aerase n t.nodes)) = _
            rw [alookup_ainsert]
          · rw [hpd] at hxd
            cases Option.some_inj.mp hxd
            exact hxp
        · refine ⟨xd, ?_, hxp⟩
          show alookup x (ainsert p { pd with children := pd.children.erase n }
            (aerase n t.nodes)) = some xd
          rw [alookup_ainsert_ne _ _ hxp2, alookup_aerase_ne _ hxn]
          exact hxd
    · intro q qd hq
      rcases hlive q qd hq with ⟨hqp, hqd⟩ | ⟨hqp, hqn, hqt⟩
      · subst hqp
        subst hqd
        refine ⟨{ ip with total := ip.total - i.size }, ?_, ?_⟩
        · show alookup q (ainsert q { ip with total := ip.total - i.size } t.info) = _
          rw [alookup_ainsert]
        · show ip.total - i.size = (List.map _ (pd.children.erase n)).sum
          obtain ⟨iq, hiq, hqsum⟩ := hS q pd hpd
          rw [hip] at hiq
          cases Option.some_inj.mp hiq
          have hperm : pd.children.Perm (n :: pd.children.erase n) :=
            List.perm_cons_erase hnmem
          have hsum2 := (hperm.map (childSize t)).sum_eq
          rw [List.map_cons, List.sum_cons] at hsum2
          have hszn : childSize t n = i.size := by rw [childSize, hin]; rfl
          have hmapeq : List.map (fun c => ((alookup c (ainsert q
              { ip with total := ip.total - i.size } t.info)).getD {}).size)
              (pd.children.erase n) = List.map (childSize t) (pd.children.erase n) :=
            List.map_congr_left (fun x _ => hcs x)
          calc ip.total - i.size
              = (List.map (childSize t) pd.children).sum - i.size := by rw [hqsum]
            _ = (List.map (childSize t) (pd.children.erase n)).sum := by
                rw [hsum2, hszn]; ring
            _ = _ := by rw [← hmapeq]; rfl
      · obtain ⟨iq, hiq, hqsum⟩ := hS q qd hqt
        refine ⟨iq, ?_, ?_⟩
        · show alookup q (ainsert p { ip with total := ip.total - i.size } t.info) = some iq
          rw [alookup_ainsert_ne _ _ hqp]
          exact hiq
        · rw [hqsum]
          exact congrArg List.sum (List.map_congr_left fun x _ => (hcs x).symm)
  have hangT3 : ∀ x ∈ nd1.children, ∀ q qd,
      alookup q (ainsert p { pd with children := pd.children.erase n }
        (aerase n t.nodes)) = some qd → x ∉ qd.children := by
    intro x hx q qd hq hmem
    obtain ⟨xd, hxd, hxp⟩ := (hC n nd1 hnd1).2.2 x hx
    rcases hlive q qd hq with ⟨hqp, hqd⟩ | ⟨hqp, hqn, hqt⟩
    · subst hqp
      subst hqd
      have hx0 : x ∈ pd.children := List.mem_of_mem_erase hmem
      obtain ⟨xd', hxd', hxp'⟩ := (hC q pd hpd).2.2 x hx0
      rw [hxd] at hxd'
      cases Option.some_inj.mp hxd'
      rw [hxp] at hxp'
      exact hpn (Option.some_inj.mp hxp').symm
    · obtain ⟨xd', hxd', hxp'⟩ := (hC q qd hqt).2.2 x hmem
      rw [hxd] at hxd'
      cases Option.some_inj.mp hxd'
      rw [hxp] at hxp'
      exact hqn (Option.some_inj.mp hxp').symm
  obtain ⟨hw2, hnext2, hpair2, hclosed2, hkills2⟩ :=
    delete_recursive_wf _ _ _ _ h hwT3 hangT3
  have hdeadn : alookup n t2.nodes = none := by
    rcases hpair2 n with ⟨g1, _⟩ | ⟨g1, _⟩
    · exact g1.trans hn_erased
    · exact g1
  refine ⟨hw2, ?_⟩
  intro m md hm q hq
  rcases hpair2 m with ⟨g1, _⟩ | ⟨g1, _⟩
  · rw [g1] at hm
    -- locate q's entry and m's membership in t
    have hqmem : ∃ qd0, alookup q t.nodes = some qd0 ∧ m ∈ qd0.children := by
      rcases hlive m md hm with ⟨hmp, hmd⟩ | ⟨hmp, hmn, hmt⟩
      · subst hmp
        subst hmd
        exact hPM m pd hpd q hq
      · exact hPM m md hmt q hq
    obtain ⟨qd0, hqd0, hmem0⟩ := hqmem
    have hmn2 : m ≠ n := by
      intro he
      subst he
      have h2 : alookup m (ainsert p { pd with children := pd.children.erase m }
          (aerase m t.nodes)) = some md := hm
      rw [hn_erased] at h2
      exact Option.noConfusion h2
    by_cases hqn2 : q = n
    · subst hqn2
      rw [hnd1] at hqd0
      cases Option.some_inj.mp hqd0
      have hkm := hkills2 m hmem0
      rw [g1] at hkm
      rw [hkm] at hm
      exact Option.noConfusion hm
    · -- q is live in the pre-deletion state with a children list containing m
      have hqT3 : ∃ qe, alookup q (ainsert p { pd with children := pd.children.erase n }
          (aerase n t.nodes)) = some qe ∧ m ∈ qe.children := by
        by_cases hqp2 : q = p
        · subst hqp2
          rw [hpd] at hqd0
          cases Option.some_inj.mp hqd0
          refine ⟨{ pd with children := pd.children.erase n }, ?_, ?_⟩
          · rw [alookup_ainsert]
          · exact (List.mem_erase_of_ne hmn2).mpr hmem0
        · refine ⟨qd0, ?_, hmem0⟩
          rw [alookup_ainsert_ne _ _ hqp2, alookup_aerase_ne _ hqn2]
          exact hqd0
      obtain ⟨qe, hqe, hmeme⟩ := hqT3
      rcases hpair2 q with ⟨f1, _⟩ | ⟨f1, _⟩
      · exact ⟨qe, f1.trans hqe, hmeme⟩
      · have hdm := hclosed2 q qe hqe f1 m hmeme
        rw [g1] at hdm
        rw [hdm] at hm
        exact Option.noConfusion hm
  · rw [g1] at hm
    exact Option.noConfusion hm

theorem mk_node_eq (t : TreeState) :
    mk_node t = some (TreeState.mk (t.nodes ++ [(t.nextId, ({} : Node))]) (t.nextId + 1)
      (ainsert t.nextId {} t.info) t.sel (t.log ++ [TreeEvent.addedToForest t.nextId]),
      t.nextId) := rfl

/-- Linking a freshly made node under a live parent (appending, prepending
or inserting it among the siblings) and firing added_to_parent preserves
well-formedness: the new child contributes size 1 and the parent's total
grows by 1. -/
theorem insert_fresh_wf (t : TreeState) (p : NodeId) (pd : Node) (ip : LayoutInfo)
    (L' : List NodeId) (sl : List (NodeId × SelectionInfo)) (lg : List TreeEvent)
    (hw : Wf t)
    (hpd : alookup p t.nodes = some pd)
    (hip : alookup p t.info = some ip)
    (hperm : L'.Perm (t.nextId :: pd.children)) :
    Wf (TreeState.mk
      (ainsert p { pd with children := L' } (ainsert t.nextId
        { parent := some p, children := [] } (t.nodes ++ [(t.nextId, ({} : Node))])))
      (t.nextId + 1)
      (ainsert p { ip with total := ip.total + 1 } (ainsert t.nextId
        { size := 1 } (ainsert t.nextId {} t.info)))
      sl lg) := by
  obtain ⟨⟨⟨hKn, hKi, hKlt⟩, hC, hS⟩, hPM⟩ := hw
  have hpn : p ≠ t.nextId := by
    intro he
    exact absurd (he ▸ hKlt p (mem_akeys_of_alookup hpd)) (lt_irrefl _)
  have hchn : ∀ q qd, alookup q t.nodes = some qd → ∀ x ∈ qd.children, x ≠ t.nextId := by
    intro q qd hq x hx he
    obtain ⟨xd, hxd, hxp⟩ := (hC q qd hq).2.2 x hx
    exact absurd (he ▸ hKlt x (mem_akeys_of_alookup hxd)) (lt_irrefl _)
  have happ : ∀ k, k ≠ t.nextId →
      alookup k (t.nodes ++ [(t.nextId, ({} : Node))]) = alookup k t.nodes := by
    intro k hk
    rw [alookup_append]
    cases hh : alookup k t.nodes with
    | some v => rfl
    | none =>
      show alookup k [(t.nextId, ({} : Node))] = none
      simp [alookup, Ne.symm hk]
  have hlive : ∀ q qd, alookup q (ainsert p { pd with children := L' } (ainsert t.nextId
      { parent := some p, children := [] } (t.nodes ++ [(t.nextId, ({} : Node))]))) = some qd →
      (q = p ∧ qd = { pd with children := L' }) ∨
      (q = t.nextId ∧ qd = { parent := some p, children := [] }) ∨
      (q ≠ p ∧ q ≠ t.nextId ∧ alookup q t.nodes = some qd) := by
    intro q qd hq
    by_cases hqp : q = p
    · subst hqp
      rw [alookup_ainsert] at hq
      exact Or.inl ⟨rfl, (Option.some_inj.mp hq).symm⟩
    · rw [alookup_ainsert_ne _ _ hqp] at hq
      by_cases hqn : q = t.nextId
      · subst hqn
        rw [alookup_ainsert] at hq
        exact Or.inr (Or.inl ⟨rfl, (Option.some_inj.mp hq).symm⟩)
      · rw [alookup_ainsert_ne _ _ hqn, happ q hqn] at hq
        exact Or.inr (Or.inr ⟨hqp, hqn, hq⟩)
  have hinfo_other : ∀ k, k ≠ p → k ≠ t.nextId →
      alookup k (ainsert p { ip with total := ip.total + 1 } (ainsert t.nextId
        { size := 1 } (ainsert t.nextId {} t.info))) = alookup k t.info := by
    intro k hkp hkn
    rw [alookup_ainsert_ne _ _ hkp, alookup_ainsert_ne _ _ hkn, alookup_ainsert_ne _ _ hkn]
  have hcs : ∀ x, x ≠ t.nextId →
      ((alookup x (ainsert p { ip with total := ip.total + 1 } (ainsert t.nextId
        { size := 1 } (ainsert t.nextId {} t.info)))).getD {}).size = childSize t x := by
    intro x hxn
    by_cases hxp : x = p
    · subst hxp
      rw [alookup_ainsert]
      show ip.size = childSize t x
      rw [childSize, hip]
      rfl
    · rw [hinfo_other x hxp hxn]
      rfl
  have hcsn : ((alookup t.nextId (ainsert p { ip with total := ip.total + 1 }
      (ainsert t.nextId { size := 1 } (ainsert t.nextId {} t.info)))).getD {}).size = 1 := by
    rw [alookup_ainsert_ne _ _ (Ne.symm hpn), alookup_ainsert]
    rfl
  have hnodupA : (akeys (t.nodes ++ [(t.nextId, ({} : Node))])).Nodup := by
    rw [akeys_append]
    refine List.Nodup.append hKn (List.nodup_singleton _) ?_
    intro a ha hb
    rw [List.mem_singleton.mp hb] at ha
    exact absurd (hKlt _ ha) (lt_irrefl _)
  refine ⟨⟨⟨?_, ?_, ?_⟩, ?_, ?_⟩, ?_⟩
  · exact nodup_akeys_ainsert _ _ (nodup_akeys_ainsert _ _ hnodupA)
  · exact nodup_akeys_ainsert _ _ (nodup_akeys_ainsert _ _ (nodup_akeys_ainsert _ _ hKi))
  · intro k hk
    show k < t.nextId + 1
    rcases (mem_akeys_ainsert ..).mp hk with hkp | hk2
    · subst hkp
      exact Nat.lt_succ_of_lt (hKlt k (mem_akeys_of_alookup hpd))
    · rcases (mem_akeys_ainsert ..).mp hk2 with hkn | hk3
      · subst hkn
        exact Nat.lt_succ_self _
      · rw [akeys_append] at hk3
        rcases List.mem_append.mp hk3 with hk4 | hk4
        · exact Nat.lt_succ_of_lt (hKlt k hk4)
        · rw [List.mem_singleton.mp hk4]
          exact Nat.lt_succ_self _
  · -- cohOK
    intro q qd hq
    rcases hlive q qd hq with ⟨hqp, hqd⟩ | ⟨hqn, hqd⟩ | ⟨hqp, hqn, hqt⟩
    · subst hqp
      subst hqd
      obtain ⟨hpnd, hpns, hpch⟩ := hC q pd hpd
      have hLnd : L'.Nodup := by
        rw [hperm.nodup_iff]
        exact List.nodup_cons.mpr ⟨fun hmem => hchn q pd hpd _ hmem rfl, hpnd⟩
      refine ⟨hLnd, hpns, ?_⟩
      intro x hx
      rcases List.mem_cons.mp ((hperm.mem_iff).mp hx) with hxn | hx0
      · subst hxn
        refine ⟨{ parent := some q, children := [] }, ?_, rfl⟩
        rw [alookup_ainsert_ne _ _ (Ne.symm hpn), alookup_ainsert]
      · obtain ⟨xd, hxd, hxp⟩ := hpch x hx0
        have hxn2 : x ≠ t.nextId := hchn q pd hpd x hx0
        have hxq : x ≠ q := by
          intro he
          subst he
          rw [hpd] at hxd
          cases Option.some_inj.mp hxd
          exact hpns hxp
        refine ⟨xd, ?_, hxp⟩
        rw [alookup_ainsert_ne _ _ hxq, alookup_ainsert_ne _ _ hxn2, happ x hxn2]
        exact hxd
    · subst hqn
      subst hqd
      refine ⟨List.nodup_nil, ?_, ?_⟩
      · intro he
        exact hpn (Option.some_inj.mp he)
      · intro x hx
        cases hx
    · obtain ⟨hqnd, hqns, hqch⟩ := hC q qd hqt
      refine ⟨hqnd, hqns, ?_⟩
      intro x hx
      obtain ⟨xd, hxd, hxp⟩ := hqch x hx
      have hxn2 : x ≠ t.nextId := hchn q qd hqt x hx
      by_cases hxp2 : x = p
      · subst hxp2
        rw [hpd] at hxd
        cases Option.some_inj.mp hxd
        refine ⟨{ pd with children := L' }, ?_, hxp⟩
        rw [alookup_ainsert]
      · refine ⟨xd, ?_, hxp⟩
        rw [alookup_ainsert_ne _ _ hxp2, alookup_ainsert_ne _ _ hxn2, happ x hxn2]
        exact hxd
  · -- sumOK
    intro q qd hq
    rcases hlive q qd hq with ⟨hqp, hqd⟩ | ⟨hqn, hqd⟩ | ⟨hqp, hqn, hqt⟩
    · subst hqp
      subst hqd
      refine ⟨{ ip with total := ip.total + 1 }, by rw [alookup_ainsert], ?_⟩
      show ip.total + 1 = (List.map (fun c => ((alookup c (ainsert q
        { ip with total := ip.total + 1 } (ainsert t.nextId
        { size := 1 } (ainsert t.nextId {} t.info)))).getD {}).size) L').sum
      obtain ⟨iq, hiq, hqsum⟩ := hS q pd hpd
      rw [hip] at hiq
      cases Option.some_inj.mp hiq
      have hsum2 := (hperm.map (fun c => ((alookup c (ainsert q
          { ip with total := ip.total + 1 } (ainsert t.nextId
          { size := 1 } (ainsert t.nextId {} t.info)))).getD {}).size)).sum_eq
      rw [List.map_cons, List.sum_cons] at hsum2
      rw [hsum2, hcsn]
      have hmapeq : List.map (fun c => ((alookup c (ainsert q
          { ip with total := ip.total + 1 } (ainsert t.nextId
          { size := 1 } (ainsert t.nextId {} t.info)))).getD {}).size) pd.children =
          List.map (childSize t) pd.children :=
        List.map_congr_left (fun x hx => hcs x (hchn q pd hpd x hx))
      rw [hmapeq, ← hqsum]
      ring
    · subst hqn
      subst hqd
      refine ⟨{ size := 1 }, ?_, ?_⟩
      · rw [alookup_ainsert_ne _ _ (Ne.symm hpn), alookup_ainsert]
      · rfl
    · obtain ⟨iq, hiq, hqsum⟩ := hS q qd hqt
      refine ⟨iq, ?_, ?_⟩
      · rw [hinfo_other q hqp hqn]
        exact hiq
      · rw [hqsum]
        exact congrArg List.sum
          (List.map_congr_left fun x hx => (hcs x (hchn q qd hqt x hx)).symm)
  · -- parentMemOK
    intro m md hm q hq
    rcases hlive m md hm with ⟨hmp, hmd⟩ | ⟨hmn, hmd⟩ | ⟨hmp, hmn, hmt⟩
    · subst hmp
      subst hmd
      obtain ⟨qd0, hqd0, hmem0⟩ := hPM m pd hpd q hq
      by_cases hqm : q = m
      · subst hqm
        refine ⟨{ pd with children := L' }, by rw [alookup_ainsert], ?_⟩
        rw [hpd] at hqd0
        cases Option.some_inj.mp hqd0
        exact (hperm.mem_iff).mpr (List.mem_cons.mpr (Or.inr hmem0))
      · have hqn : q ≠ t.nextId := by
          intro he
          exact absurd (he ▸ hKlt q (mem_akeys_of_alookup hqd0)) (lt_irrefl _)
        refine ⟨qd0, ?_, hmem0⟩
        rw [alookup_ainsert_ne _ _ hqm, alookup_ainsert_ne _ _ hqn, happ q hqn]
        exact hqd0
    · subst hmn
      subst hmd
      cases Option.some_inj.mp hq
      refine ⟨{ pd with children := L' }, by rw [alookup_ainsert], ?_⟩
      exact (hperm.mem_iff).mpr (List.mem_cons_self _ _)
    · obtain ⟨qd0, hqd0, hmem0⟩ := hPM m md hmt q hq
      have hqn : q ≠ t.nextId := by
        intro he
        exact absurd (he ▸ hKlt q (mem_akeys_of_alookup hqd0)) (lt_irrefl _)
      by_cases hqp : q = p
      · subst hqp
        rw [hpd] at hqd0
        cases Option.some_inj.mp hqd0
        refine ⟨{ pd with children := L' }, by rw [alookup_ainsert], ?_⟩
        exact (hperm.mem_iff).mpr (List.mem_cons.mpr (Or.inr hmem0))
      · refine ⟨qd0, ?_, hmem0⟩
        rw [alookup_ainsert_ne _ _ hqp, alookup_ainsert_ne _ _ hqn, happ q hqn]
        exact hqd0

theorem alookup_append_left {κ α : Type} [DecidableEq κ] {k : κ} {v : α}
    {l1 : List (κ × α)} (l2 : List (κ × α)) (h : alookup k l1 = some v) :
    alookup k (l1 ++ l2) = some v := by
  rw [alookup_append, h]

theorem alookup_append_right_none {κ α : Type} [DecidableEq κ] {k : κ}
    {l1 : List (κ × α)} (l2 : List (κ × α)) (h : alookup k l1 = none) :
    alookup k (l1 ++ l2) = alookup k l2 := by
  rw [alookup_append, h]

theorem step_pushBack_wf (t : TreeState) (p : NodeId) (t2 : TreeState)
    (h : stepOp t (.pushBack p) = some t2) (hw : Wf t) : Wf t2 := by
  obtain ⟨⟨⟨hKn, hKi, hKlt⟩, hC, hS⟩, hPM⟩ := hw
  rw [stepOp] at h
  simp only [Option.bind_eq_bind] at h
  rcases Option.bind_eq_some.mp h with ⟨pd0, hpd0, h⟩
  rw [nodeData] at hpd0
  have hpn : p ≠ t.nextId := fun he =>
    absurd (he ▸ hKlt p (mem_akeys_of_alookup hpd0)) (lt_irrefl _)
  have hfresh : alookup t.nextId t.nodes = none := by
    cases hh : alookup t.nextId t.nodes with
    | none => rfl
    | some v => exact absurd (hKlt _ (mem_akeys_of_alookup hh)) (lt_irrefl _)
  rcases Option.map_eq_some'.mp h with ⟨pr, hpr, hfst⟩
  obtain ⟨t3, n⟩ := pr
  have h5 : t3 = t2 := hfst
  subst h5
  rw [push_back, mk_node_eq] at hpr
  simp only [Option.bind_eq_bind, Option.some_bind] at hpr
  rcases Option.bind_eq_some.mp hpr with ⟨t4, hlink, hpr⟩
  rcases Option.bind_eq_some.mp hpr with ⟨t5, hdisp, hpr⟩
  rw [Option.some_inj] at hpr
  obtain ⟨hA, hB⟩ := Prod.mk.injEq .. ▸ hpr
  subst hA
  rw [link_under_back] at hlink
  simp only [Option.bind_eq_bind] at hlink
  rcases Option.bind_eq_some.mp hlink with ⟨nd, hnd, hlink⟩
  have hndv : alookup t.nextId (t.nodes ++ [(t.nextId, ({} : Node))]) = some nd := hnd
  rw [alookup_append_right_none _ hfresh] at hndv
  rw [alookup, if_pos rfl] at hndv
  cases Option.some_inj.mp hndv
  rcases Option.bind_eq_some.mp hlink with ⟨pd1, hpd1, hlink⟩
  have hpdv : alookup p (ainsert t.nextId { parent := some p, children := [] }
      (t.nodes ++ [(t.nextId, ({} : Node))])) = some pd1 := hpd1
  rw [alookup_ainsert_ne _ _ hpn, alookup_append_left _ hpd0] at hpdv
  cases Option.some_inj.mp hpdv
  rw [Option.some_inj] at hlink
  subst hlink
  rw [dispatchEvent] at hdisp
  simp only [Option.bind_eq_bind] at hdisp
  rcases Option.bind_eq_some.mp hdisp with ⟨sel2, hsel, hdisp⟩
  rcases Option.bind_eq_some.mp hdisp with ⟨info2, hinfo, hdisp⟩
  rw [Option.some_inj] at hdisp
  rw [layoutHandleEvent] at hinfo
  simp only [Option.bind_eq_bind] at hinfo
  rcases Option.bind_eq_some.mp hinfo with ⟨nd2, hnd2, hinfo⟩
  have hnd2v : alookup t.nextId (ainsert p { pd0 with children := pd0.children ++ [t.nextId] }
      (ainsert t.nextId { parent := some p, children := [] }
        (t.nodes ++ [(t.nextId, ({} : Node))]))) = some nd2 := hnd2
  rw [alookup_ainsert_ne _ _ (Ne.symm hpn), alookup_ainsert] at hnd2v
  cases Option.some_inj.mp hnd2v
  rcases Option.bind_eq_some.mp hinfo with ⟨p2, hp2, hinfo⟩
  cases Option.some_inj.mp hp2
  rcases Option.bind_eq_some.mp hinfo with ⟨i0, hi0, hinfo⟩
  have hi0v : alookup t.nextId (ainsert t.nextId {} t.info) = some i0 := hi0
  rw [alookup_ainsert] at hi0v
  cases Option.some_inj.mp hi0v
  rcases Option.bind_eq_some.mp hinfo with ⟨ip2, hip2, hinfo⟩
  obtain ⟨ip, hip, hxx⟩ := hS p pd0 hpd0
  have hip2v : alookup p (ainsert t.nextId { ({} : LayoutInfo) with size := 1 }
      (ainsert t.nextId {} t.info)) = some ip2 := hip2
  rw [alookup_ainsert_ne _ _ hpn, alookup_ainsert_ne _ _ hpn, hip] at hip2v
  cases Option.some_inj.mp hip2v
  rw [Option.some_inj] at hinfo
  subst hinfo
  have hselv : sel2 = (setNode (setNode (TreeState.mk (t.nodes ++ [(t.nextId, ({} : Node))])
      (t.nextId + 1) (ainsert t.nextId {} t.info) t.sel
      (t.log ++ [TreeEvent.addedToForest t.nextId])) t.nextId
      { parent := some p, children := [] }) p
      { pd0 with children := pd0.children ++ [t.nextId] }).sel :=
    (Option.some_inj.mp hsel).symm
  subst hselv
  subst hdisp
  exact insert_fresh_wf t p pd0 ip2 (pd0.children ++ [t.nextId]) _ _
    ⟨⟨⟨hKn, hKi, hKlt⟩, hC, hS⟩, hPM⟩ hpd0 hip (List.perm_append_singleton _ _)

theorem step_pushFront_wf (t : TreeState) (p : NodeId) (t2 : TreeState)
    (h : stepOp t (.pushFront p) = some t2) (hw : Wf t) : Wf t2 := by
  obtain ⟨⟨⟨hKn, hKi, hKlt⟩, hC, hS⟩, hPM⟩ := hw
  rw [stepOp] at h
  simp only [Option.bind_eq_bind] at h
  rcases Option.bind_eq_some.mp h with ⟨pd0, hpd0, h⟩
  rw [nodeData] at hpd0
  have hpn : p ≠ t.nextId := fun he =>
    absurd (he ▸ hKlt p (mem_akeys_of_alookup hpd0)) (lt_irrefl _)
  have hfresh : alookup t.nextId t.nodes = none := by
    cases hh : alookup t.nextId t.nodes with
    | none => rfl
    | some v => exact absurd (hKlt _ (mem_akeys_of_alookup hh)) (lt_irrefl _)
  rcases Option.map_eq_some'.mp h with ⟨pr, hpr, hfst⟩
  obtain ⟨t3, n⟩ := pr
  have h5 : t3 = t2 := hfst
  subst h5
  rw [push_front, mk_node_eq] at hpr
  simp only [Option.bind_eq_bind, Option.some_bind] at hpr
  rcases Option.bind_eq_some.mp hpr with ⟨t4, hlink, hpr⟩
  rcases Option.bind_eq_some.mp hpr with ⟨t5, hdisp, hpr⟩
  rw [Option.some_inj] at hpr
  obtain ⟨hA, hB⟩ := Prod.mk.injEq .. ▸ hpr
  subst hA
  rw [link_under_front] at hlink
  simp only [Option.bind_eq_bind] at hlink
  rcases Option.bind_eq_some.mp hlink with ⟨nd, hnd, hlink⟩
  have hndv : alookup t.nextId (t.nodes ++ [(t.nextId, ({} : Node))]) = some nd := hnd
  rw [alookup_append_right_none _ hfresh] at hndv
  rw [alookup, if_pos rfl] at hndv
  cases Option.some_inj.mp hndv
  rcases Option.bind_eq_some.mp hlink with ⟨pd1, hpd1, hlink⟩
  have hpdv : alookup p (ainsert t.nextId { parent := some p, children := [] }
      (t.nodes ++ [(t.nextId, ({} : Node))])) = some pd1 := hpd1
  rw [alookup_ainsert_ne _ _ hpn, alookup_append_left _ hpd0] at hpdv
  cases Option.some_inj.mp hpdv
  rw [Option.some_inj] at hlink
  subst hlink
  rw [dispatchEvent] at hdisp
  simp only [Option.bind_eq_bind] at hdisp
  rcases Option.bind_eq_some.mp hdisp with ⟨sel2, hsel, hdisp⟩
  rcases Option.bind_eq_some.mp hdisp with ⟨info2, hinfo, hdisp⟩
  rw [Option.some_inj] at hdisp
  rw [layoutHandleEvent] at hinfo
  simp only [Option.bind_eq_bind] at hinfo
  rcases Option.bind_eq_some.mp hinfo with ⟨nd2, hnd2, hinfo⟩
  have hnd2v : alookup t.nextId (ainsert p { pd0 with children := t.nextId :: pd0.children }
      (ainsert t.nextId { parent := some p, children := [] }
        (t.nodes ++ [(t.nextId, ({} : Node))]))) = some nd2 := hnd2
  rw [alookup_ainsert_ne _ _ (Ne.symm hpn), alookup_ainsert] at hnd2v
  cases Option.some_inj.mp hnd2v
  rcases Option.bind_eq_some.mp hinfo with ⟨p2, hp2, hinfo⟩
  cases Option.some_inj.mp hp2
  rcases Option.bind_eq_some.mp hinfo with ⟨i0, hi0, hinfo⟩
  have hi0v : alookup t.nextId (ainsert t.nextId {} t.info) = some i0 := hi0
  rw [alookup_ainsert] at hi0v
  cases Option.some_inj.mp hi0v
  rcases Option.bind_eq_some.mp hinfo with ⟨ip2, hip2, hinfo⟩
  obtain ⟨ip, hip, hxx⟩ := hS p pd0 hpd0
  have hip2v : alookup p (ainsert t.nextId { ({} : LayoutInfo) with size := 1 }
      (ainsert t.nextId {} t.info)) = some ip2 := hip2
  rw [alookup_ainsert_ne _ _ hpn, alookup_ainsert_ne _ _ hpn, hip] at hip2v
  cases Option.some_inj.mp hip2v
  rw [Option.some_inj] at hinfo
  subst hinfo
  have hselv : sel2 = (setNode (setNode (TreeState.mk (t.nodes ++ [(t.nextId, ({} : Node))])
      (t.nextId + 1) (ainsert t.nextId {} t.info) t.sel
      (t.log ++ [TreeEvent.addedToForest t.nextId])) t.nextId
      { parent := some p, children := [] }) p
      { pd0 with children := t.nextId :: pd0.children }).sel :=
    (Option.some_inj.mp hsel).symm
  subst hselv
  subst hdisp
  exact insert_fresh_wf t p pd0 ip2 (t.nextId :: pd0.children) _ _
    ⟨⟨⟨hKn, hKi, hKlt⟩, hC, hS⟩, hPM⟩ hpd0 hip (List.Perm.refl _)

theorem step_insertBefore_wf (t : TreeState) (s : NodeId) (t2 : TreeState)
    (h : stepOp t (.insertBefore s) = some t2) (hw : Wf t) : Wf t2 := by
  obtain ⟨⟨⟨hKn, hKi, hKlt⟩, hC, hS⟩, hPM⟩ := hw
  rw [stepOp] at h
  have hfresh : alookup t.nextId t.nodes = none := by
    cases hh : alookup t.nextId t.nodes with
    | none => rfl
    | some v => exact absurd (hKlt _ (mem_akeys_of_alookup hh)) (lt_irrefl _)
  rcases Option.map_eq_some'.mp h with ⟨pr, hpr, hfst⟩
  obtain ⟨t3, n⟩ := pr
  have h5 : t3 = t2 := hfst
  subst h5
  rw [insert_before, mk_node_eq] at hpr
  simp only [Option.bind_eq_bind, Option.some_bind] at hpr
  rcases Option.bind_eq_some.mp hpr with ⟨t4, hlink, hpr⟩
  rcases Option.bind_eq_some.mp hpr with ⟨t5, hdisp, hpr⟩
  rw [Option.some_inj] at hpr
  obtain ⟨hA, hB⟩ := Prod.mk.injEq .. ▸ hpr
  subst hA
  rw [link_before] at hlink
  simp only [Option.bind_eq_bind] at hlink
  rcases Option.bind_eq_some.mp hlink with ⟨sd, hsd, hlink⟩
  rcases Option.bind_eq_some.mp hlink with ⟨p, hp, hlink⟩
  by_cases hs : s = t.nextId
  · have h2 : alookup s (t.nodes ++ [(t.nextId, ({} : Node))]) = some sd := hsd
    rw [hs] at h2
    rw [alookup_append_right_none _ hfresh, alookup, if_pos rfl] at h2
    cases Option.some_inj.mp h2
    exact Option.noConfusion hp
  · have hsdt : alookup s t.nodes = some sd := by
      have h2 : alookup s (t.nodes ++ [(t.nextId, ({} : Node))]) = some sd := hsd
      cases hh : alookup s t.nodes with
      | some v =>
        rw [alookup_append_left _ hh] at h2
        exact h2
      | none =>
        rw [alookup_append_right_none _ hh, alookup, if_neg (Ne.symm hs)] at h2
        exact h2
    obtain ⟨pd0, hpd0, hsmem⟩ := hPM s sd hsdt p hp
    have hpn : p ≠ t.nextId := fun he =>
      absurd (he ▸ hKlt p (mem_akeys_of_alookup hpd0)) (lt_irrefl _)
    rcases Option.bind_eq_some.mp hlink with ⟨nd, hnd, hlink⟩
    have hndv : alookup t.nextId (t.nodes ++ [(t.nextId, ({} : Node))]) = some nd := hnd
    rw [alookup_append_right_none _ hfresh] at hndv
    rw [alookup, if_pos rfl] at hndv
    cases Option.some_inj.mp hndv
    rcases Option.bind_eq_some.mp hlink with ⟨pd1, hpd1, hlink⟩
    have hpdv : alookup p (ainsert t.nextId { parent := some p, children := [] }
        (t.nodes ++ [(t.nextId, ({} : Node))])) = some pd1 := hpd1
    rw [alookup_ainsert_ne _ _ hpn, alookup_append_left _ hpd0] at hpdv
    cases Option.some_inj.mp hpdv
    rw [Option.some_inj] at hlink
    subst hlink
    rw [dispatchEvent] at hdisp
    simp only [Option.bind_eq_bind] at hdisp
    rcases Option.bind_eq_some.mp hdisp with ⟨sel2, hsel, hdisp⟩
    rcases Option.bind_eq_some.mp hdisp with ⟨info2, hinfo, hdisp⟩
    rw [Option.some_inj] at hdisp
    rw [layoutHandleEvent] at hinfo
    simp only [Option.bind_eq_bind] at hinfo
    rcases Option.bind_eq_some.mp hinfo with ⟨nd2, hnd2, hinfo⟩
    have hnd2v : alookup t.nextId (ainsert p
        { pd0 with children := listInsertBefore pd0.children s t.nextId }
        (ainsert t.nextId { parent := some p, children := [] }
          (t.nodes ++ [(t.nextId, ({} : Node))]))) = some nd2 := hnd2
    rw [alookup_ainsert_ne _ _ (Ne.symm hpn), alookup_ainsert] at hnd2v
    cases Option.some_inj.mp hnd2v
    rcases Option.bind_eq_some.mp hinfo with ⟨p2, hp2, hinfo⟩
    cases Option.some_inj.mp hp2
    rcases Option.bind_eq_some.mp hinfo with ⟨i0, hi0, hinfo⟩
    have hi0v : alookup t.nextId (ainsert t.nextId {} t.info) = some i0 := hi0
    rw [alookup_ainsert] at hi0v
    cases Option.some_inj.mp hi0v
    rcases Option.bind_eq_some.mp hinfo with ⟨ip2, hip2, hinfo⟩
    obtain ⟨ip, hip, hxx⟩ := hS p pd0 hpd0
    have hip2v : alookup p (ainsert t.nextId { ({} : LayoutInfo) with size := 1 }
        (ainsert t.nextId {} t.info)) = some ip2 := hip2
    rw [alookup_ainsert_ne _ _ hpn, alookup_ainsert_ne _ _ hpn, hip] at hip2v
    cases Option.some_inj.mp hip2v
    rw [Option.some_inj] at hinfo
    subst hinfo
    have hselv : sel2 = (setNode (setNode (TreeState.mk (t.nodes ++ [(t.nextId, ({} : Node))])
        (t.nextId + 1) (ainsert t.nextId {} t.info) t.sel
        (t.log ++ [TreeEvent.addedToForest t.nextId])) t.nextId
        { parent := some p, children := [] }) p
        { pd0 with children := listInsertBefore pd0.children s t.nextId }).sel :=
      (Option.some_inj.mp hsel).symm
    subst hselv
    subst hdisp
    exact insert_fresh_wf t p pd0 ip2 (listInsertBefore pd0.children s t.nextId) _ _
      ⟨⟨⟨hKn, hKi, hKlt⟩, hC, hS⟩, hPM⟩ hpd0 hip (listInsertBefore_perm _ _ _)

theorem step_insertAfter_wf (t : TreeState) (s : NodeId) (t2 : TreeState)
    (h : stepOp t (.insertAfter s) = some t2) (hw : Wf t) : Wf t2 := by
  obtain ⟨⟨⟨hKn, hKi, hKlt⟩, hC, hS⟩, hPM⟩ := hw
  rw [stepOp] at h
  have hfresh : alookup t.nextId t.nodes = none := by
    cases hh : alookup t.nextId t.nodes with
    | none => rfl
    | some v => exact absurd (hKlt _ (mem_akeys_of_alookup hh)) (lt_irrefl _)
  rcases Option.map_eq_some'.mp h with ⟨pr, hpr, hfst⟩
  obtain ⟨t3, n⟩ := pr
  have h5 : t3 = t2 := hfst
  subst h5
  rw [insert_after, mk_node_eq] at hpr
  simp only [Option.bind_eq_bind, Option.some_bind] at hpr
  rcases Option.bind_eq_some.mp hpr with ⟨t4, hlink, hpr⟩
  rcases Option.bind_eq_some.mp hpr with ⟨t5, hdisp, hpr⟩
  rw [Option.some_inj] at hpr
  obtain ⟨hA, hB⟩ := Prod.mk.injEq .. ▸ hpr
  subst hA
  rw [link_after] at hlink
  simp only [Option.bind_eq_bind] at hlink
  rcases Option.bind_eq_some.mp hlink with ⟨sd, hsd, hlink⟩
  rcases Option.bind_eq_some.mp hlink with ⟨p, hp, hlink⟩
  by_cases hs : s = t.nextId
  · have h2 : alookup s (t.nodes ++ [(t.nextId, ({} : Node))]) = some sd := hsd
    rw [hs] at h2
    rw [alookup_append_right_none _ hfresh, alookup, if_pos rfl] at h2
    cases Option.some_inj.mp h2
    exact Option.noConfusion hp
  · have hsdt : alookup s t.nodes = some sd := by
      have h2 : alookup s (t.nodes ++ [(t.nextId, ({} : Node))]) = some sd := hsd
      cases hh : alookup s t.nodes with
      | some v =>
        rw [alookup_append_left _ hh] at h2
        exact h2
      | none =>
        rw [alookup_append_right_none _ hh, alookup, if_neg (Ne.symm hs)] at h2
        exact h2
    obtain ⟨pd0, hpd0, hsmem⟩ := hPM s sd hsdt p hp
    have hpn : p ≠ t.nextId := fun he =>
      absurd (he ▸ hKlt p (mem_akeys_of_alookup hpd0)) (lt_irrefl _)
    rcases Option.bind_eq_some.mp hlink with ⟨nd, hnd, hlink⟩
    have hndv : alookup t.nextId (t.nodes ++ [(t.nextId, ({} : Node))]) = some nd := hnd
    rw [alookup_append_right_none _ hfresh] at hndv
    rw [alookup, if_pos rfl] at hndv
    cases Option.some_inj.mp hndv
    rcases Option.bind_eq_some.mp hlink with ⟨pd1, hpd1, hlink⟩
    have hpdv : alookup p (ainsert t.nextId { parent := some p, children := [] }
        (t.nodes ++ [(t.nextId, ({} : Node))])) = some pd1 := hpd1
    rw [alookup_ainsert_ne _ _ hpn, alookup_append_left _ hpd0] at hpdv
    cases Option.some_inj.mp hpdv
    rw [Option.some_inj] at hlink
    subst hlink
    rw [dispatchEvent] at hdisp
    simp only [Option.bind_eq_bind] at hdisp
    rcases Option.bind_eq_some.mp hdisp with ⟨sel2, hsel, hdisp⟩
    rcases Option.bind_eq_some.mp hdisp with ⟨info2, hinfo, hdisp⟩
    rw [Option.some_inj] at hdisp
    rw [layoutHandleEvent] at hinfo
    simp only [Option.bind_eq_bind] at hinfo
    rcases Option.bind_eq_some.mp hinfo with ⟨nd2, hnd2, hinfo⟩
    have hnd2v : alookup t.nextId (ainsert p
        { pd0 with children := listInsertAfter pd0.children s t.nextId }
        (ainsert t.nextId { parent := some p, children := [] }
          (t.nodes ++ [(t.nextId, ({} : Node))]))) = some nd2 := hnd2
    rw [alookup_ainsert_ne _ _ (Ne.symm hpn), alookup_ainsert] at hnd2v
    cases Option.some_inj.mp hnd2v
    rcases Option.bind_eq_some.mp hinfo with ⟨p2, hp2, hinfo⟩
    cases Option.some_inj.mp hp2
    rcases Option.bind_eq_some.mp hinfo with ⟨i0, hi0, hinfo⟩
    have hi0v : alookup t.nextId (ainsert t.nextId {} t.info) = some i0 := hi0
    rw [alookup_ainsert] at hi0v
    cases Option.some_inj.mp hi0v
    rcases Option.bind_eq_some.mp hinfo with ⟨ip2, hip2, hinfo⟩
    obtain ⟨ip, hip, hxx⟩ := hS p pd0 hpd0
    have hip2v : alookup p (ainsert t.nextId { ({} : LayoutInfo) with size := 1 }
        (ainsert t.nextId {} t.info)) = some ip2 := hip2
    rw [alookup_ainsert_ne _ _ hpn, alookup_ainsert_ne _ _ hpn, hip] at hip2v
    cases Option.some_inj.mp hip2v
    rw [Option.some_inj] at hinfo
    subst hinfo
    have hselv : sel2 = (setNode (setNode (TreeState.mk (t.nodes ++ [(t.nextId, ({} : Node))])
        (t.nextId + 1) (ainsert t.nextId {} t.info) t.sel
        (t.log ++ [TreeEvent.addedToForest t.nextId])) t.nextId
        { parent := some p, children := [] }) p
        { pd0 with children := listInsertAfter pd0.children s t.nextId }).sel :=
      (Option.some_inj.mp hsel).symm
    subst hselv
    subst hdisp
    exact insert_fresh_wf t p pd0 ip2 (listInsertAfter pd0.children s t.nextId) _ _
      ⟨⟨⟨hKn, hKi, hKlt⟩, hC, hS⟩, hPM⟩ hpd0 hip (listInsertAfter_perm _ _ _)

theorem step_mkRoot_wf (t : TreeState) (t2 : TreeState)
    (h : stepOp t .mkRoot = some t2) (hw : Wf t) : Wf t2 := by
  obtain ⟨⟨⟨hKn, hKi, hKlt⟩, hC, hS⟩, hPM⟩ := hw
  rw [stepOp, mk_node_eq] at h
  have h2 : (TreeState.mk (t.nodes ++ [(t.nextId, ({} : Node))]) (t.nextId + 1)
      (ainsert t.nextId {} t.info) t.sel (t.log ++ [TreeEvent.addedToForest t.nextId])) = t2 :=
    Option.some_inj.mp h
  subst h2
  have hfresh : alookup t.nextId t.nodes = none := by
    cases hh : alookup t.nextId t.nodes with
    | none => rfl
    | some v => exact absurd (hKlt _ (mem_akeys_of_alookup hh)) (lt_irrefl _)
  have hchn : ∀ q qd, alookup q t.nodes = some qd → ∀ x ∈ qd.children, x ≠ t.nextId := by
    intro q qd hq x hx he
    obtain ⟨xd, hxd, hxp⟩ := (hC q qd hq).2.2 x hx
    exact absurd (he ▸ hKlt x (mem_akeys_of_alookup hxd)) (lt_irrefl _)
  have hsplit : ∀ q qd, alookup q (t.nodes ++ [(t.nextId, ({} : Node))]) = some qd →
      (q = t.nextId ∧ qd = {}) ∨ (q ≠ t.nextId ∧ alookup q t.nodes = some qd) := by
    intro q qd hq
    by_cases hqn : q = t.nextId
    · subst hqn
      rw [alookup_append_right_none _ hfresh, alookup, if_pos rfl] at hq
      exact Or.inl ⟨rfl, (Option.some_inj.mp hq).symm⟩
    · right
      refine ⟨hqn, ?_⟩
      cases hh : alookup q t.nodes with
      | some v =>
        rw [alookup_append_left _ hh] at hq
        exact hq
      | none =>
        rw [alookup_append_right_none _ hh, alookup, if_neg (Ne.symm hqn)] at hq
        exact Option.noConfusion hq
  have hkeep : ∀ q, q ≠ t.nextId → alookup q t.nodes = alookup q
      (t.nodes ++ [(t.nextId, ({} : Node))]) := by
    intro q hqn
    cases hh : alookup q t.nodes with
    | some v => rw [alookup_append_left _ hh]
    | none =>
      rw [alookup_append_right_none _ hh, alookup, if_neg (Ne.symm hqn), alookup]
  have hcs2 : ∀ x, x ≠ t.nextId →
      ((alookup x (ainsert t.nextId {} t.info)).getD {}).size = childSize t x := by
    intro x hx
    rw [alookup_ainsert_ne _ _ hx]
    rfl
  refine ⟨⟨⟨?_, ?_, ?_⟩, ?_, ?_⟩, ?_⟩
  · rw [akeys_append]
    refine List.Nodup.append hKn (List.nodup_singleton _) ?_
    intro a ha hb
    rw [List.mem_singleton.mp hb] at ha
    exact absurd (hKlt _ ha) (lt_irrefl _)
  · exact nodup_akeys_ainsert _ _ hKi
  · intro k hk
    show k < t.nextId + 1
    rw [akeys_append] at hk
    rcases List.mem_append.mp hk with hk2 | hk2
    · exact Nat.lt_succ_of_lt (hKlt k hk2)
    · rw [List.mem_singleton.mp hk2]
      exact Nat.lt_succ_self _
  · intro q qd hq
    rcases hsplit q qd hq with ⟨hqn, hqd⟩ | ⟨hqn, hqt⟩
    · subst hqd
      refine ⟨List.nodup_nil, fun he => Option.noConfusion he, ?_⟩
      intro x hx
      cases hx
    · obtain ⟨hqnd, hqns, hqch⟩ := hC q qd hqt
      refine ⟨hqnd, hqns, ?_⟩
      intro x hx
      obtain ⟨xd, hxd, hxp⟩ := hqch x hx
      refine ⟨xd, ?_, hxp⟩
      rw [← hkeep x (hchn q qd hqt x hx)]
      exact hxd
  · intro q qd hq
    rcases hsplit q qd hq with ⟨hqn, hqd⟩ | ⟨hqn, hqt⟩
    · subst hqn
      subst hqd
      exact ⟨{}, by rw [alookup_ainsert], rfl⟩
    · obtain ⟨iq, hiq, hqsum⟩ := hS q qd hqt
      refine ⟨iq, ?_, ?_⟩
      · rw [alookup_ainsert_ne _ _ hqn]
        exact hiq
      · rw [hqsum]
        exact congrArg List.sum
          (List.map_congr_left fun x hx => (hcs2 x (hchn q qd hqt x hx)).symm)
  · intro m md hm q hq
    rcases hsplit m md hm with ⟨hmn, hmd⟩ | ⟨hmn, hmt⟩
    · subst hmd
      exact Option.noConfusion hq
    · obtain ⟨pd, hpd, hmem⟩ := hPM m md hmt q hq
      have hqn : q ≠ t.nextId := fun he =>
        absurd (he ▸ hKlt q (mem_akeys_of_alookup hpd)) (lt_irrefl _)
      refine ⟨pd, ?_, hmem⟩
      rw [← hkeep q hqn]
      exact hpd

theorem step_removeRaw_wf (t : TreeState) (n : NodeId) (t2 : TreeState)
    (h : stepOp t (.removeRaw n) = some t2) (hw : Wf t) : Wf t2 := by
  rw [stepOp] at h
  exact remove_raw_wf t n t2 h hw

theorem step_assumeSizeOf_wf (t : TreeState) (nw old : NodeId) (t2 : TreeState)
    (h : stepOp t (.assumeSizeOf nw old) = some t2) (hw : Wf t) (hne : nw ≠ old) : Wf t2 := by
  obtain ⟨⟨⟨hKn, hKi, hKlt⟩, hC, hS⟩, hPM⟩ := hw
  rw [stepOp, assume_size_of] at h
  simp only [Option.bind_eq_bind] at h
  rcases Option.bind_eq_some.mp h with ⟨nwd, hnwd, h⟩
  rcases Option.bind_eq_some.mp h with ⟨oldd, holdd, h⟩
  rw [nodeData] at hnwd holdd
  by_cases hpar : nwd.parent = oldd.parent
  · rw [if_pos hpar] at h
    rcases Option.bind_eq_some.mp h with ⟨p, hp, h⟩
    rcases Option.bind_eq_some.mp h with ⟨inw, hinw, h⟩
    rcases Option.bind_eq_some.mp h with ⟨ip, hip, h⟩
    rcases Option.bind_eq_some.mp h with ⟨iold, hiold, h⟩
    rcases Option.bind_eq_some.mp h with ⟨inw2, hinw2, h⟩
    rw [Option.some_inj] at h
    subst h
    have holdp : oldd.parent = some p := by rw [← hpar]; exact hp
    have hpnw : p ≠ nw := fun he => (hC nw nwd hnwd).2.1 (he ▸ hp)
    have hpold : p ≠ old := fun he => (hC old oldd holdd).2.1 (he ▸ holdp)
    have hioldv : alookup old t.info = some iold := by
      have h2 : alookup old (ainsert p { ip with total := ip.total - inw.size } t.info) = some iold := hiold
      rw [alookup_ainsert_ne _ _ (Ne.symm hpold)] at h2
      exact h2
    have hinw2v : inw = inw2 := by
      have h2 : alookup nw (ainsert old { iold with size := 0 } (ainsert p { ip with total := ip.total - inw.size } t.info)) = some inw2 := hinw2
      rw [alookup_ainsert_ne _ _ hne, alookup_ainsert_ne _ _ (Ne.symm hpnw), hinw] at h2
      exact Option.some_inj.mp h2
    subst hinw2v
    obtain ⟨pd, hpd, hnwmem⟩ := hPM nw nwd hnwd p hp
    obtain ⟨pd2, hpd2, holdmem⟩ := hPM old oldd holdd p holdp
    rw [hpd] at hpd2
    cases Option.some_inj.mp hpd2
    have hcs3 : ∀ x, x ≠ nw → x ≠ old →
        ((alookup x (ainsert nw { inw with size := iold.size } (ainsert old { iold with size := 0 } (ainsert p { ip with total := ip.total - inw.size } t.info)))).getD {}).size = childSize t x := by
      intro x hx1 hx2
      rw [alookup_ainsert_ne _ _ hx1, alookup_ainsert_ne _ _ hx2]
      by_cases hxp : x = p
      · subst hxp
        rw [alookup_ainsert]
        show ip.size = childSize t x
        rw [childSize, hip]
        rfl
      · rw [alookup_ainsert_ne _ _ hxp]
        rfl
    have hnotmem : ∀ q qd, alookup q t.nodes = some qd → q ≠ p →
        nw ∉ qd.children ∧ old ∉ qd.children := by
      intro q qd hqt hqp
      constructor
      · intro hmem
        obtain ⟨xd, hxd, hxp⟩ := (hC q qd hqt).2.2 nw hmem
        rw [hnwd] at hxd
        cases Option.some_inj.mp hxd
        rw [hp] at hxp
        exact hqp (Option.some_inj.mp hxp).symm
      · intro hmem
        obtain ⟨xd, hxd, hxp⟩ := (hC q qd hqt).2.2 old hmem
        rw [holdd] at hxd
        cases Option.some_inj.mp hxd
        rw [holdp] at hxp
        exact hqp (Option.some_inj.mp hxp).symm
    refine ⟨⟨⟨hKn, ?_, hKlt⟩, hC, ?_⟩, hPM⟩
    · exact nodup_akeys_ainsert _ _ (nodup_akeys_ainsert _ _ (nodup_akeys_ainsert _ _ hKi))
    · intro q qd hq
      obtain ⟨iq, hiq, hqsum⟩ := hS q qd hq
      by_cases hqp : q = p
      · have hqp2 : p = q := hqp.symm
        subst hqp2
        rw [hpd] at hq
        cases Option.some_inj.mp hq
        rw [hip] at hiq
        cases Option.some_inj.mp hiq
        refine ⟨{ ip with total := ip.total - inw.size }, ?_, ?_⟩
        · rw [alookup_ainsert_ne _ _ hpnw, alookup_ainsert_ne _ _ hpold, alookup_ainsert]
        · have holdmem2 : old ∈ pd.children.erase nw :=
            (List.mem_erase_of_ne (Ne.symm hne)).mpr holdmem
          have hperm1 : pd.children.Perm (nw :: pd.children.erase nw) :=
            List.perm_cons_erase hnwmem
          have hperm2 : (pd.children.erase nw).Perm (old :: (pd.children.erase nw).erase old) :=
            List.perm_cons_erase holdmem2
          have hnd := (hC p pd hpd).1
          have hrest : ∀ x ∈ (pd.children.erase nw).erase old, x ≠ nw ∧ x ≠ old := by
            intro x hx
            have hx1 := (hnd.erase nw).mem_erase_iff.mp hx
            have hx2 := hnd.mem_erase_iff.mp hx1.2
            exact ⟨hx2.1, hx1.1⟩
          have hg : ∀ f : NodeId → ℚ, (List.map f pd.children).sum =
              f nw + (f old + (List.map f ((pd.children.erase nw).erase old)).sum) := by
            intro f
            exact (hperm1.map f).sum_eq.trans (by rw [List.map_cons, List.sum_cons, (hperm2.map f).sum_eq, List.map_cons, List.sum_cons])
          have hmapr : List.map (fun c => ((alookup c (ainsert nw { inw with size := iold.size } (ainsert old { iold with size := 0 } (ainsert p { ip with total := ip.total - inw.size } t.info)))).getD {}).size) ((pd.children.erase nw).erase old) =
              List.map (childSize t) ((pd.children.erase nw).erase old) :=
            List.map_congr_left fun x hx => hcs3 x (hrest x hx).1 (hrest x hx).2
          have hsznw : childSize t nw = inw.size := by rw [childSize, hinw]; rfl
          have hszold : childSize t old = iold.size := by rw [childSize, hioldv]; rfl
          have hfin : ip.total - inw.size = (List.map (fun c => ((alookup c (ainsert nw { inw with size := iold.size } (ainsert old { iold with size := 0 } (ainsert p { ip with total := ip.total - inw.size } t.info)))).getD {}).size) pd.children).sum := by
            rw [hg, hmapr]
            have h1 : ((alookup nw (ainsert nw { inw with size := iold.size } (ainsert old { iold with size := 0 } (ainsert p { ip with total := ip.total - inw.size } t.info)))).getD {}).size = iold.size := by
              rw [alookup_ainsert]
              rfl
            have h2 : ((alookup old (ainsert nw { inw with size := iold.size } (ainsert old { iold with size := 0 } (ainsert p { ip with total := ip.total - inw.size } t.info)))).getD {}).size = (0 : ℚ) := by
              rw [alookup_ainsert_ne _ _ (Ne.symm hne), alookup_ainsert]
              rfl
            rw [h1, h2]
            have h3 := hg (childSize t)
            rw [hsznw, hszold, ← hqsum] at h3
            have h4 : (List.map (childSize t) ((pd.children.erase nw).erase old)).sum =
                ip.total - inw.size - iold.size := by
              rw [h3]
              ring
            rw [h4]
            ring
          exact hfin
      · have hqnw : nw ∉ qd.children := (hnotmem q qd hq hqp).1
        have hqold : old ∉ qd.children := (hnotmem q qd hq hqp).2
        have hmapq : List.map (fun c => ((alookup c (ainsert nw { inw with size := iold.size } (ainsert old { iold with size := 0 } (ainsert p { ip with total := ip.total - inw.size } t.info)))).getD {}).size) qd.children =
            List.map (childSize t) qd.children :=
          List.map_congr_left fun x hx => hcs3 x (fun he => hqnw (he ▸ hx)) (fun he => hqold (he ▸ hx))
        by_cases hqnw2 : q = nw
        · have hq2 : nw = q := hqnw2.symm
          subst hq2
          rw [hinw] at hiq
          cases Option.some_inj.mp hiq
          refine ⟨{ inw with size := iold.size }, by rw [alookup_ainsert], ?_⟩
          have hfin : inw.total = (List.map (fun c => ((alookup c (ainsert nw { inw with size := iold.size } (ainsert old { iold with size := 0 } (ainsert p { ip with total := ip.total - inw.size } t.info)))).getD {}).size) qd.children).sum := by
            rw [hmapq, ← hqsum]
          exact hfin
        · by_cases hqold2 : q = old
          · have hq2 : old = q := hqold2.symm
            subst hq2
            rw [hioldv] at hiq
            cases Option.some_inj.mp hiq
            refine ⟨{ iold with size := 0 }, ?_, ?_⟩
            · rw [alookup_ainsert_ne _ _ (Ne.symm hne), alookup_ainsert]
            · have hfin : iold.total = (List.map (fun c => ((alookup c (ainsert nw { inw with size := iold.size } (ainsert old { iold with size := 0 } (ainsert p { ip with total := ip.total - inw.size } t.info)))).getD {}).size) qd.children).sum := by
                rw [hmapq, ← hqsum]
              exact hfin
          · refine ⟨iq, ?_, ?_⟩
            · rw [alookup_ainsert_ne _ _ hqnw2, alookup_ainsert_ne _ _ hqold2, alookup_ainsert_ne _ _ hqp]
              exact hiq
            · have hfin : iq.total = (List.map (fun c => ((alookup c (ainsert nw { inw with size := iold.size } (ainsert old { iold with size := 0 } (ainsert p { ip with total := ip.total - inw.size } t.info)))).getD {}).size) qd.children).sum := by
                rw [hmapq, ← hqsum]
              exact hfin
  · rw [if_neg hpar] at h
    exact Option.noConfusion h

theorem step_takeShare_wf (t : TreeState) (node src : NodeId) (share : ℚ) (t2 : TreeState)
    (h : stepOp t (.takeShare node src share) = some t2) (hw : Wf t) (hne : node ≠ src) :
    Wf t2 := by
  obtain ⟨⟨⟨hKn, hKi, hKlt⟩, hC, hS⟩, hPM⟩ := hw
  rw [stepOp, take_share] at h
  simp only [Option.bind_eq_bind] at h
  rcases Option.bind_eq_some.mp h with ⟨nd, hnd, h⟩
  rcases Option.bind_eq_some.mp h with ⟨sd, hsd, h⟩
  rw [nodeData] at hnd hsd
  by_cases hpar : nd.parent = sd.parent
  · rw [if_pos hpar] at h
    rcases Option.bind_eq_some.mp h with ⟨isrc, hisrc, h⟩
    rcases Option.bind_eq_some.mp h with ⟨inode, hinode, h⟩
    rcases Option.bind_eq_some.mp h with ⟨inode2, hinode2, h⟩
    rw [Option.some_inj] at h
    subst h
    have hinode2v : inode = inode2 := by
      have h2 : alookup node (ainsert src { isrc with size := isrc.size - max (min share isrc.size) (-inode.size) } t.info) = some inode2 := hinode2
      rw [alookup_ainsert_ne _ _ hne, hinode] at h2
      exact Option.some_inj.mp h2
    subst hinode2v
    have hcs4 : ∀ x, x ≠ node → x ≠ src →
        ((alookup x (ainsert node { inode with size := inode.size + max (min share isrc.size) (-inode.size) } (ainsert src { isrc with size := isrc.size - max (min share isrc.size) (-inode.size) } t.info))).getD {}).size = childSize t x := by
      intro x hx1 hx2
      rw [alookup_ainsert_ne _ _ hx1, alookup_ainsert_ne _ _ hx2]
      rfl
    refine ⟨⟨⟨hKn, ?_, hKlt⟩, hC, ?_⟩, hPM⟩
    · exact nodup_akeys_ainsert _ _ (nodup_akeys_ainsert _ _ hKi)
    · intro q qd hq
      obtain ⟨iq, hiq, hqsum⟩ := hS q qd hq
      have hentry : ∃ iq', alookup q (ainsert node { inode with size := inode.size + max (min share isrc.size) (-inode.size) } (ainsert src { isrc with size := isrc.size - max (min share isrc.size) (-inode.size) } t.info)) = some iq' ∧ iq'.total = iq.total := by
        by_cases hq1 : q = node
        · have hq1b : node = q := hq1.symm
          subst hq1b
          rw [hinode] at hiq
          cases Option.some_inj.mp hiq
          exact ⟨{ inode with size := inode.size + max (min share isrc.size) (-inode.size) },
            by rw [alookup_ainsert], rfl⟩
        · by_cases hq2 : q = src
          · have hq2b : src = q := hq2.symm
            subst hq2b
            rw [hisrc] at hiq
            cases Option.some_inj.mp hiq
            exact ⟨{ isrc with size := isrc.size - max (min share isrc.size) (-inode.size) },
              by rw [alookup_ainsert_ne _ _ (Ne.symm hne), alookup_ainsert], rfl⟩
          · exact ⟨iq, by rw [alookup_ainsert_ne _ _ hq1, alookup_ainsert_ne _ _ hq2]; exact hiq, rfl⟩
      obtain ⟨iq', hiq', htot⟩ := hentry
      refine ⟨iq', hiq', ?_⟩
      by_cases hq3 : nd.parent = some q
      · obtain ⟨pd, hpd, hndmem⟩ := hPM node nd hnd q hq3
        have hsq3 : sd.parent = some q := by rw [← hpar]; exact hq3
        obtain ⟨pd2, hpd2, hsrcmem⟩ := hPM src sd hsd q hsq3
        rw [hpd] at hpd2
        have hpdeq : pd = pd2 := Option.some_inj.mp hpd2
        subst hpdeq
        rw [hpd] at hq
        have hqeq : pd = qd := Option.some_inj.mp hq
        subst hqeq
        have hsrcmem2 : src ∈ pd.children.erase node :=
          (List.mem_erase_of_ne (Ne.symm hne)).mpr hsrcmem
        have hperm1 : pd.children.Perm (node :: pd.children.erase node) :=
          List.perm_cons_erase hndmem
        have hperm2 : (pd.children.erase node).Perm (src :: (pd.children.erase node).erase src) :=
          List.perm_cons_erase hsrcmem2
        have hnd2 := (hC q pd hpd).1
        have hrest : ∀ x ∈ (pd.children.erase node).erase src, x ≠ node ∧ x ≠ src := by
          intro x hx
          have hx1 := (hnd2.erase node).mem_erase_iff.mp hx
          have hx2 := hnd2.mem_erase_iff.mp hx1.2
          exact ⟨hx2.1, hx1.1⟩
        have hg : ∀ f : NodeId → ℚ, (List.map f pd.children).sum =
            f node + (f src + (List.map f ((pd.children.erase node).erase src)).sum) := by
          intro f
          exact (hperm1.map f).sum_eq.trans (by rw [List.map_cons, List.sum_cons, (hperm2.map f).sum_eq, List.map_cons, List.sum_cons])
        have hmapr : List.map (fun c => ((alookup c (ainsert node { inode with size := inode.size + max (min share isrc.size) (-inode.size) } (ainsert src { isrc with size := isrc.size - max (min share isrc.size) (-inode.size) } t.info))).getD {}).size) ((pd.children.erase node).erase src) =
            List.map (childSize t) ((pd.children.erase node).erase src) :=
          List.map_congr_left fun x hx => hcs4 x (hrest x hx).1 (hrest x hx).2
        have hsznd : childSize t node = inode.size := by rw [childSize, hinode]; rfl
        have hszsrc : childSize t src = isrc.size := by rw [childSize, hisrc]; rfl
        have h1 : ((alookup node (ainsert node { inode with size := inode.size + max (min share isrc.size) (-inode.size) } (ainsert src { isrc with size := isrc.size - max (min share isrc.size) (-inode.size) } t.info))).getD {}).size = inode.size + max (min share isrc.size) (-inode.size) := by
          rw [alookup_ainsert]
          rfl
        have h2 : ((alookup src (ainsert node { inode with size := inode.size + max (min share isrc.size) (-inode.size) } (ainsert src { isrc with size := isrc.size - max (min share isrc.size) (-inode.size) } t.info))).getD {}).size = isrc.size - max (min share isrc.size) (-inode.size) := by
          rw [alookup_ainsert_ne _ _ (Ne.symm hne), alookup_ainsert]
          rfl
        have hfin : iq'.total = (List.map (fun c => ((alookup c (ainsert node { inode with size := inode.size + max (min share isrc.size) (-inode.size) } (ainsert src { isrc with size := isrc.size - max (min share isrc.size) (-inode.size) } t.info))).getD {}).size) pd.children).sum := by
          rw [htot, hqsum]
          rw [hg (fun c => ((alookup c (ainsert node { inode with size := inode.size + max (min share isrc.size) (-inode.size) } (ainsert src { isrc with size := isrc.size - max (min share isrc.size) (-inode.size) } t.info))).getD {}).size)]
          rw [hg (childSize t), hmapr, h1, h2, hsznd, hszsrc]
          ring
        exact hfin
      · have hqnd : node ∉ qd.children := by
          intro hmem
          obtain ⟨xd, hxd, hxp⟩ := (hC q qd hq).2.2 node hmem
          rw [hnd] at hxd
          cases Option.some_inj.mp hxd
          exact hq3 hxp
        have hqsd : src ∉ qd.children := by
          intro hmem
          obtain ⟨xd, hxd, hxp⟩ := (hC q qd hq).2.2 src hmem
          rw [hsd] at hxd
          cases Option.some_inj.mp hxd
          exact hq3 (by rw [hpar]; exact hxp)
        have hfin : iq'.total = (List.map (fun c => ((alookup c (ainsert node { inode with size := inode.size + max (min share isrc.size) (-inode.size) } (ainsert src { isrc with size := isrc.size - max (min share isrc.size) (-inode.size) } t.info))).getD {}).size) qd.children).sum := by
          rw [htot, hqsum]
          exact (congrArg List.sum (List.map_congr_left fun x hx =>
            hcs4 x (fun he => hqnd (he ▸ hx)) (fun he => hqsd (he ▸ hx)))).symm
        exact hfin
  · rw [if_neg hpar] at h
    exact Option.noConfusion h

theorem step_wf (t : TreeState) (op : TreeOp) (t2 : TreeState)
    (h : stepOp t op = some t2) (hok : opOK op = true) (hw : Wf t) : Wf t2 := by
  cases op with
  | mkRoot => exact step_mkRoot_wf t t2 h hw
  | pushBack p => exact step_pushBack_wf t p t2 h hw
  | pushFront p => exact step_pushFront_wf t p t2 h hw
  | insertBefore s => exact step_insertBefore_wf t s t2 h hw
  | insertAfter s => exact step_insertAfter_wf t s t2 h hw
  | removeRaw n => exact step_removeRaw_wf t n t2 h hw
  | assumeSizeOf nw old =>
    exact step_assumeSizeOf_wf t nw old t2 h hw (by simp [opOK] at hok; exact hok)
  | takeShare node src share =>
    exact step_takeShare_wf t node src share t2 h hw (by simp [opOK] at hok; exact hok)

theorem foldlM_stepOp_wf : ∀ ops (t t2 : TreeState), Wf t →
    (∀ op ∈ ops, opOK op = true) → List.foldlM stepOp t ops = some t2 → Wf t2 := by
  intro ops
  induction ops with
  | nil =>
    intro t t2 hw hok h
    simp only [List.foldlM_nil, Option.pure_def, Option.some_inj] at h
    subst h
    exact hw
  | cons op rest ih =>
    intro t t2 hw hok h
    rw [List.foldlM_cons] at h
    rcases Option.bind_eq_some.mp h with ⟨t1, h1, h⟩
    exact ih t1 t2 (step_wf t op t1 h1 (hok op (List.mem_cons_self _ _)) hw)
      (fun o ho => hok o (List.mem_cons_of_mem _ ho)) h

/-- C5: starting from the empty forest, after any successful sequence of
tree operations — insertions (mk_node, push_back, push_front,
insert_before, insert_after), removals (NodeId::remove), assume_size_of and
take_share (the latter two on distinct nodes, as at their call sites) —
every node's stored layout total equals the sum of its children's stored
sizes, in exact rational arithmetic. -/
theorem c5_total_sum_invariant (ops : List TreeOp) (t2 : TreeState)
    (h : runTreeOps ops = some t2)
    (hok : ∀ op ∈ ops, opOK op = true) :
    ∀ p pd, alookup p t2.nodes = some pd →
      totalOf t2 p = some ((pd.children.map (childSize t2)).sum) := by
  have hw := foldlM_stepOp_wf ops emptyTree t2 wf_empty hok h
  intro p pd hpd
  obtain ⟨ip, hip, hsum⟩ := hw.1.2.2 p pd hpd
  rw [totalOf, hip]
  exact congrArg some hsum

def c5ops : List TreeOp :=
  [.mkRoot, .pushBack 0, .pushBack 0, .assumeSizeOf 1 2, .takeShare 1 2 (1/3), .removeRaw 2]

/-- Witness for C5: a concrete run (root, two children, a size handover, a
share transfer, a removal) in which the root's total equals the sum of its
children's sizes. -/
theorem c5_total_sum_invariant_witness :
    totalOf ((runTreeOps c5ops).getD emptyTree) 0 =
      some ((((alookup 0 ((runTreeOps c5ops).getD emptyTree).nodes).getD {}).children.map
        (childSize ((runTreeOps c5ops).getD emptyTree))).sum) :=
  c5_total_sum_invariant c5ops ((runTreeOps c5ops).getD emptyTree) (by decide) (by decide)
    0 ((alookup 0 ((runTreeOps c5ops).getD emptyTree).nodes).getD {}) (by decide)

/-! ### C4 (corrected): callbacks fired by NodeId::remove, for all proper
descendants -/

/-- d is a proper descendant of a in t: reachable from a by a nonempty chain
of children-list steps. -/
inductive ProperDesc (t : TreeState) : NodeId → NodeId → Prop
  | child (a c : NodeId) (ad : Node) (hat : alookup a t.nodes = some ad)
      (hc : c ∈ ad.children) : ProperDesc t a c
  | step (a c d : NodeId) (ad : Node) (hat : alookup a t.nodes = some ad)
      (hc : c ∈ ad.children) (hr : ProperDesc t c d) : ProperDesc t a d

/-- The log only grows through delete_recursive. -/
theorem delete_recursive_log_mono :
    ∀ fuel t cs t2, delete_recursive fuel t cs = some t2 →
      ∀ e ∈ t.log, e ∈ t2.log := by
  intro fuel
  induction fuel with
  | zero => intro t cs t2 h; simp [delete_recursive] at h
  | succ fuel ih =>
    intro t cs t2 h e he
    cases cs with
    | nil =>
      have h2 : t = t2 := Option.some_inj.mp h
      subst h2
      exact he
    | cons c rest =>
      rw [delete_recursive] at h
      simp only [Option.bind_eq_bind] at h
      rcases Option.bind_eq_some.mp h with ⟨cd, hcd, h⟩
      rw [dispatchEvent_rff] at h
      simp only [Option.some_bind] at h
      rcases Option.bind_eq_some.mp h with ⟨t3, h3, h4⟩
      exact ih _ _ _ h4 e (ih _ _ _ h3 e (List.mem_append_left _ he))

/-- Every node whose forest entry disappears across a delete_recursive call
receives a RemovedFromForest event in the log. -/
theorem delete_recursive_erased_logged :
    ∀ fuel t cs t2, delete_recursive fuel t cs = some t2 →
      ∀ d, alookup d t.nodes ≠ none → alookup d t2.nodes = none →
        TreeEvent.removedFromForest d ∈ t2.log := by
  intro fuel
  induction fuel with
  | zero => intro t cs t2 h; simp [delete_recursive] at h
  | succ fuel ih =>
    intro t cs t2 h d hlive hdead
    cases cs with
    | nil =>
      have h2 : t = t2 := Option.some_inj.mp h
      subst h2
      exact absurd hdead hlive
    | cons c rest =>
      rw [delete_recursive] at h
      simp only [Option.bind_eq_bind] at h
      rcases Option.bind_eq_some.mp h with ⟨cd, hcd, h⟩
      rw [dispatchEvent_rff] at h
      simp only [Option.some_bind] at h
      rcases Option.bind_eq_some.mp h with ⟨t3, h3, h4⟩
      by_cases hdc : d = c
      · subst hdc
        have h1 : TreeEvent.removedFromForest d ∈
            t.log ++ [TreeEvent.removedFromForest d] :=
          List.mem_append_right _ (List.mem_singleton.mpr rfl)
        exact delete_recursive_log_mono _ _ _ _ h4 _
          (delete_recursive_log_mono _ _ _ _ h3 _ h1)
      · have hlive1 : alookup d (aerase c t.nodes) ≠ none := by
          rw [alookup_aerase_ne _ hdc]
          exact hlive
        by_cases hd3 : alookup d t3.nodes = none
        · exact delete_recursive_log_mono _ _ _ _ h4 _ (ih _ _ _ h3 d hlive1 hd3)
        · exact ih _ _ _ h4 d hd3 hdead

/-- C4 corrected: NodeId::remove fires RemovingFromParent for n and
RemovedFromForest for every PROPER descendant of n — so each descendant's
layout entry is dropped — but it never fires RemovedFromForest for n
itself, whose layout entry therefore survives the removal. The claim's
"including n itself" is refuted by c4_counterexample. -/
theorem c4_remove_fires_only_descendants (t : TreeState) (n : NodeId) (t2 : TreeState)
    (h : remove_raw t n = some t2) (hw : Wf t)
    (hlog : TreeEvent.removedFromForest n ∉ t.log)
    (hacyc : ∀ d, ProperDesc t n d → d ≠ n) :
    TreeEvent.removingFromParent n ∈ t2.log ∧
    (∀ d, ProperDesc t n d →
      TreeEvent.removedFromForest d ∈ t2.log ∧ alookup d t2.info = none) ∧
    TreeEvent.removedFromForest n ∉ t2.log ∧
    alookup n t2.info = alookup n t.info := by
  obtain ⟨⟨⟨hKn, hKi, hKlt⟩, hC, hS⟩, hPM⟩ := hw
  rw [remove_raw] at h
  simp only [Option.bind_eq_bind] at h
  rcases Option.bind_eq_some.mp h with ⟨t1, h1, h⟩
  rcases Option.bind_eq_some.mp h with ⟨nd1, hnd1, h⟩
  rw [dispatchEvent] at h1
  simp only [Option.bind_eq_bind] at h1
  rcases Option.bind_eq_some.mp h1 with ⟨sel2, hsel, h1⟩
  rcases Option.bind_eq_some.mp h1 with ⟨info2, hi, h1⟩
  rw [Option.some_inj] at h1
  have ht1nodes : t1.nodes = t.nodes := by rw [← h1]
  have ht1info : t1.info = info2 := by rw [← h1]
  have ht1next : t1.nextId = t.nextId := by rw [← h1]
  have ht1log : t1.log = t.log ++ [TreeEvent.removingFromParent n] := by rw [← h1]
  rw [nodeData, ht1nodes] at hnd1
  rw [layoutHandleEvent] at hi
  simp only [Option.bind_eq_bind] at hi
  rcases Option.bind_eq_some.mp hi with ⟨nd2, hnd2, hi⟩
  rw [nodeData, hnd1] at hnd2
  cases Option.some_inj.mp hnd2
  rcases Option.bind_eq_some.mp hi with ⟨p, hp, hi⟩
  rcases Option.bind_eq_some.mp hi with ⟨i, hin, hi⟩
  rcases Option.bind_eq_some.mp hi with ⟨ip, hip, hi⟩
  rw [Option.some_inj] at hi
  have hpn : p ≠ n := by
    intro he
    exact (hC n nd1 hnd1).2.1 (he ▸ hp)
  obtain ⟨pd, hpd, hnmem⟩ := hPM n nd1 hnd1 p hp
  rw [hp] at h
  simp only [Option.bind_eq_bind, Option.some_bind] at h
  rcases Option.bind_eq_some.mp h with ⟨pd', hpd', h⟩
  have hpd2 : pd = pd' := by
    have h2 : alookup p (aerase n t1.nodes) = some pd' := hpd'
    rw [ht1nodes, alookup_aerase_ne _ hpn, hpd] at h2
    exact Option.some_inj.mp h2
  subst hpd2
  rw [ht1nodes, ht1info, ← hi, ht1next] at h
  -- derived facts about the pre-deletion state
  have hn_erased : alookup n (ainsert p { pd with children := pd.children.erase n }
      (aerase n t.nodes)) = none := by
    rw [alookup_ainsert_ne _ _ (Ne.symm hpn)]
    exact alookup_aerase_self n _ hKn
  have hlive : ∀ q qd, alookup q (ainsert p { pd with children := pd.children.erase n }
      (aerase n t.nodes)) = some qd →
      (q = p ∧ qd = { pd with children := pd.children.erase n }) ∨
      (q ≠ p ∧ q ≠ n ∧ alookup q t.nodes = some qd) := by
    intro q qd hq
    by_cases hqp : q = p
    · subst hqp
      rw [alookup_ainsert] at hq
      exact Or.inl ⟨rfl, (Option.some_inj.mp hq).symm⟩
    · rw [alookup_ainsert_ne _ _ hqp] at hq
      have hqn : q ≠ n := by
        intro he
        subst he
        rw [alookup_aerase_self q _ hKn] at hq
        exact Option.noConfusion hq
      rw [alookup_aerase_ne _ hqn] at hq
      exact Or.inr ⟨hqp, hqn, hq⟩
  have hxnotn : ∀ q qd, alookup q t.nodes = some qd → q ≠ p → ∀ x ∈ qd.children, x ≠ n := by
    intro q qd hqt hqp x hx he
    subst he
    obtain ⟨xd, hxd, hxp⟩ := (hC q qd hqt).2.2 x hx
    rw [hnd1] at hxd
    cases Option.some_inj.mp hxd
    rw [hp] at hxp
    exact hqp (Option.some_inj.mp hxp).symm
  have hcs : ∀ x, ((alookup x (ainsert p { ip with total := ip.total - i.size }
      t.info)).getD {}).size = childSize t x := by
    intro x
    by_cases hxp : x = p
    · subst hxp
      rw [alookup_ainsert]
      show ip.size = childSize t x
      rw [childSize, hip]
      rfl
    · rw [alookup_ainsert_ne _ _ hxp]
      rfl
  have hwT3 : WfCore (TreeState.mk
      (ainsert p { pd with children := pd.children.erase n } (aerase n t.nodes))
      t.nextId (ainsert p { ip with total := ip.total - i.size } t.info) t1.sel t1.log) := by
    refine ⟨⟨?_, ?_, ?_⟩, ?_, ?_⟩
    · exact nodup_akeys_ainsert _ _ (nodup_akeys_aerase n hKn)
    · exact nodup_akeys_ainsert _ _ hKi
    · intro k hk
      show k < t.nextId
      rcases (mem_akeys_ainsert ..).mp hk with hkp | hk2
      · subst hkp
        exact hKlt k (mem_akeys_of_alookup hpd)
      · exact hKlt k ((akeys_aerase_sublist n t.nodes).subset hk2)
    · intro q qd hq
      rcases hlive q qd hq with ⟨hqp, hqd⟩ | ⟨hqp, hqn, hqt⟩
      · subst hqp
        subst hqd
        obtain ⟨hpnd, hpns, hpch⟩ := hC q pd hpd
        refine ⟨hpnd.erase n, hpns, ?_⟩
        intro x hx
        have hx0 : x ∈ pd.children := List.mem_of_mem_erase hx
        obtain ⟨xd, hxd, hxp⟩ := hpch x hx0
        have hxn : x ≠ n := ((hpnd.mem_erase_iff).mp hx).1
        have hxq : x ≠ q := by
          intro he
          subst he
          rw [hpd] at hxd
          cases Option.some_inj.mp hxd
          exact hpns hxp
        refine ⟨xd, ?_, hxp⟩
        show alookup x (ainsert q { pd with children := pd.children.erase n }
          (aerase n t.nodes)) = some xd
        rw [alookup_ainsert_ne _ _ hxq, alookup_aerase_ne _ hxn]
        exact hxd
      · obtain ⟨hqnd, hqns, hqch⟩ := hC q qd hqt
        refine ⟨hqnd, hqns, ?_⟩
        intro x hx
        obtain ⟨xd, hxd, hxp⟩ := hqch x hx
        have hxn : x ≠ n := hxnotn q qd hqt hqp x hx
        by_cases hxp2 : x = p
        · subst hxp2
          refine ⟨{ pd with children := pd.children.erase n }, ?_, ?_⟩
          · show alookup x (ainsert x { pd with children := pd.children.erase n }
              (aerase n t.nodes)) = _
            rw [alookup_ainsert]
          · rw [hpd] at hxd
            cases Option.some_inj.mp hxd
            exact hxp
        · refine ⟨xd, ?_, hxp⟩
          show alookup x (ainsert p { pd with children := pd.children.erase n }
            (aerase n t.nodes)) = some xd
          rw [alookup_ainsert_ne _ _ hxp2, alookup_aerase_ne _ hxn]
          exact hxd
    · intro q qd hq
      rcases hlive q qd hq with ⟨hqp, hqd⟩ | ⟨hqp, hqn, hqt⟩
      · subst hqp
        subst hqd
        refine ⟨{ ip with total := ip.total - i.size }, ?_, ?_⟩
        · show alookup q (ainsert q { ip with total := ip.total - i.size } t.info) = _
          rw [alookup_ainsert]
        · show ip.total - i.size = (List.map _ (pd.children.erase n)).sum
          obtain ⟨iq, hiq, hqsum⟩ := hS q pd hpd
          rw [hip] at hiq
          cases Option.some_inj.mp hiq
          have hperm : pd.children.Perm (n :: pd.children.erase n) :=
            List.perm_cons_erase hnmem
          have hsum2 := (hperm.map (childSize t)).sum_eq
          rw [List.map_cons, List.sum_cons] at hsum2
          have hszn : childSize t n = i.size := by rw [childSize, hin]; rfl
          have hmapeq : List.map (fun c => ((alookup c (ainsert q
              { ip with total := ip.total - i.size } t.info)).getD {}).size)
              (pd.children.erase n) = List.map (childSize t) (pd.children.erase n) :=
            List.map_congr_left (fun x _ => hcs x)
          calc ip.total - i.size
              = (List.map (childSize t) pd.children).sum - i.size := by rw [hqsum]
            _ = (List.map (childSize t) (pd.children.erase n)).sum := by
                rw [hsum2, hszn]; ring
            _ = _ := by rw [← hmapeq]; rfl
      · obtain ⟨iq, hiq, hqsum⟩ := hS q qd hqt
        refine ⟨iq, ?_, ?_⟩
        · show alookup q (ainsert p { ip with total := ip.total - i.size } t.info) = some iq
          rw [alookup_ainsert_ne _ _ hqp]
          exact hiq
        · rw [hqsum]
          exact congrArg List.sum (List.map_congr_left fun x _ => (hcs x).symm)
  have hangT3 : ∀ x ∈ nd1.children, ∀ q qd,
      alookup q (ainsert p { pd with children := pd.children.erase n }
        (aerase n t.nodes)) = some qd → x ∉ qd.children := by
    intro x hx q qd hq hmem
    obtain ⟨xd, hxd, hxp⟩ := (hC n nd1 hnd1).2.2 x hx
    rcases hlive q qd hq with ⟨hqp, hqd⟩ | ⟨hqp, hqn, hqt⟩
    · subst hqp
      subst hqd
      have hx0 : x ∈ pd.children := List.mem_of_mem_erase hmem
      obtain ⟨xd', hxd', hxp'⟩ := (hC q pd hpd).2.2 x hx0
      rw [hxd] at hxd'
      cases Option.some_inj.mp hxd'
      rw [hxp] at hxp'
      exact hpn (Option.some_inj.mp hxp').symm
    · obtain ⟨xd', hxd', hxp'⟩ := (hC q qd hqt).2.2 x hmem
      rw [hxd] at hxd'
      cases Option.some_inj.mp hxd'
      rw [hxp] at hxp'
      exact hqn (Option.some_inj.mp hxp').symm
  obtain ⟨hw2, hnext2, hpair2, hclosed2, hkills2⟩ :=
    delete_recursive_wf _ _ _ _ h hwT3 hangT3
  obtain ⟨hc1, hc2, hc3, hc4⟩ := delete_recursive_preserves n _ _ _ _ h hn_erased
  -- one children-list step keeps erased-ness
  have hchild : ∀ a ad c, alookup a t.nodes = some ad → c ∈ ad.children →
      a = n ∨ alookup a t2.nodes = none → c = n ∨ alookup c t2.nodes = none := by
    intro a ad c hat hc hae
    by_cases hcn : c = n
    · exact Or.inl hcn
    by_cases han : a = n
    · rw [han, hnd1] at hat
      cases Option.some_inj.mp hat
      exact Or.inr (hkills2 c hc)
    · have hadead : alookup a t2.nodes = none := by
        rcases hae with hae | hae
        · exact absurd hae han
        · exact hae
      by_cases hap : a = p
      · rw [hap, hpd] at hat
        cases Option.some_inj.mp hat
        have hT3a : alookup p (ainsert p { pd with children := pd.children.erase n }
            (aerase n t.nodes)) = some { pd with children := pd.children.erase n } := by
          rw [alookup_ainsert]
        have hadead2 : alookup p t2.nodes = none := hap ▸ hadead
        exact Or.inr (hclosed2 p { pd with children := pd.children.erase n } hT3a hadead2 c
          ((List.mem_erase_of_ne hcn).mpr hc))
      · have hT3a : alookup a (ainsert p { pd with children := pd.children.erase n }
            (aerase n t.nodes)) = some ad := by
          rw [alookup_ainsert_ne _ _ hap, alookup_aerase_ne _ han]
          exact hat
        exact Or.inr (hclosed2 a ad hT3a hadead c hc)
  have hdesc : ∀ a d, ProperDesc t a d → a = n ∨ alookup a t2.nodes = none →
      d = n ∨ alookup d t2.nodes = none := by
    intro a d hder
    induction hder with
    | child a2 c ad hat hc =>
      intro hae
      exact hchild a2 ad c hat hc hae
    | step a2 c d2 ad hat hc hr ih =>
      intro hae
      exact ih (hchild a2 ad c hat hc hae)
  have hdlive : ∀ a d, ProperDesc t a d → ∃ dd, alookup d t.nodes = some dd := by
    intro a d hder
    induction hder with
    | child a2 c ad hat hc =>
      obtain ⟨cd, hcd, _⟩ := (hC a2 ad hat).2.2 c hc
      exact ⟨cd, hcd⟩
    | step a2 c d2 ad hat hc hr ih =>
      exact ih
  refine ⟨?_, ?_, ?_, ?_⟩
  · have hrfp : TreeEvent.removingFromParent n ∈ t1.log := by
      rw [ht1log]
      exact List.mem_append_right _ (List.mem_singleton.mpr rfl)
    exact delete_recursive_log_mono _ _ _ _ h _ hrfp
  · intro d hd
    have hdn : d ≠ n := hacyc d hd
    have hdead : alookup d t2.nodes = none := by
      rcases hdesc n d hd (Or.inl rfl) with he | he
      · exact absurd he hdn
      · exact he
    obtain ⟨dd, hddt⟩ := hdlive n d hd
    have hT3d : alookup d (ainsert p { pd with children := pd.children.erase n }
        (aerase n t.nodes)) ≠ none := by
      by_cases hdp : d = p
      · rw [hdp, alookup_ainsert]
        exact fun he => Option.noConfusion he
      · rw [alookup_ainsert_ne _ _ hdp, alookup_aerase_ne _ hdn, hddt]
        exact fun he => Option.noConfusion he
    refine ⟨delete_recursive_erased_logged _ _ _ _ h d hT3d hdead, ?_⟩
    rcases hpair2 d with ⟨g1, g2⟩ | ⟨g1, g2⟩
    · have g1' : alookup d t2.nodes = alookup d (ainsert p
        { pd with children := pd.children.erase n } (aerase n t.nodes)) := g1
      rw [hdead] at g1'
      exact absurd g1'.symm hT3d
    · exact g2
  · intro habs
    have hmem := hc4 habs
    have hmem2 : TreeEvent.removedFromForest n ∈ t1.log := hmem
    rw [ht1log] at hmem2
    rcases List.mem_append.mp hmem2 with h5 | h5
    · exact hlog h5
    · exact TreeEvent.noConfusion (List.mem_singleton.mp h5)
  · have hc2' : alookup n t2.info = alookup n (ainsert p
      { ip with total := ip.total - i.size } t.info) := hc2
    rw [hc2', alookup_ainsert_ne _ _ (Ne.symm hpn)]

def c4ops2 : List TreeOp := [.mkRoot, .pushBack 0, .pushBack 1]

def c4state : TreeState := (runTreeOps c4ops2).getD emptyTree

/-- In the concrete chain 0 → 1 → 2, the only proper-descendant pairs are
(0,1), (1,2) and (0,2). -/
theorem properDesc_c4state : ∀ a d, ProperDesc c4state a d →
    (a = 0 ∧ d = 1) ∨ (a = 1 ∧ d = 2) ∨ (a = 0 ∧ d = 2) := by
  have hedge : ∀ a c (ad : Node), alookup a c4state.nodes = some ad → c ∈ ad.children →
      (a = 0 ∧ c = 1) ∨ (a = 1 ∧ c = 2) := by
    intro a c ad hat hc
    by_cases h0 : a = 0
    · subst h0
      have h2 : (some (Node.mk none [1]) : Option Node) = some ad := by
        rw [← hat]
        decide
      cases Option.some_inj.mp h2
      exact Or.inl ⟨rfl, by simpa using hc⟩
    · by_cases h1 : a = 1
      · subst h1
        have h2 : (some (Node.mk (some 0) [2]) : Option Node) = some ad := by
          rw [← hat]
          decide
        cases Option.some_inj.mp h2
        exact Or.inr ⟨rfl, by simpa using hc⟩
      · by_cases h22 : a = 2
        · subst h22
          have h2 : (some (Node.mk (some 1) []) : Option Node) = some ad := by
            rw [← hat]
            decide
          cases Option.some_inj.mp h2
          simp at hc
        · exfalso
          have hmem := mem_akeys_of_alookup hat
          have hkeys : akeys c4state.nodes = [0, 1, 2] := by decide
          rw [hkeys] at hmem
          simp at hmem
          rcases hmem with h | h | h
          · exact h0 h
          · exact h1 h
          · exact h22 h
  intro a d hder
  induction hder with
  | child a2 c ad hat hc =>
    rcases hedge a2 c ad hat hc with ⟨g1, g2⟩ | ⟨g1, g2⟩
    · exact Or.inl ⟨g1, g2⟩
    · exact Or.inr (Or.inl ⟨g1, g2⟩)
  | step a2 c d2 ad hat hc hr ih =>
    rcases hedge a2 c ad hat hc with ⟨g1, g2⟩ | ⟨g1, g2⟩
    · subst g2
      rcases ih with ⟨f1, f2⟩ | ⟨f1, f2⟩ | ⟨f1, f2⟩
      · exact absurd f1 (by decide)
      · exact Or.inr (Or.inr ⟨g1, f2⟩)
      · exact absurd f1 (by decide)
    · subst g2
      rcases ih with ⟨f1, f2⟩ | ⟨f1, f2⟩ | ⟨f1, f2⟩
      · exact absurd f1 (by decide)
      · exact absurd f1 (by decide)
      · exact absurd f1 (by decide)

/-- Witness for C4 corrected: removing node 1 from the concrete chain
0 → 1 → 2 logs RemovingFromParent(1) and RemovedFromForest(2), drops the
layout entry of 2, but logs no RemovedFromForest(1) and keeps the entry of
1. -/
theorem c4_remove_fires_only_descendants_witness :
    TreeEvent.removingFromParent 1 ∈ ((remove_raw c4state 1).getD c4state).log ∧
    TreeEvent.removedFromForest 2 ∈ ((remove_raw c4state 1).getD c4state).log ∧
    alookup 2 ((remove_raw c4state 1).getD c4state).info = none ∧
    TreeEvent.removedFromForest 1 ∉ ((remove_raw c4state 1).getD c4state).log ∧
    alookup 1 ((remove_raw c4state 1).getD c4state).info = alookup 1 c4state.info := by
  have hacyc : ∀ d, ProperDesc c4state 1 d → d ≠ 1 := by
    intro d hd
    rcases properDesc_c4state 1 d hd with ⟨g1, g2⟩ | ⟨g1, g2⟩ | ⟨g1, g2⟩
    · exact absurd g1 (by decide)
    · rw [g2]
      decide
    · exact absurd g1 (by decide)
  have h := c4_remove_fires_only_descendants c4state 1 ((remove_raw c4state 1).getD c4state)
    (by decide)
    (foldlM_stepOp_wf c4ops2 emptyTree c4state wf_empty (by decide) (by decide))
    (by decide) hacyc
  have hd2 : ProperDesc c4state 1 2 :=
    ProperDesc.child 1 2 (Node.mk (some 0) [2]) (by decide) (by decide)
  exact ⟨h.1, (h.2.1 2 hd2).1, (h.2.1 2 hd2).2, h.2.2.1, h.2.2.2⟩

/-! ### C7: set_frame_from_resize panics exactly when more than two edges move -/

theorem listNext_mem_ne (l : List NodeId) (n x : NodeId) (hnd : l.Nodup)
    (h : listNext l n = some x) : x ∈ l ∧ x ≠ n := by
  induction l with
  | nil => cases h
  | cons a rest ih =>
    rw [listNext] at h
    by_cases ha : a = n
    · rw [if_pos ha] at h
      cases rest with
      | nil => cases h
      | cons b tl =>
        have hxb : b = x := Option.some_inj.mp h
        subst hxb
        subst ha
        refine ⟨List.mem_cons_of_mem _ (List.mem_cons_self _ _), ?_⟩
        intro he
        exact (List.nodup_cons.mp hnd).1 (by rw [← he]; exact List.mem_cons_self b tl)
    · rw [if_neg ha] at h
      obtain ⟨hmem, hne⟩ := ih (List.nodup_cons.mp hnd).2 h
      exact ⟨List.mem_cons_of_mem _ hmem, hne⟩

theorem listPrev_mem_ne (l : List NodeId) (n x : NodeId) (hnd : l.Nodup)
    (h : listPrev l n = some x) : x ∈ l ∧ x ≠ n := by
  rw [listPrev] at h
  obtain ⟨hmem, hne⟩ := listNext_mem_ne l.reverse n x (List.nodup_reverse.mpr hnd) h
  exact ⟨List.mem_reverse.mp hmem, hne⟩

theorem ancestorsFuel_live : ∀ (fuel : Nat) (t : TreeState) (n : NodeId) (l : List NodeId),
    ancestorsFuel t fuel n = some l → ∀ x ∈ l, (alookup x t.nodes).isSome := by
  intro fuel
  induction fuel with
  | zero => intro t n l h; cases h
  | succ fuel ih =>
    intro t n l h x hx
    rw [ancestorsFuel] at h
    simp only [Option.bind_eq_bind] at h
    rcases Option.bind_eq_some.mp h with ⟨nd, hnd, h⟩
    cases hp : nd.parent with
    | none =>
      rw [hp, Option.some_inj] at h
      subst h
      have he : x = n := List.mem_singleton.mp hx
      subst he
      rw [nodeData] at hnd
      rw [hnd]
      rfl
    | some p =>
      rw [hp] at h
      rcases Option.bind_eq_some.mp h with ⟨rest, hrest, h⟩
      rw [Option.some_inj] at h
      subst h
      rcases List.mem_cons.mp hx with he | he
      · subst he
        rw [nodeData] at hnd
        rw [hnd]
        rfl
      · exact ih t p rest hrest x he

theorem ancestorsFuel_congr (t1 t2 : TreeState) (hn : t1.nodes = t2.nodes) :
    ∀ (fuel : Nat) (n : NodeId), ancestorsFuel t1 fuel n = ancestorsFuel t2 fuel n := by
  intro fuel
  induction fuel with
  | zero => intro n; rfl
  | succ fuel ih =>
    intro n
    rw [ancestorsFuel, ancestorsFuel, nodeData, nodeData, hn]
    congr 1
    funext nd
    cases nd.parent with
    | none => rfl
    | some p =>
      show (ancestorsFuel t1 fuel p).bind _ = (ancestorsFuel t2 fuel p).bind _
      rw [ih p]

theorem ancestors_congr (t1 t2 : TreeState) (hn : t1.nodes = t2.nodes) (n : NodeId) :
    ancestors t1 n = ancestors t2 n := by
  rw [ancestors, ancestors, treeFuel, treeFuel, hn, ancestorsFuel_congr t1 t2 hn]

theorem move_over_total (lt : LayoutTree) (d : Direction) (n : NodeId) (nd : Node)
    (hw : Wf lt.tree) (hnd : alookup n lt.tree.nodes = some nd) :
    ∃ r, lt.move_over n d = some r ∧ ∀ x, r = some x →
      ∃ xd, alookup x lt.tree.nodes = some xd ∧ xd.parent = nd.parent ∧ x ≠ n := by
  cases hp : nd.parent with
  | none =>
    refine ⟨none, ?_, ?_⟩
    · show (nodeData lt.tree n).bind _ = some none
      refine Option.bind_eq_some.mpr ⟨nd, hnd, ?_⟩
      rw [hp]
    · intro x hx
      cases hx
  | some p =>
    obtain ⟨pd, hpd, hnmem⟩ := hw.2 n nd hnd p hp
    obtain ⟨ip, hip, _⟩ := hw.1.2.2 p pd hpd
    have hk : kindOf lt.tree p = some ip.kind := by
      rw [kindOf, hip]
      rfl
    have hsib : ∀ x, (listNext pd.children n = some x ∨ listPrev pd.children n = some x) →
        ∃ xd, alookup x lt.tree.nodes = some xd ∧ xd.parent = some p ∧ x ≠ n := by
      intro x hx
      have hmemne : x ∈ pd.children ∧ x ≠ n := by
        rcases hx with hx | hx
        · exact listNext_mem_ne _ _ _ (hw.1.2.1 p pd hpd).1 hx
        · exact listPrev_mem_ne _ _ _ (hw.1.2.1 p pd hpd).1 hx
      obtain ⟨xd, hxd, hxp⟩ := (hw.1.2.1 p pd hpd).2.2 x hmemne.1
      exact ⟨xd, hxd, hxp, hmemne.2⟩
    by_cases ho : ip.kind.orientation = d.orientation
    · cases d with
      | up =>
        refine ⟨listPrev pd.children n, ?_, fun x hx => hsib x (Or.inr hx)⟩
        show (nodeData lt.tree n).bind _ = _
        refine Option.bind_eq_some.mpr ⟨nd, hnd, ?_⟩
        rw [hp]
        refine Option.bind_eq_some.mpr ⟨ip.kind, hk, ?_⟩
        rw [if_pos ho]
        show (nodeData lt.tree n).bind _ = _
        refine Option.bind_eq_some.mpr ⟨nd, hnd, ?_⟩
        rw [hp]
        exact Option.bind_eq_some.mpr ⟨pd, hpd, rfl⟩
      | left =>
        refine ⟨listPrev pd.children n, ?_, fun x hx => hsib x (Or.inr hx)⟩
        show (nodeData lt.tree n).bind _ = _
        refine Option.bind_eq_some.mpr ⟨nd, hnd, ?_⟩
        rw [hp]
        refine Option.bind_eq_some.mpr ⟨ip.kind, hk, ?_⟩
        rw [if_pos ho]
        show (nodeData lt.tree n).bind _ = _
        refine Option.bind_eq_some.mpr ⟨nd, hnd, ?_⟩
        rw [hp]
        exact Option.bind_eq_some.mpr ⟨pd, hpd, rfl⟩
      | down =>
        refine ⟨listNext pd.children n, ?_, fun x hx => hsib x (Or.inl hx)⟩
        show (nodeData lt.tree n).bind _ = _
        refine Option.bind_eq_some.mpr ⟨nd, hnd, ?_⟩
        rw [hp]
        refine Option.bind_eq_some.mpr ⟨ip.kind, hk, ?_⟩
        rw [if_pos ho]
        show (nodeData lt.tree n).bind _ = _
        refine Option.bind_eq_some.mpr ⟨nd, hnd, ?_⟩
        rw [hp]
        exact Option.bind_eq_some.mpr ⟨pd, hpd, rfl⟩
      | right =>
        refine ⟨listNext pd.children n, ?_, fun x hx => hsib x (Or.inl hx)⟩
        show (nodeData lt.tree n).bind _ = _
        refine Option.bind_eq_some.mpr ⟨nd, hnd, ?_⟩
        rw [hp]
        refine Option.bind_eq_some.mpr ⟨ip.kind, hk, ?_⟩
        rw [if_pos ho]
        show (nodeData lt.tree n).bind _ = _
        refine Option.bind_eq_some.mpr ⟨nd, hnd, ?_⟩
        rw [hp]
        exact Option.bind_eq_some.mpr ⟨pd, hpd, rfl⟩
    · refine ⟨none, ?_, fun x hx => absurd hx (by simp)⟩
      show (nodeData lt.tree n).bind _ = _
      refine Option.bind_eq_some.mpr ⟨nd, hnd, ?_⟩
      rw [hp]
      refine Option.bind_eq_some.mpr ⟨ip.kind, hk, ?_⟩
      rw [if_neg ho]

theorem canResize_total (lt : LayoutTree) (d : Direction) (n : NodeId) (nd : Node)
    (hw : Wf lt.tree) (hnd : alookup n lt.tree.nodes = some nd) :
    ∃ b, canResize lt d n = some b ∧ (b = true →
      ∃ p pd ip sib sibd, nd.parent = some p ∧ alookup p lt.tree.nodes = some pd ∧
        alookup p lt.tree.info = some ip ∧ ip.kind.is_group = false ∧
        lt.move_over n d = some (some sib) ∧ alookup sib lt.tree.nodes = some sibd ∧
        sibd.parent = some p ∧ sib ≠ n) := by
  cases hp : nd.parent with
  | none =>
    refine ⟨false, ?_, fun h => absurd h (by simp)⟩
    show (nodeData lt.tree n).bind _ = some false
    refine Option.bind_eq_some.mpr ⟨nd, hnd, ?_⟩
    rw [hp]
  | some p =>
    obtain ⟨pd, hpd, _⟩ := hw.2 n nd hnd p hp
    obtain ⟨ip, hip, _⟩ := hw.1.2.2 p pd hpd
    have hk : kindOf lt.tree p = some ip.kind := by
      rw [kindOf, hip]
      rfl
    obtain ⟨r, hr, hrP⟩ := move_over_total lt d n nd hw hnd
    by_cases hg : ip.kind.is_group = true
    · refine ⟨false, ?_, fun h => absurd h (by simp)⟩
      show (nodeData lt.tree n).bind _ = some false
      refine Option.bind_eq_some.mpr ⟨nd, hnd, ?_⟩
      rw [hp]
      refine Option.bind_eq_some.mpr ⟨ip.kind, hk, ?_⟩
      rw [if_pos hg]
    · refine ⟨r.isSome, ?_, ?_⟩
      · show (nodeData lt.tree n).bind _ = some r.isSome
        refine Option.bind_eq_some.mpr ⟨nd, hnd, ?_⟩
        rw [hp]
        refine Option.bind_eq_some.mpr ⟨ip.kind, hk, ?_⟩
        rw [if_neg hg]
        exact Option.bind_eq_some.mpr ⟨r, hr, rfl⟩
      · intro hb
        obtain ⟨sib, hsibv⟩ := Option.isSome_iff_exists.mp hb
        obtain ⟨sibd, hsibd, hsibp, hsibne⟩ := hrP sib hsibv
        refine ⟨p, pd, ip, sib, sibd, rfl, hpd, hip, eq_false_of_ne_true hg, ?_,
          hsibd, ?_, hsibne⟩
        · rw [hr, hsibv]
        · rw [hsibp, hp]

theorem findResizing_total (lt : LayoutTree) (d : Direction) :
    ∀ l : List NodeId, Wf lt.tree → (∀ m ∈ l, (alookup m lt.tree.nodes).isSome) →
      ∃ r, findResizing lt d l = some r ∧
        ∀ n2, r = some n2 → canResize lt d n2 = some true ∧
          (alookup n2 lt.tree.nodes).isSome := by
  intro l
  induction l with
  | nil =>
    intro hw hl
    refine ⟨none, rfl, ?_⟩
    intro n2 h
    cases h
  | cons n rest ih =>
    intro hw hl
    obtain ⟨nd, hnd⟩ := Option.isSome_iff_exists.mp (hl n (List.mem_cons_self _ _))
    obtain ⟨b, hb, hbP⟩ := canResize_total lt d n nd hw hnd
    cases b with
    | true =>
      refine ⟨some n, ?_, ?_⟩
      · show (canResize lt d n).bind _ = _
        refine Option.bind_eq_some.mpr ⟨true, hb, ?_⟩
        rw [if_pos rfl]
      · intro n2 h
        cases Option.some_inj.mp h
        exact ⟨hb, by rw [hnd]; rfl⟩
    | false =>
      obtain ⟨r, hr, hrP⟩ := ih hw (fun m hm => hl m (List.mem_cons_of_mem _ hm))
      refine ⟨r, ?_, hrP⟩
      show (canResize lt d n).bind _ = _
      refine Option.bind_eq_some.mpr ⟨false, hb, ?_⟩
      rw [if_neg (by simp)]
      exact hr

theorem exchangeRate_total (lt : LayoutTree) (d : Direction) :
    ∀ (l : List NodeId) (r0 : ℚ), Wf lt.tree →
      (∀ m ∈ l, (alookup m lt.tree.nodes).isSome) →
      ∃ v, exchangeRate lt d l r0 = some v := by
  intro l
  induction l with
  | nil => intro r0 hw hl; exact ⟨r0, rfl⟩
  | cons n rest ih =>
    intro r0 hw hl
    obtain ⟨nd, hnd⟩ := Option.isSome_iff_exists.mp (hl n (List.mem_cons_self _ _))
    have hlrest : ∀ m ∈ rest, (alookup m lt.tree.nodes).isSome :=
      fun m hm => hl m (List.mem_cons_of_mem _ hm)
    cases hp : nd.parent with
    | none =>
      obtain ⟨v, hv⟩ := ih r0 hw hlrest
      refine ⟨v, ?_⟩
      show (nodeData lt.tree n).bind _ = some v
      refine Option.bind_eq_some.mpr ⟨nd, hnd, ?_⟩
      rw [hp]
      exact hv
    | some p =>
      obtain ⟨pd, hpd, _⟩ := hw.2 n nd hnd p hp
      obtain ⟨ip, hip, _⟩ := hw.1.2.2 p pd hpd
      obtain ⟨i, hi, _⟩ := hw.1.2.2 n nd hnd
      have hk : kindOf lt.tree p = some ip.kind := by
        rw [kindOf, hip]
        rfl
      by_cases hcond : ip.kind.orientation = d.orientation ∧ ¬ip.kind.is_group = true
      · obtain ⟨v, hv⟩ := ih (r0 * (i.size / ip.total)) hw hlrest
        refine ⟨v, ?_⟩
        show (nodeData lt.tree n).bind _ = some v
        refine Option.bind_eq_some.mpr ⟨nd, hnd, ?_⟩
        rw [hp]
        refine Option.bind_eq_some.mpr ⟨ip.kind, hk, ?_⟩
        rw [if_pos hcond]
        refine Option.bind_eq_some.mpr ⟨some (i.size / ip.total), ?_, ?_⟩
        · show (nodeData lt.tree n).bind _ = _
          refine Option.bind_eq_some.mpr ⟨nd, hnd, ?_⟩
          rw [hp]
          refine Option.bind_eq_some.mpr ⟨i, hi, ?_⟩
          exact Option.bind_eq_some.mpr ⟨ip, hip, rfl⟩
        · exact Option.bind_eq_some.mpr ⟨i.size / ip.total, rfl, hv⟩
      · obtain ⟨v, hv⟩ := ih r0 hw hlrest
        refine ⟨v, ?_⟩
        show (nodeData lt.tree n).bind _ = some v
        refine Option.bind_eq_some.mpr ⟨nd, hnd, ?_⟩
        rw [hp]
        refine Option.bind_eq_some.mpr ⟨ip.kind, hk, ?_⟩
        rw [if_neg hcond]
        exact hv

theorem take_share_total (t : TreeState) (node src : NodeId) (share : ℚ)
    (nd sd : Node) (hw : Wf t)
    (hnd : alookup node t.nodes = some nd) (hsd : alookup src t.nodes = some sd)
    (hpar : nd.parent = sd.parent) :
    ∃ t2, take_share t node src share = some t2 ∧ t2.nodes = t.nodes := by
  obtain ⟨isrc, hisrc, _⟩ := hw.1.2.2 src sd hsd
  obtain ⟨inode, hinode, _⟩ := hw.1.2.2 node nd hnd
  obtain ⟨inode2, hinode2⟩ : ∃ inode2, alookup node (ainsert src { isrc with size := isrc.size - max (min share isrc.size) (-inode.size) } t.info) = some inode2 := by
    by_cases he : node = src
    · refine ⟨{ isrc with size := isrc.size - max (min share isrc.size) (-inode.size) }, ?_⟩
      rw [he, alookup_ainsert]
    · exact ⟨inode, by rw [alookup_ainsert_ne _ _ he]; exact hinode⟩
  refine ⟨{ t with info := ainsert node { inode2 with size := inode2.size + max (min share isrc.size) (-inode.size) } (ainsert src { isrc with size := isrc.size - max (min share isrc.size) (-inode.size) } t.info) }, ?_, rfl⟩
  show (nodeData t node).bind _ = _
  refine Option.bind_eq_some.mpr ⟨nd, hnd, ?_⟩
  refine Option.bind_eq_some.mpr ⟨sd, hsd, ?_⟩
  rw [if_pos hpar]
  refine Option.bind_eq_some.mpr ⟨isrc, hisrc, ?_⟩
  refine Option.bind_eq_some.mpr ⟨inode, hinode, ?_⟩
  refine Option.bind_eq_some.mpr ⟨inode2, hinode2, ?_⟩
  rfl

/-- Under a well-formed tree with terminating parent chains, resize never
panics: it returns a result whose tree has the same nodes and is again
well-formed. -/
theorem resize_total (lt : LayoutTree) (node : NodeId) (frac : ℚ) (d : Direction)
    (hw : Wf lt.tree)
    (hanc : ∀ m ∈ akeys lt.tree.nodes, (ancestors lt.tree m).isSome)
    (hnode : (alookup node lt.tree.nodes).isSome) :
    ∃ lt2 b, lt.resize node frac d = some (lt2, b) ∧ lt2.tree.nodes = lt.tree.nodes ∧
      Wf lt2.tree := by
  obtain ⟨nd0, hnd0⟩ := Option.isSome_iff_exists.mp hnode
  obtain ⟨anc, hancv⟩ := Option.isSome_iff_exists.mp
    (hanc node (mem_akeys_of_alookup hnd0))
  have hliveanc : ∀ m ∈ anc, (alookup m lt.tree.nodes).isSome :=
    ancestorsFuel_live _ _ _ _ hancv
  obtain ⟨rz, hrz, hrzP⟩ := findResizing_total lt d anc hw hliveanc
  cases rz with
  | none =>
    refine ⟨lt, false, ?_, rfl, hw⟩
    show (ancestors lt.tree node).bind _ = some (lt, false)
    refine Option.bind_eq_some.mpr ⟨anc, hancv, ?_⟩
    exact Option.bind_eq_some.mpr ⟨none, hrz, rfl⟩
  | some resizing =>
    obtain ⟨hcanr, hliver⟩ := hrzP resizing rfl
    obtain ⟨rd, hrd⟩ := Option.isSome_iff_exists.mp hliver
    obtain ⟨b2, hb2, hb2P⟩ := canResize_total lt d resizing rd hw hrd
    rw [hcanr] at hb2
    have hb2t : true = b2 := Option.some_inj.mp hb2
    obtain ⟨p, pd, ip, sib, sibd, hp, hpd, hip, hgroup, hmo, hsib, hsibp, hsibne⟩ :=
      hb2P hb2t.symm
    obtain ⟨ancR, hancRv⟩ := Option.isSome_iff_exists.mp
      (hanc resizing (mem_akeys_of_alookup hrd))
    have hliveR : ∀ m ∈ ancR.drop 1, (alookup m lt.tree.nodes).isSome :=
      fun m hm => ancestorsFuel_live _ _ _ _ hancRv m (List.drop_subset 1 ancR hm)
    obtain ⟨rate, hrate⟩ := exchangeRate_total lt d (ancR.drop 1) 1 hw hliveR
    obtain ⟨t2, ht2, ht2nodes⟩ := take_share_total lt.tree resizing sib
      (frac * ip.total / rate) rd sibd hw hrd hsib (by rw [hp, hsibp])
    have hwt2 : Wf t2 :=
      step_takeShare_wf lt.tree resizing sib (frac * ip.total / rate) t2 ht2 hw
        (fun he => hsibne he.symm)
    refine ⟨{ lt with tree := t2 }, true, ?_, ht2nodes, hwt2⟩
    show (ancestors lt.tree node).bind _ = some _
    refine Option.bind_eq_some.mpr ⟨anc, hancv, ?_⟩
    refine Option.bind_eq_some.mpr ⟨some resizing, hrz, ?_⟩
    refine Option.bind_eq_some.mpr ⟨some sib, hmo, ?_⟩
    refine Option.bind_eq_some.mpr ⟨sib, rfl, ?_⟩
    refine Option.bind_eq_some.mpr ⟨ancR, hancRv, ?_⟩
    refine Option.bind_eq_some.mpr ⟨rate, hrate, ?_⟩
    refine Option.bind_eq_some.mpr ⟨rd, hrd, ?_⟩
    refine Option.bind_eq_some.mpr ⟨p, hp, ?_⟩
    refine Option.bind_eq_some.mpr ⟨ip.total, ?_, ?_⟩
    · show (alookup p lt.tree.info).map _ = some ip.total
      rw [hip]
      rfl
    · exact Option.bind_eq_some.mpr ⟨t2, ht2, rfl⟩

/-- One edge stage of set_frame_from_resize always succeeds under the
well-formedness hypotheses and adds one to the count exactly when its delta
is non-zero. -/
theorem resizeStage_total (lt : LayoutTree) (node : NodeId) (c : Nat) (delta whole : ℚ)
    (dir : Direction)
    (hw : Wf lt.tree)
    (hanc : ∀ m ∈ akeys lt.tree.nodes, (ancestors lt.tree m).isSome)
    (hnode : (alookup node lt.tree.nodes).isSome) :
    ∃ lt2, resizeStage lt node c delta whole dir =
        some (lt2, c + (if delta ≠ 0 then 1 else 0)) ∧
      Wf lt2.tree ∧ (∀ m ∈ akeys lt2.tree.nodes, (ancestors lt2.tree m).isSome) ∧
      (alookup node lt2.tree.nodes).isSome := by
  by_cases hd : delta ≠ 0
  · obtain ⟨lt2, b, he, hnodes, hw2⟩ := resize_total lt node (delta / whole) dir hw hanc hnode
    refine ⟨lt2, ?_, hw2, ?_, ?_⟩
    · rw [resizeStage, if_pos hd, he, if_pos hd]
      rfl
    · intro m hm
      rw [show ancestors lt2.tree m = ancestors lt.tree m from
        ancestors_congr _ _ hnodes m]
      exact hanc m (by rw [← hnodes]; exact hm)
    · rw [hnodes]
      exact hnode
  · refine ⟨lt, ?_, hw, hanc, hnode⟩
    rw [resizeStage, if_neg hd, if_neg hd]
    rfl

/-- C7: under a well-formed tree whose parent chains terminate and a node
present in the forest, set_frame_from_resize aborts (the source panics)
exactly when more than two of the four edge deltas between the old and new
frames are non-zero; with at most two changed edges it completes. -/
theorem c7_set_frame_resize_panic_iff (lt : LayoutTree) (node : NodeId)
    (o nf s : CGRect)
    (hw : Wf lt.tree)
    (hanc : ∀ m ∈ akeys lt.tree.nodes, (ancestors lt.tree m).isSome)
    (hnode : (alookup node lt.tree.nodes).isSome) :
    lt.set_frame_from_resize node o nf s = none ↔ 2 < countDeltas o nf := by
  obtain ⟨lt1, h1, hw1, ha1, hn1⟩ := resizeStage_total lt node 0
    (o.rmin.x - nf.rmin.x) s.size.width .left hw hanc hnode
  obtain ⟨lt2, h2, hw2, ha2, hn2⟩ := resizeStage_total lt1 node
    (0 + if o.rmin.x - nf.rmin.x ≠ 0 then 1 else 0)
    (nf.rmax.x - o.rmax.x) s.size.width .right hw1 ha1 hn1
  obtain ⟨lt3, h3, hw3, ha3, hn3⟩ := resizeStage_total lt2 node
    ((0 + if o.rmin.x - nf.rmin.x ≠ 0 then 1 else 0) +
      if nf.rmax.x - o.rmax.x ≠ 0 then 1 else 0)
    (o.rmin.y - nf.rmin.y) s.size.height .up hw2 ha2 hn2
  obtain ⟨lt4, h4, hw4, ha4, hn4⟩ := resizeStage_total lt3 node
    (((0 + if o.rmin.x - nf.rmin.x ≠ 0 then 1 else 0) +
      if nf.rmax.x - o.rmax.x ≠ 0 then 1 else 0) +
      if o.rmin.y - nf.rmin.y ≠ 0 then 1 else 0)
    (nf.rmax.y - o.rmax.y) s.size.height .down hw3 ha3 hn3
  have hcount : (((0 + if o.rmin.x - nf.rmin.x ≠ 0 then 1 else 0) +
      if nf.rmax.x - o.rmax.x ≠ 0 then 1 else 0) +
      if o.rmin.y - nf.rmin.y ≠ 0 then 1 else 0) +
      (if nf.rmax.y - o.rmax.y ≠ 0 then 1 else 0) = countDeltas o nf := by
    rw [countDeltas, Nat.zero_add]
  have hres : lt.set_frame_from_resize node o nf s =
      if 2 < countDeltas o nf then none else some lt4 := by
    show (resizeStage lt node 0 (o.rmin.x - nf.rmin.x) s.size.width .left).bind _ = _
    simp only [h1, h2, h3, h4, Option.bind_eq_bind, Option.some_bind, gt_iff_lt]
    rw [hcount]
  rw [hres]
  by_cases hc : 2 < countDeltas o nf
  · rw [if_pos hc]
    exact iff_of_true rfl hc
  · rw [if_neg hc]
    exact iff_of_false (by simp) hc

def c7ops : List TreeOp := [.mkRoot, .pushBack 0, .pushBack 0]

def c7state : TreeState := (runTreeOps c7ops).getD emptyTree

def c7lt : LayoutTree := { tree := c7state }

def c7old : CGRect := ⟨⟨0, 0⟩, ⟨100, 100⟩⟩

def c7new : CGRect := ⟨⟨10, 0⟩, ⟨100, 100⟩⟩

def c7screen : CGRect := ⟨⟨0, 0⟩, ⟨1000, 1000⟩⟩

/-- Witness for C7: on a concrete three-node tree, a resize that moves two
edges (left and right) does not abort. -/
theorem c7_set_frame_resize_panic_iff_witness :
    c7lt.set_frame_from_resize 1 c7old c7new c7screen = none ↔
      2 < countDeltas c7old c7new :=
  c7_set_frame_resize_panic_iff c7lt 1 c7old c7new c7screen
    (foldlM_stepOp_wf c7ops emptyTree c7state wf_empty (by decide) (by decide))
    (by decide) (by decide)

/-! Claim C8: in Layout::apply (layout.rs 199-258), a container of kind
Tabbed or Stacked recurses into every child with the container's own
rectangle, so a leaf window separated from a group container only by further
group containers receives exactly that container's rectangle. -/

/-- A group-only path: GroupReach t ws n m holds when m is reached from n by
descending only through containers whose layout kind is Tabbed or Stacked
(and which are not themselves windows) — no intervening split container. -/
inductive GroupReach (t : TreeState) (ws : List (NodeId × WindowId)) :
    NodeId → NodeId → Prop
  | refl (n : NodeId) : GroupReach t ws n n
  | step (n c m : NodeId) (i : LayoutInfo) (nd : Node)
      (hw : alookup n ws = none)
      (hi : alookup n t.info = some i)
      (hk : i.kind = .tabbed ∨ i.kind = .stacked)
      (hnd : nodeData t n = some nd)
      (hc : c ∈ nd.children)
      (hr : GroupReach t ws c m) : GroupReach t ws n m

theorem applyFuel_group_sub (t : TreeState) (ws : List (NodeId × WindowId))
    (rect : CGRect) :
    ∀ (f : Nat) (cs : List NodeId) (out : List (WindowId × CGRect)),
      applyFuel t ws f (.group cs rect) = some out →
      ∀ c ∈ cs, ∃ f2 o, applyFuel t ws f2 (.node c rect) = some o ∧
        ∀ x ∈ o, x ∈ out := by
  intro f
  induction f with
  | zero =>
    intro cs out h c hc
    cases cs with
    | nil => cases hc
    | cons c0 rest => exact Option.noConfusion h
  | succ f ih =>
    intro cs out h c hc
    cases cs with
    | nil => cases hc
    | cons c0 rest =>
      rcases Option.bind_eq_some.mp h with ⟨o1, ho1, h⟩
      rcases Option.bind_eq_some.mp h with ⟨o2, ho2, h⟩
      have hout : o1 ++ o2 = out := Option.some_inj.mp h
      subst hout
      rcases List.mem_cons.mp hc with he | he
      · subst he
        exact ⟨f, o1, ho1, fun x hx => List.mem_append_left _ hx⟩
      · obtain ⟨f2, o, ho, hsub⟩ := ih rest o2 ho2 c he
        exact ⟨f2, o, ho, fun x hx => List.mem_append_right _ (hsub x hx)⟩

/-- C8: in get_sizes (Layout::apply), a Tabbed or Stacked container passes
its own rectangle unchanged to every child, so whenever a leaf window m is
reachable from a container n through group containers only (GroupReach, no
intervening split), any successful apply of n at rectangle rect places m's
window at exactly rect. -/
theorem c8_group_containers_same_rect (t : TreeState)
    (ws : List (NodeId × WindowId)) (n m : NodeId) (wid : WindowId)
    (hreach : GroupReach t ws n m) :
    alookup m ws = some wid →
    ∀ (fuel : Nat) (rect : CGRect) (out : List (WindowId × CGRect)),
      applyFuel t ws fuel (.node n rect) = some out → (wid, rect) ∈ out := by
  induction hreach with
  | refl n =>
    intro hm fuel rect out h
    cases fuel with
    | zero => exact Option.noConfusion h
    | succ f =>
      rw [applyFuel, hm] at h
      have hout : [(wid, rect)] = out := Option.some_inj.mp h
      subst hout
      exact List.mem_singleton.mpr rfl
  | step n c m i nd hw hi hk hnd hc hr ih =>
    intro hm fuel rect out h
    cases fuel with
    | zero => exact Option.noConfusion h
    | succ f =>
      rw [applyFuel, hw] at h
      rcases Option.bind_eq_some.mp h with ⟨i2, hi2, h⟩
      rw [hi] at hi2
      have hieq : i = i2 := Option.some_inj.mp hi2
      subst hieq
      rcases Option.bind_eq_some.mp h with ⟨nd2, hnd2, h⟩
      rw [hnd] at hnd2
      have hndeq : nd = nd2 := Option.some_inj.mp hnd2
      subst hndeq
      have hg : applyFuel t ws f (.group nd.children rect) = some out := by
        rcases hk with hk1 | hk1 <;> rw [hk1] at h <;> exact h
      obtain ⟨f2, o, ho, hsub⟩ :=
        applyFuel_group_sub t ws rect f nd.children out hg c hc
      exact hsub _ (ih hm f2 rect o ho)

def c8tree : TreeState :=
  TreeState.mk [(0, Node.mk none [1, 2]), (1, Node.mk (some 0) []), (2, Node.mk (some 0) [])] 3 [(0, LayoutInfo.mk 1 2 .tabbed .horizontal), (1, LayoutInfo.mk 1 0 .horizontal .horizontal), (2, LayoutInfo.mk 1 0 .horizontal .horizontal)] [] []

def c8ws : List (NodeId × WindowId) := [(1, WindowId.mk 1 1), (2, WindowId.mk 1 2)]

def c8rect : CGRect := ⟨⟨0, 0⟩, ⟨640, 480⟩⟩

/-- Witness for C8: in a concrete tree with a tabbed root over two windows,
the second window is laid out at exactly the root's rectangle. -/
theorem c8_group_containers_same_rect_witness :
    (WindowId.mk 1 2, c8rect) ∈
      [(WindowId.mk 1 1, c8rect), (WindowId.mk 1 2, c8rect)] :=
  c8_group_containers_same_rect c8tree c8ws 0 2 (WindowId.mk 1 2)
    (GroupReach.step 0 2 2 (LayoutInfo.mk 1 2 .tabbed .horizontal)
      (Node.mk none [1, 2]) (by decide) (by decide) (Or.inl rfl) (by decide)
      (by decide) (GroupReach.refl 2))
    (by decide) (applyFuelOf c8tree) c8rect
    [(WindowId.mk 1 1, c8rect), (WindowId.mk 1 2, c8rect)] (by decide)

end Swell
